import Mathlib

/-!
# SibeliaZ-LCB: bubble-enclosed synteny detector

A shallow embedding of `src/SibeliaZ-LCB/blocksfinder.h` (class `BlocksFinder`) and
theorems about it.

Conventions of the embedding:

* `int64_t` values (positions, sizes, the block counter) are mathematical integers; positions
  are offsets into chromosome sequences held in memory, so differences and sums of two of
  them with `k` stay far inside the 64-bit range.
* `size_t` fields of `BlockInstance` are naturals; the conversion from `int64_t` that happens
  when the constructor is called is `toSizeT`, reduction modulo `2^64`.
* `std::vector` is `List`, `push_back` is appending at the end.
* Dereferencing a past-the-end iterator is undefined behaviour; the embedding returns `none`.
-/

namespace Sibelia

/-! ## The junction storage interface (junctionstorage.h is not part of the sources) -/

/-- Modelled from the spec: `JunctionStorage::JunctionSequentialIterator`, whose declaration
(junctionstorage.h) is missing. An instance is an index into the dense junction array of one
chromosome plus a strand bit. -/
structure JunctionSequentialIterator where
  chrId : Nat
  idx : Int
  positiveStrand : Bool
deriving DecidableEq, Repr, Inhabited

/-- Modelled from the spec: the read-only `JunctionStorage` (junctionstorage.h is missing), as
the accessors that the block finder consumes. `instances v` is the sequence produced by
`JunctionStorage::JunctionIterator(v)`; `vertexId`, `position` and `char` are what
`GetVertexId`, `GetPosition` and `GetChar` return for an instance read on its strand. -/
structure JunctionStorage where
  chrNumber : Nat
  chrVerticesCount : Nat → Nat
  chrLength : Nat → Nat
  verticesNumber : Nat
  instances : Int → List JunctionSequentialIterator
  vertexId : JunctionSequentialIterator → Int
  position : JunctionSequentialIterator → Nat
  char : JunctionSequentialIterator → Char

namespace JunctionSequentialIterator

/-- Modelled from the spec: `operator+ (step)` of the missing iterator type; "next means
index + strand": the index moves up on the positive strand and down on the negative one. -/
def plus (it : JunctionSequentialIterator) (step : Nat) : JunctionSequentialIterator :=
  { it with idx := if it.positiveStrand then it.idx + step else it.idx - step }

/-- Modelled from the spec: `operator- (step)` of the missing iterator type, the opposite
of `plus`. -/
def minus (it : JunctionSequentialIterator) (step : Nat) : JunctionSequentialIterator :=
  { it with idx := if it.positiveStrand then it.idx - step else it.idx + step }

/-- Modelled from the spec: `Valid()` of the missing iterator type, the validity flag of an
index into the dense per-chromosome array. -/
def Valid (s : JunctionStorage) (it : JunctionSequentialIterator) : Bool :=
  decide (0 ≤ it.idx) && decide (it.idx < (s.chrVerticesCount it.chrId : Int))

/-- Modelled from the spec: `operator<` of the missing iterator type, "comparison `<` over
index within the same chromosome". The specification does not say how two instances of
different chromosomes compare; the comparison by index is applied to them as well, which is
one choice among others. Statements that depend on that choice take the comparison as a
parameter (`Fork.newWith`). -/
def lt (a b : JunctionSequentialIterator) : Bool :=
  decide (a.idx < b.idx)

/-- The value of `GetPosition()`, an `int64_t`. -/
def GetPosition (s : JunctionStorage) (it : JunctionSequentialIterator) : Int :=
  (s.position it : Int)

end JunctionSequentialIterator

/-- Modelled from the spec: `TwoPaCo::DnaChar::MakeUpChar` (external library), the index of
the character bucket of a label: `A, C, G, T` are buckets 0 to 3 and "the character 'N' or
any non-ACGT label" is bucket 4. -/
def MakeUpChar (c : Char) : Nat :=
  if c = 'A' then 0 else if c = 'C' then 1 else if c = 'G' then 2 else if c = 'T' then 3 else 4

/-! ## Bubble enumerator -/

/-- The type `BubbledBranches`: `std::vector<std::vector<size_t> >`. -/
abbrev BubbledBranches := List (List Nat)

/-- The map `std::map<int64_t, BranchData> visit`, kept as an association list in ascending
key order (the order in which the map is iterated). -/
abbrev VisitMap := List (Int × List Nat)

/-- The statement `v[i].push_back(x)` on a vector of vectors. -/
def pushBackAt : List (List Nat) → Nat → Nat → List (List Nat)
  | [], _, _ => []
  | b :: bs, 0, x => (b ++ [x]) :: bs
  | b :: bs, i + 1, x => b :: pushBackAt bs i x

/-- Lines 528-539: look `nowVertexId` up in `visit`; insert `BranchData` holding `i` when it
is absent, otherwise push `i` on the branch list found. -/
def visitPush : VisitMap → Int → Nat → VisitMap
  | [], nowVertexId, i => [(nowVertexId, [i])]
  | (w, branchId) :: rest, nowVertexId, i =>
    if nowVertexId = w then (w, branchId ++ [i]) :: rest
    else if nowVertexId < w then (nowVertexId, [i]) :: (w, branchId) :: rest
    else (w, branchId) :: visitPush rest nowVertexId i

/-- The loop of line 526 (and 588) once `startPosition` is taken and `vertex` has been moved
one step: while `vertex` is valid and within `maxBranchSize_` of the start, record the vertex
and step on with `next`. The first argument bounds the number of iterations. -/
def walk (s : JunctionStorage) (next : JunctionSequentialIterator → JunctionSequentialIterator)
    (maxBranchSize : Int) (startPosition : Int) (i : Nat) :
    Nat → JunctionSequentialIterator → VisitMap → VisitMap
  | 0, _, visit => visit
  | fuel + 1, vertex, visit =>
    if vertex.Valid s &&
        decide (((startPosition - vertex.GetPosition s).natAbs : Int) ≤ maxBranchSize) then
      walk s next maxBranchSize startPosition i fuel (next vertex)
        (visitPush visit (s.vertexId vertex) i)
    else visit

/-- The number of iterations after which the loop of `walk` has certainly left the junction
array of the chromosome of `vertex`. -/
def walkFuel (s : JunctionStorage) (vertex : JunctionSequentialIterator) : Nat :=
  s.chrVerticesCount vertex.chrId + 1

/-- Lines 518-541: the first loop of `BubbledBranchesForward` from index `i` on, over the
instances that are left. -/
def scanForward (s : JunctionStorage) (maxBranchSize : Int) :
    List JunctionSequentialIterator → Nat → List (List Nat) × VisitMap → List (List Nat) × VisitMap
  | [], _, acc => acc
  | vertex :: rest, i, (parallelEdge, visit) =>
    let parallelEdge :=
      if (vertex.plus 1).Valid s then pushBackAt parallelEdge (MakeUpChar (s.char vertex)) i
      else parallelEdge
    let visit := walk s (fun it => it.plus 1) maxBranchSize (vertex.GetPosition s) i
      (walkFuel s vertex) (vertex.plus 1) visit
    scanForward s maxBranchSize rest (i + 1) (parallelEdge, visit)

/-- Lines 579-603: the first loop of `BubbledBranchesBackward`. -/
def scanBackward (s : JunctionStorage) (maxBranchSize : Int) :
    List JunctionSequentialIterator → Nat → List (List Nat) × VisitMap → List (List Nat) × VisitMap
  | [], _, acc => acc
  | vertex :: rest, i, (parallelEdge, visit) =>
    let prev := vertex.minus 1
    let parallelEdge :=
      if prev.Valid s then pushBackAt parallelEdge (MakeUpChar (s.char prev)) i
      else parallelEdge
    let visit := walk s (fun it => it.minus 1) maxBranchSize (vertex.GetPosition s) i
      (walkFuel s vertex) (vertex.minus 1) visit
    scanBackward s maxBranchSize rest (i + 1) (parallelEdge, visit)

/-- The pairs `(v[j], v[k])` for `j < k`, in the order of the two nested loops
`for j ... for k = j + 1 ...`. -/
def pairsFrom : List Nat → List (Nat × Nat)
  | [] => []
  | a :: rest => rest.map (fun b => (a, b)) ++ pairsFrom rest

/-- Lines 543-554 (and 605-616): every pair of one character bucket is recorded. -/
def addParallel (parallelEdge : List (List Nat)) (bulges : BubbledBranches) : BubbledBranches :=
  parallelEdge.foldl
    (fun bulges bucket =>
      (pairsFrom bucket).foldl (fun bulges p => pushBackAt bulges p.1 p.2) bulges)
    bulges

/-- Lines 563-568: record `largeBranch` unless the two are equal or it is already present. -/
def addVisitedPair (bulges : BubbledBranches) (p : Nat × Nat) : BubbledBranches :=
  let smallBranch := p.1
  let largeBranch := p.2
  if smallBranch ≠ largeBranch ∧ ¬ largeBranch ∈ bulges.getD smallBranch [] then
    pushBackAt bulges smallBranch largeBranch
  else bulges

/-- Lines 556-571 (and 618-633): for every visited vertex in key order, sort its branch list
and record every pair of it. -/
def addVisited (visit : VisitMap) (bulges : BubbledBranches) : BubbledBranches :=
  visit.foldl
    (fun bulges point =>
      (pairsFrom (point.2.insertionSort (· ≤ ·))).foldl addVisitedPair bulges)
    bulges

/-- The five empty vectors `std::vector<size_t> parallelEdge[5]`. -/
def emptyParallelEdge : List (List Nat) := [[], [], [], [], []]

/-- `BlocksFinder::BubbledBranchesForward` (lines 513-572); the result is the final value of
`bulges`. The parameter `vertexId` is not used by the source. -/
def BubbledBranchesForward (s : JunctionStorage) (maxBranchSize : Int)
    (inst : List JunctionSequentialIterator) : BubbledBranches :=
  let r := scanForward s maxBranchSize inst 0 (emptyParallelEdge, [])
  addVisited r.2 (addParallel r.1 (List.replicate inst.length []))

/-- `BlocksFinder::BubbledBranchesBackward` (lines 574-634). -/
def BubbledBranchesBackward (s : JunctionStorage) (maxBranchSize : Int)
    (inst : List JunctionSequentialIterator) : BubbledBranches :=
  let r := scanBackward s maxBranchSize inst 0 (emptyParallelEdge, [])
  addVisited r.2 (addParallel r.1 (List.replicate inst.length []))

/-! ## Forks -/

/-- The struct `Fork` (lines 437-506): the array `branch[2]` of two iterators. -/
structure Fork where
  branch0 : JunctionSequentialIterator
  branch1 : JunctionSequentialIterator
deriving DecidableEq, Repr, Inhabited

namespace Fork

/-- The element `branch[l]` for `l < 2`. -/
def branch (f : Fork) (l : Nat) : JunctionSequentialIterator :=
  if l = 0 then f.branch0 else f.branch1

/-- The constructor `Fork(it, jt)` (lines 439-451). -/
def new (it jt : JunctionSequentialIterator) : Fork :=
  if it.lt jt then { branch0 := it, branch1 := jt } else { branch0 := jt, branch1 := it }

/-- `Fork::operator<` (lines 474-503). The first two loops run over both branches. The third
loop returns in its first iteration, for `l = 0`, on either side of its `if`, so the position
of `branch[1]` is never read. -/
def lt (s : JunctionStorage) (a f : Fork) : Bool :=
  if a.branch0.positiveStrand ≠ f.branch0.positiveStrand then
    decide (a.branch0.positiveStrand < f.branch0.positiveStrand)
  else if a.branch1.positiveStrand ≠ f.branch1.positiveStrand then
    decide (a.branch1.positiveStrand < f.branch1.positiveStrand)
  else if a.branch0.chrId ≠ f.branch0.chrId then
    decide (a.branch0.chrId < f.branch0.chrId)
  else if a.branch1.chrId ≠ f.branch1.chrId then
    decide (a.branch1.chrId < f.branch1.chrId)
  else if a.branch0.positiveStrand then
    decide (a.branch0.GetPosition s < f.branch0.GetPosition s)
  else
    decide (a.branch0.GetPosition s > f.branch0.GetPosition s)

end Fork

/-- `BlocksFinder::ChainLength` (lines 508-511). -/
def ChainLength (s : JunctionStorage) (now next : Fork) : Int :=
  min (((now.branch 0).GetPosition s - (next.branch 0).GetPosition s).natAbs : Int)
    (((now.branch 1).GetPosition s - (next.branch 1).GetPosition s).natAbs : Int)

/-! ## Block instances -/

/-- The class `BlockInstance` (lines 28-53): `int id_` and three `size_t` fields. -/
structure BlockInstance where
  id_ : Int
  start_ : Nat
  end_ : Nat
  chr_ : Nat
deriving DecidableEq, Repr, Inhabited

/-- Conversion of an `int64_t` value to `size_t`. -/
def toSizeT (x : Int) : Nat := (x % 2 ^ 64).toNat

/-- Conversion of an `int64_t` value to `int32_t`, and to `int`, which has 32 bits: the value
modulo `2^32` in the range from `-2^31` to `2^31 - 1`. -/
def toInt32 (x : Int) : Int := (x + 2 ^ 31) % 2 ^ 32 - 2 ^ 31

/-- The constructor `BlockInstance(int id, const size_t chr, size_t start, size_t end)` called
with `int64_t` arguments for `id`, `start` and `end`: the parameter `id` is an `int`, so the
signed counter is narrowed to 32 bits before it is stored in `id_`. -/
def BlockInstance.new (id : Int) (chr : Nat) (start end1 : Int) : BlockInstance :=
  { id_ := toInt32 id, start_ := toSizeT start, end_ := toSizeT end1, chr_ := chr }

/-! ## The block finder -/

/-- The data members of `BlocksFinder` that the enumeration and the pairing read or write
(lines 731-753); `storage_` is passed separately. -/
structure BlocksFinder where
  k_ : Nat
  blocksFound_ : Int
  minBlockSize_ : Int
  maxBranchSize_ : Int
  maxFlankingSize_ : Int
  blocksInstance_ : List BlockInstance
  sink_ : List Fork
  source_ : List Fork
deriving DecidableEq, Repr

/-- The constructor `BlocksFinder(storage, k)` (lines 184-188): the vectors start empty. The
integer members are not initialised by it, and `FindBlocks` assigns them before use. -/
def BlocksFinder.new (k : Nat) : BlocksFinder :=
  { k_ := k, blocksFound_ := 0, minBlockSize_ := 0, maxBranchSize_ := 0, maxFlankingSize_ := 0,
    blocksInstance_ := [], sink_ := [], source_ := [] }

/-- Lines 674-685 with `X = forwardBubble`, `Y = backwardBubble`, and lines 687-698 with the
two exchanged: the index pairs `(i, k)` for which a fork is appended, in the order of the
loops. -/
def forkPairs (inst : List JunctionSequentialIterator) (X Y : BubbledBranches) :
    List (Nat × Nat) :=
  (List.range X.length).flatMap fun i =>
    ((X.getD i []).filter fun k =>
      decide (¬ k ∈ Y.getD i []) &&
        ((inst.getD i default).positiveStrand || (inst.getD k default).positiveStrand)).map
      fun k => (i, k)

/-- The forks `Fork(instance[i], instance[k])` appended by one of the two loop nests. -/
def forksOf (inst : List JunctionSequentialIterator) (X Y : BubbledBranches) : List Fork :=
  (forkPairs inst X Y).map fun p => Fork.new (inst.getD p.1 default) (inst.getD p.2 default)

/-- One iteration of the loop of `CheckIfSource::operator()` (lines 657-700), for
`vertex = shuffle[r]`. -/
def CheckIfSource (s : JunctionStorage) (finder : BlocksFinder) (vertex : Int) : BlocksFinder :=
  let inst := s.instances vertex
  let forwardBubble := BubbledBranchesForward s finder.maxBranchSize_ inst
  let backwardBubble := BubbledBranchesBackward s finder.maxBranchSize_ inst
  { finder with
    source_ := finder.source_ ++ forksOf inst forwardBubble backwardBubble
    sink_ := finder.sink_ ++ forksOf inst backwardBubble forwardBubble }

/-- The call `std::sort(sink_.begin(), sink_.end())` with `Fork::operator<`. -/
def sortForks (s : JunctionStorage) (sink : List Fork) : List Fork :=
  sink.insertionSort (fun a b => Fork.lt s b a = false)

/-- The loop of `std::lower_bound` over `[first, first + count)` with `Fork::operator<`:
halve the range until it is empty. The first argument bounds the number of iterations. -/
def lowerBoundLoop (s : JunctionStorage) (sink : List Fork) (u : Fork) : Nat → Nat → Nat → Nat
  | 0, first, _ => first
  | fuel + 1, first, count =>
    if count = 0 then first
    else
      let step := count / 2
      let it := first + step
      if Fork.lt s (sink.getD it default) u then
        lowerBoundLoop s sink u fuel (it + 1) (count - (step + 1))
      else lowerBoundLoop s sink u fuel first step

/-- The index that `std::lower_bound(sink_.begin(), sink_.end(), u)` points to. -/
def lowerBound (s : JunctionStorage) (sink : List Fork) (u : Fork) : Nat :=
  lowerBoundLoop s sink u sink.length 0 sink.length

/-- Lines 262-268: the loop over `l` that compares the chromosome ids. Its `continue` belongs
to this inner loop and nothing follows it in the body, so the loop leaves everything as it
is. -/
def chrCheckLoop (u v : Fork) (finder : BlocksFinder) : BlocksFinder :=
  [0, 1].foldl
    (fun finder l => if (u.branch l).chrId ≠ (v.branch l).chrId then finder else finder)
    finder

/-- Lines 276-285: the block instance pushed for branch `l`. -/
def emitBranch (s : JunctionStorage) (k : Nat) (currentBlock : Int) (u v : Fork) (l : Nat) :
    BlockInstance :=
  let it := u.branch l
  let jt := v.branch l
  if jt.positiveStrand then
    BlockInstance.new currentBlock jt.chrId (it.GetPosition s) (jt.GetPosition s + k)
  else
    BlockInstance.new (-currentBlock) jt.chrId (jt.GetPosition s - k) (it.GetPosition s)

/-- Lines 262-287: the body of the loop of `FindBlocksPwise` once `v` is known. -/
def pairBody (s : JunctionStorage) (finder : BlocksFinder) (u v : Fork) : BlocksFinder :=
  let finder := chrCheckLoop u v finder
  if ChainLength s u v ≥ finder.minBlockSize_ then
    let currentBlock := finder.blocksFound_ + 1
    { finder with
      blocksFound_ := currentBlock
      blocksInstance_ := finder.blocksInstance_ ++
        [emitBranch s finder.k_ currentBlock u v 0, emitBranch s finder.k_ currentBlock u v 1] }
  else finder

/-- Line 260: `*std::lower_bound(sink_.begin(), sink_.end(), u)`, the sink paired with the
source `u`. The result of `std::lower_bound` is dereferenced without being compared to
`sink_.end()`; there is no value when it is the end of the vector. -/
def pairedSink (s : JunctionStorage) (sink : List Fork) (u : Fork) : Option Fork :=
  sink.get? (lowerBound s sink u)

/-- Lines 260-287: one iteration of the loop of `FindBlocksPwise` for the source `u`. -/
def pairStep (s : JunctionStorage) (finder : BlocksFinder) (u : Fork) : Option BlocksFinder :=
  match pairedSink s finder.sink_ u with
  | none => none
  | some v => some (pairBody s finder u v)

/-- The loop `for (auto & u : source_)` of line 258 over the sources that are left. -/
def pairLoop (s : JunctionStorage) : List Fork → BlocksFinder → Option BlocksFinder
  | [], finder => some finder
  | u :: rest, finder =>
    match pairStep s finder u with
    | none => none
    | some finder => pairLoop s rest finder

/-- `BlocksFinder::FindBlocksPwise` (lines 255-289). -/
def FindBlocksPwise (s : JunctionStorage) (finder : BlocksFinder) : Option BlocksFinder :=
  let finder := { finder with sink_ := sortForks s finder.sink_ }
  pairLoop s finder.source_ finder

/-- Lines 218-229: the vertex ids from `-V + 1` to `V - 1` that have an instance on the
positive strand. -/
def shuffleOf (s : JunctionStorage) : List Int :=
  ((List.range (2 * s.verticesNumber - 1)).map
    fun i => (i : Int) - ((s.verticesNumber : Int) - 1)).filter
    fun v => (s.instances v).any fun it => it.positiveStrand

/-- `BlocksFinder::FindBlocks` (lines 206-253). The workers of `tbb::parallel_for` append
under one mutex; the embedding runs them one vertex after the other in the order of
`shuffle`, which is one of the schedules. -/
def FindBlocks (s : JunctionStorage) (finder : BlocksFinder)
    (minBlockSize maxBranchSize maxFlankingSize : Int) : Option BlocksFinder :=
  let finder := { finder with
    blocksFound_ := 0
    minBlockSize_ := minBlockSize
    maxBranchSize_ := maxBranchSize
    maxFlankingSize_ := maxFlankingSize }
  let finder := (shuffleOf s).foldl (CheckIfSource s) finder
  FindBlocksPwise s finder

/-! ## Predicates and auxiliary definitions used to state the theorems -/

/-- Index `t` is on the branch list of some entry of `visit` with key `w`. -/
def inVisit (visit : VisitMap) (w : Int) (t : Nat) : Prop :=
  ∃ branchId, (w, branchId) ∈ visit ∧ t ∈ branchId

/-- The keys of `visit` are strictly increasing, as in a `std::map`. -/
def keysSorted (visit : VisitMap) : Prop :=
  (visit.map Prod.fst).Pairwise (· < ·)

/-- The loop condition of line 526 (and 588) for the instance `vertex`. -/
def withinBranch (s : JunctionStorage) (maxBranchSize startPosition : Int)
    (vertex : JunctionSequentialIterator) : Prop :=
  vertex.Valid s = true ∧
    ((startPosition - vertex.GetPosition s).natAbs : Int) ≤ maxBranchSize

/-- The common shape of `scanForward` and `scanBackward`: `hasEdge` is the test that guards
the push on `parallelEdge`, `bucket` the index pushed to, `walkOf` the walk loop. -/
def scanGen (hasEdge : JunctionSequentialIterator → Bool)
    (bucket : JunctionSequentialIterator → Nat)
    (walkOf : JunctionSequentialIterator → Nat → VisitMap → VisitMap) :
    List JunctionSequentialIterator → Nat → List (List Nat) × VisitMap → List (List Nat) × VisitMap
  | [], _, acc => acc
  | vertex :: rest, i, (parallelEdge, visit) =>
    scanGen hasEdge bucket walkOf rest (i + 1)
      (if hasEdge vertex then pushBackAt parallelEdge (bucket vertex) i else parallelEdge,
        walkOf vertex i visit)

/-- The two later loops applied to the result of `scanGen`. -/
def bubblesGen (hasEdge : JunctionSequentialIterator → Bool)
    (bucket : JunctionSequentialIterator → Nat)
    (walkOf : JunctionSequentialIterator → Nat → VisitMap → VisitMap)
    (inst : List JunctionSequentialIterator) : BubbledBranches :=
  let r := scanGen hasEdge bucket walkOf inst 0 (emptyParallelEdge, [])
  addVisited r.2 (addParallel r.1 (List.replicate inst.length []))

/-- The bounded forward walk of the instance `a` reaches the vertex `w`: stepping forward
`1, 2, ..., m` times stays valid and within `maxBranchSize` of the position of `a`, and the
instance after `m` steps is an instance of `w`. -/
def reachesForward (s : JunctionStorage) (maxBranchSize : Int) (a : JunctionSequentialIterator)
    (w : Int) : Prop :=
  ∃ m, 1 ≤ m ∧ (∀ t, 1 ≤ t → t ≤ m → withinBranch s maxBranchSize (a.GetPosition s) (a.plus t)) ∧
    s.vertexId (a.plus m) = w

/-- The bounded backward walk of the instance `a` reaches the vertex `w`. -/
def reachesBackward (s : JunctionStorage) (maxBranchSize : Int) (a : JunctionSequentialIterator)
    (w : Int) : Prop :=
  ∃ m, 1 ≤ m ∧ (∀ t, 1 ≤ t → t ≤ m → withinBranch s maxBranchSize (a.GetPosition s) (a.minus t)) ∧
    s.vertexId (a.minus m) = w

/-- The pairs `(u, v)` of a source and its paired sink for which the loop of
`FindBlocksPwise` pushes block instances, in the order of the sources. -/
def emittingPairs (s : JunctionStorage) (sink : List Fork) (minBlockSize : Int)
    (source : List Fork) : List (Fork × Fork) :=
  source.filterMap fun u =>
    match pairedSink s sink u with
    | some v => if ChainLength s u v ≥ minBlockSize then some (u, v) else none
    | none => none

/-- The block instances pushed for a list of emitting pairs when the counter starts at
`blocksFound`. -/
def emitAll (s : JunctionStorage) (k : Nat) : Int → List (Fork × Fork) → List BlockInstance
  | _, [] => []
  | blocksFound, (u, v) :: rest =>
    emitBranch s k (blocksFound + 1) u v 0 :: emitBranch s k (blocksFound + 1) u v 1 ::
      emitAll s k (blocksFound + 1) rest

/-- The tuple `(chr, start, end, sign)` of a block instance; the sign is that of the signed
block id. -/
def BlockInstance.tuple (x : BlockInstance) : Nat × Nat × Nat × Bool :=
  (x.chr_, x.start_, x.end_, decide (0 < x.id_))

/-- The tuples of a list of block instances, two by two in the order of the list. -/
def pairUp : List BlockInstance → List ((Nat × Nat × Nat × Bool) × (Nat × Nat × Nat × Bool))
  | x :: y :: rest => (x.tuple, y.tuple) :: pairUp rest
  | _ => []

/-! ## Example storages -/

/-- A storage of two chromosomes that carry the same five junctions `1, ..., 5` on the
positive strand at the positions `0, 100, ..., 400`, every edge labelled `A`. -/
def exampleStorage : JunctionStorage :=
  { chrNumber := 2
    chrVerticesCount := fun _ => 5
    chrLength := fun _ => 500
    verticesNumber := 6
    instances := fun v =>
      if 1 ≤ v ∧ v ≤ 5 then
        [{ chrId := 0, idx := v - 1, positiveStrand := true },
         { chrId := 1, idx := v - 1, positiveStrand := true }]
      else []
    vertexId := fun it => if it.positiveStrand then it.idx + 1 else -(it.idx + 1)
    position := fun it => it.idx.toNat * 100
    char := fun _ => 'A' }

/-- The storage given by a table: `chrs[c][i] = (v, p)` says that junction `i` of chromosome
`c` is an instance of vertex `v` at position `p` when read on the positive strand, and an
instance of `-v` at the same position when read on the negative strand. Every chromosome has
`len` bases and every edge is labelled `A`. -/
def tableStorage (chrs : List (List (Int × Nat))) (len : Nat) (vertices : Nat) :
    JunctionStorage :=
  { chrNumber := chrs.length
    chrVerticesCount := fun c => (chrs.getD c []).length
    chrLength := fun _ => len
    verticesNumber := vertices
    instances := fun v =>
      (List.range chrs.length).flatMap fun c =>
        (List.range (chrs.getD c []).length).filterMap fun i =>
          let row := (chrs.getD c []).getD i (0, 0)
          if row.1 = v then some { chrId := c, idx := i, positiveStrand := true }
          else if row.1 = -v then some { chrId := c, idx := i, positiveStrand := false }
          else none
    vertexId := fun it =>
      let row := (chrs.getD it.chrId []).getD it.idx.toNat (0, 0)
      if it.positiveStrand then row.1 else -row.1
    position := fun it => ((chrs.getD it.chrId []).getD it.idx.toNat (0, 0)).2
    char := fun _ => 'A' }

/-- Four chromosomes of 500 bases: chromosomes 0 and 1 start with the common vertex 1 at
position 300 and go on to different vertices; chromosomes 2 and 3 come from different
vertices and end in the common vertex 5 at position 100. -/
def mismatchStorage : JunctionStorage :=
  tableStorage [[(1, 300), (2, 400)], [(1, 300), (3, 400)], [(4, 0), (5, 100)],
    [(6, 0), (5, 100)]] 500 7

/-- Two chromosomes of 500 bases that start with the common vertex 1 at position 0 and go
on to different vertices. -/
def noSinkStorage : JunctionStorage :=
  tableStorage [[(1, 0), (2, 100)], [(1, 0), (3, 100)]] 500 4

/-- The source fork of `exampleStorage`: the two instances of vertex 1. -/
def exampleSource : Fork :=
  { branch0 := { chrId := 1, idx := 0, positiveStrand := true }
    branch1 := { chrId := 0, idx := 0, positiveStrand := true } }

/-- The sink fork of `exampleStorage`: the two instances of vertex 5. -/
def exampleSink : Fork :=
  { branch0 := { chrId := 1, idx := 4, positiveStrand := true }
    branch1 := { chrId := 0, idx := 4, positiveStrand := true } }

/-- The block finder over `exampleStorage` after the enumeration, with `k = 21`,
`minBlockSize = 50` and `maxBranchSize = 50`. -/
def exampleFinder : BlocksFinder :=
  { k_ := 21, blocksFound_ := 0, minBlockSize_ := 50, maxBranchSize_ := 50,
    maxFlankingSize_ := 0, blocksInstance_ := [], sink_ := [exampleSink],
    source_ := [exampleSource] }

/-- The block finder over `exampleStorage` after `FindBlocksPwise`: one block, with one
instance on each chromosome. -/
def exampleResult : BlocksFinder :=
  { exampleFinder with
    blocksFound_ := 1
    blocksInstance_ :=
      [{ id_ := 1, start_ := 0, end_ := 421, chr_ := 1 },
        { id_ := 1, start_ := 0, end_ := 421, chr_ := 0 }] }

/-- Two chromosomes of 500 bases on which the common vertices 1 and 2 come in opposite
orders: chromosome 0 carries vertex 1 at position 0 and vertex 2 at position 200,
chromosome 1 carries vertex 2 at position 100 and vertex 1 at position 120. -/
def crossedStorage : JunctionStorage :=
  tableStorage [[(1, 0), (2, 200)], [(3, 0), (4, 50), (2, 100), (1, 120), (5, 400)]] 500 6

/-- The source of `crossedStorage`: the two instances of vertex 1. -/
def crossedSource : Fork :=
  { branch0 := { chrId := 0, idx := 0, positiveStrand := true }
    branch1 := { chrId := 1, idx := 3, positiveStrand := true } }

/-- The sink of `crossedStorage`: the two instances of vertex 2. -/
def crossedSink : Fork :=
  { branch0 := { chrId := 0, idx := 1, positiveStrand := true }
    branch1 := { chrId := 1, idx := 2, positiveStrand := true } }

/-- Two chromosomes of 500 bases: vertex 6 occurs once on each, and vertex 1 occurs once on
chromosome 0 (position 200) and twice on chromosome 1 (positions 100 and 300). -/
def tieStorage : JunctionStorage :=
  tableStorage [[(6, 0), (1, 200)], [(3, 0), (6, 50), (1, 100), (5, 200), (1, 300)]] 500 7

/-- Two chromosomes of 500 bases, the second the reverse complement of the first: the
junctions of chromosome 0 read as the vertices 1, 2 on the positive strand, those of
chromosome 1 read as the vertices 2, 1 on the negative strand. -/
def invertedStorage : JunctionStorage :=
  tableStorage [[(1, 0), (2, 100)], [(-2, 0), (-1, 100)]] 500 3

/-- The sink of `tieStorage` made of the instance of vertex 1 on chromosome 0 and its first
instance on chromosome 1 (position 100). -/
def tieSink1 : Fork :=
  { branch0 := { chrId := 0, idx := 1, positiveStrand := true }
    branch1 := { chrId := 1, idx := 2, positiveStrand := true } }

/-- The sink of `tieStorage` made of the instance of vertex 1 on chromosome 0 and its second
instance on chromosome 1 (position 300). -/
def tieSink2 : Fork :=
  { branch0 := { chrId := 0, idx := 1, positiveStrand := true }
    branch1 := { chrId := 1, idx := 4, positiveStrand := true } }

/-- The sink of `tieStorage` made of the two instances of vertex 1 on chromosome 1. -/
def tieSink3 : Fork :=
  { branch0 := { chrId := 1, idx := 2, positiveStrand := true }
    branch1 := { chrId := 1, idx := 4, positiveStrand := true } }

/-- The source of `tieStorage`: the two instances of vertex 6. -/
def tieSource : Fork :=
  { branch0 := { chrId := 0, idx := 0, positiveStrand := true }
    branch1 := { chrId := 1, idx := 1, positiveStrand := true } }

/-- The fork of the two instances of vertex 2 of `exampleStorage`. -/
def exampleSource2 : Fork :=
  { branch0 := { chrId := 1, idx := 1, positiveStrand := true }
    branch1 := { chrId := 0, idx := 1, positiveStrand := true } }

/-- The finder `exampleFinder` with the two sources `exampleSource` and `exampleSource2`. -/
def examplePairFinder : BlocksFinder :=
  { exampleFinder with source_ := [exampleSource, exampleSource2] }

/-- The finder `examplePairFinder` after `FindBlocksPwise`: one block for each source. -/
def examplePairResult : BlocksFinder :=
  { examplePairFinder with
    blocksFound_ := 2
    blocksInstance_ :=
      [{ id_ := 1, start_ := 0, end_ := 421, chr_ := 1 },
        { id_ := 1, start_ := 0, end_ := 421, chr_ := 0 },
        { id_ := 2, start_ := 100, end_ := 421, chr_ := 1 },
        { id_ := 2, start_ := 100, end_ := 421, chr_ := 0 }] }

/-- The storage given by a table with edge labels: `chrs[c][i] = (v, p, ch)` says that
junction `i` of chromosome `c` is an instance of vertex `v` at position `p` when read on the
positive strand, an instance of `-v` at the same position when read on the negative strand,
and that `GetChar` returns `ch` for it. Every chromosome has `len` bases. -/
def labelledStorage (chrs : List (List (Int × Nat × Char))) (len : Nat) (vertices : Nat) :
    JunctionStorage :=
  { chrNumber := chrs.length
    chrVerticesCount := fun c => (chrs.getD c []).length
    chrLength := fun _ => len
    verticesNumber := vertices
    instances := fun v =>
      (List.range chrs.length).flatMap fun c =>
        (List.range (chrs.getD c []).length).filterMap fun i =>
          let row := (chrs.getD c []).getD i (0, 0, 'A')
          if row.1 = v then some { chrId := c, idx := i, positiveStrand := true }
          else if row.1 = -v then some { chrId := c, idx := i, positiveStrand := false }
          else none
    vertexId := fun it =>
      let row := (chrs.getD it.chrId []).getD it.idx.toNat (0, 0, 'A')
      if it.positiveStrand then row.1 else -row.1
    position := fun it => ((chrs.getD it.chrId []).getD it.idx.toNat (0, 0, 'A')).2.1
    char := fun it => ((chrs.getD it.chrId []).getD it.idx.toNat (0, 0, 'A')).2.2 }

/-- Two chromosomes of 500 bases that start with the common vertex 1: chromosome 0 leaves it
through an edge labelled `N` to vertex 2, chromosome 1 through an edge labelled `R` to
vertex 3. -/
def bucketStorage : JunctionStorage :=
  labelledStorage [[(1, 0, 'N'), (2, 100, 'A')], [(1, 0, 'R'), (3, 100, 'A')]] 500 4

/-- The iterators that are valid over `bucketStorage`. -/
def bucketStorageIterators : List JunctionSequentialIterator :=
  [{ chrId := 0, idx := 0, positiveStrand := true },
    { chrId := 0, idx := 0, positiveStrand := false },
    { chrId := 0, idx := 1, positiveStrand := true },
    { chrId := 0, idx := 1, positiveStrand := false },
    { chrId := 1, idx := 0, positiveStrand := true },
    { chrId := 1, idx := 0, positiveStrand := false },
    { chrId := 1, idx := 1, positiveStrand := true },
    { chrId := 1, idx := 1, positiveStrand := false }]

/-! ## Further fork operations and orders used to state the theorems -/

/-- Modelled from the spec: `operator==` of the missing iterator type; two iterators are
equal when they are the same instance (chromosome, index and strand). -/
def JunctionSequentialIterator.eq (a b : JunctionSequentialIterator) : Bool :=
  decide (a.chrId = b.chrId) && decide (a.idx = b.idx) &&
    decide (a.positiveStrand = b.positiveStrand)

/-- `Fork::operator==` (lines 453-456). -/
def Fork.eq (a f : Fork) : Bool :=
  a.branch0.eq f.branch0 && a.branch1.eq f.branch1

/-- The constructor `Fork(it, jt)` (lines 439-451) over an arbitrary iterator comparison
`less` in the place of `it < jt`. -/
def Fork.newWith (less : JunctionSequentialIterator → JunctionSequentialIterator → Bool)
    (it jt : JunctionSequentialIterator) : Fork :=
  if less it jt then { branch0 := it, branch1 := jt } else { branch0 := jt, branch1 := it }

/-- The comparison of the positions of branch `l` in the direction of its strand: ascending
on the positive strand, descending on the negative strand. -/
def Fork.posLess (s : JunctionStorage) (a f : Fork) (l : Nat) : Bool :=
  if (a.branch l).positiveStrand then
    decide ((a.branch l).GetPosition s < (f.branch l).GetPosition s)
  else decide ((a.branch l).GetPosition s > (f.branch l).GetPosition s)

/-- The order that the specification describes for forks, written from its words: the
lexicographic comparison by the strand of `branch[0]`, the strand of `branch[1]`, the
chromosome of `branch[0]`, the chromosome of `branch[1]`, the position of `branch[0]` and
the position of `branch[1]`, each position in the direction of its strand. -/
def Fork.ltLexicographic (s : JunctionStorage) (a f : Fork) : Bool :=
  if a.branch0.positiveStrand ≠ f.branch0.positiveStrand then
    decide (a.branch0.positiveStrand < f.branch0.positiveStrand)
  else if a.branch1.positiveStrand ≠ f.branch1.positiveStrand then
    decide (a.branch1.positiveStrand < f.branch1.positiveStrand)
  else if a.branch0.chrId ≠ f.branch0.chrId then
    decide (a.branch0.chrId < f.branch0.chrId)
  else if a.branch1.chrId ≠ f.branch1.chrId then
    decide (a.branch1.chrId < f.branch1.chrId)
  else if a.branch0.GetPosition s ≠ f.branch0.GetPosition s then Fork.posLess s a f 0
  else Fork.posLess s a f 1

/-- Lines 208-244 of `FindBlocks`: the finder at the moment `FindBlocksPwise` is called,
after the enumeration phase. -/
def enumeration (s : JunctionStorage) (finder : BlocksFinder)
    (minBlockSize maxBranchSize maxFlankingSize : Int) : BlocksFinder :=
  (shuffleOf s).foldl (CheckIfSource s)
    { finder with
      blocksFound_ := 0
      minBlockSize_ := minBlockSize
      maxBranchSize_ := maxBranchSize
      maxFlankingSize_ := maxFlankingSize }

/-- The same chromosome occurrence read on the opposite strand. -/
def JunctionSequentialIterator.reverse (it : JunctionSequentialIterator) :
    JunctionSequentialIterator :=
  { it with positiveStrand := !it.positiveStrand }

/-- The fork `g` is the reverse-complement twin of the fork `f`: it is made of the two
chromosome occurrences of `f` read on the opposite strands, in either order. -/
def Fork.twins (f g : Fork) : Prop :=
  (g.branch0 = f.branch0.reverse ∧ g.branch1 = f.branch1.reverse) ∨
    (g.branch0 = f.branch1.reverse ∧ g.branch1 = f.branch0.reverse)

/-- Consecutive junctions of a chromosome have different positions. -/
def distinctPositions (s : JunctionStorage) : Prop :=
  ∀ it : JunctionSequentialIterator, it.Valid s = true → (it.plus 1).Valid s = true →
    s.position it ≠ s.position (it.plus 1)

/-- Two instances of one vertex with the same outgoing label have the same next vertex. -/
def labelDeterministic (s : JunctionStorage) : Prop :=
  ∀ a b : JunctionSequentialIterator, a.Valid s = true → b.Valid s = true →
    s.vertexId a = s.vertexId b → (a.plus 1).Valid s = true → (b.plus 1).Valid s = true →
    s.char a = s.char b → s.vertexId (a.plus 1) = s.vertexId (b.plus 1)

/-- Two instances of one vertex whose outgoing labels fall in the same character bucket
have the same next vertex. -/
def bucketDeterministic (s : JunctionStorage) : Prop :=
  ∀ a b : JunctionSequentialIterator, a.Valid s = true → b.Valid s = true →
    s.vertexId a = s.vertexId b → (a.plus 1).Valid s = true → (b.plus 1).Valid s = true →
    MakeUpChar (s.char a) = MakeUpChar (s.char b) →
    s.vertexId (a.plus 1) = s.vertexId (b.plus 1)

/-- The instances `a` and `b` both have a valid forward neighbour and the two neighbours are
instances of the same vertex. -/
def sameNextVertex (s : JunctionStorage) (a b : JunctionSequentialIterator) : Prop :=
  (a.plus 1).Valid s = true ∧ (b.plus 1).Valid s = true ∧
    s.vertexId (a.plus 1) = s.vertexId (b.plus 1)

/-! ## Definitions for the properties of the enumerators -/

/-- The vertex ids `-V + 1, ..., V - 1` that the loop of lines 219-229 runs over. -/
def allVertexIds (s : JunctionStorage) : List Int :=
  (List.range (2 * s.verticesNumber - 1)).map
    fun i => (i : Int) - ((s.verticesNumber : Int) - 1)

/-- The storage obtained from `s` by exchanging the `+1` and `-1` steps: the instance `it` of
`s` appears in it as `it.reverse`, whose `+1` step is the `-1` step of `it`, with the vertex
and the position that `it` has in `s`, and labelled with the character of the outgoing edge
of the predecessor of `it` in `s`. -/
def mirrorStorage (s : JunctionStorage) : JunctionStorage :=
  { s with
    vertexId := fun it => s.vertexId it.reverse
    position := fun it => s.position it.reverse
    char := fun it => s.char (it.reverse.minus 1) }

/-- Two chromosomes of 500 bases that carry vertex 1 at position 0 followed by vertex 2 at
the positions 10 and 20. -/
def repeatStorage : JunctionStorage :=
  tableStorage [[(1, 0), (2, 10), (2, 20)], [(1, 0), (2, 10), (2, 20)]] 500 3

/-! ## Output: sequences and coverage -/

/-- What one `operator<<` of `OutputLines` appends to the stream: a character of the
sequence (`out << *start`) or a line break (`out << std::endl`). -/
inductive StreamItem where
  | char (c : Char)
  | endl
deriving DecidableEq, Repr

/-- The loop of `OutputLines` (lines 373-380) with the counter at `i`; the first argument is
the number of iterations that are left, `length + 1 - i`. The iterator `start` is the list of
the characters from its position on; reading past the last one has no defined result. -/
def OutputLinesLoop (length : Nat) :
    Nat → Nat → List Char → List StreamItem → Option (List StreamItem)
  | 0, _, _, out => some out
  | n + 1, i, start, out =>
    match start with
    | [] => none
    | c :: rest =>
      let out := out ++ [StreamItem.char c]
      let out := if i % 80 = 0 ∧ i ≠ length then out ++ [StreamItem.endl] else out
      OutputLinesLoop length n (i + 1) rest out

/-- `BlocksFinder::OutputLines` (lines 370-381). -/
def OutputLines (start : List Char) (length : Nat) (out : List StreamItem) :
    Option (List StreamItem) :=
  OutputLinesLoop length length 1 start out

/-- The characters of an output, the line breaks deleted. -/
def charsOf : List StreamItem → List Char
  | [] => []
  | StreamItem.char c :: rest => c :: charsOf rest
  | StreamItem.endl :: rest => charsOf rest

/-- The lines of an output: the runs of characters between the line breaks. -/
def linesOf : List StreamItem → List (List Char)
  | [] => [[]]
  | StreamItem.endl :: rest => [] :: linesOf rest
  | StreamItem.char c :: rest =>
    match linesOf rest with
    | [] => [[c]]
    | line :: lines => (c :: line) :: lines

/-- Modelled from the spec: `BlockInstance::GetLength` (its body is not part of the
sources), the length `end - start` of the interval, in `size_t`. -/
def BlockInstance.GetLength (b : BlockInstance) : Nat :=
  toSizeT ((b.end_ : Int) - (b.start_ : Int))

/-- The sequence of one record of `ListBlocksSequences` (lines 309-320): the call of
`OutputLines` of line 312 for a positive signed id, of line 319 otherwise. `seq` is
`storage_.GetChrSequence(chr)` and `reverseChar` is `TwoPaCo::DnaChar::ReverseChar`, which is
not part of the sources. The iterator `seq.begin() + start` is `seq.drop start`; the reverse
iterator made from `seq.begin() + end` reads `seq[end - 1]`, `seq[end - 2]`, and so on. -/
def recordSequence (reverseChar : Char → Char) (seq : List Char) (b : BlockInstance)
    (out : List StreamItem) : Option (List StreamItem) :=
  let length := b.GetLength
  if 0 < b.id_ then OutputLines (seq.drop b.start_) length out
  else OutputLines (((seq.take b.end_).reverse).map reverseChar) length out

/-- The assignment `covered[chr][i] = true` of line 340; an index outside of `covered` or of
`covered[chr]` has no defined result. -/
def setCovered (covered : List (List Bool)) (chr i : Nat) : Option (List (List Bool)) :=
  match covered.get? chr with
  | none => none
  | some mask => if i < mask.length then some (covered.set chr (mask.set i true)) else none

/-- The loop of lines 338-341 for one block: `i` runs from `start` up to `end`. -/
def markBlock (covered : List (List Bool)) (b : BlockInstance) : Option (List (List Bool)) :=
  (List.range' b.start_ (b.end_ - b.start_)).foldlM (fun cov i => setCovered cov b.chr_ i)
    covered

/-- The two counters of `GenerateOutput`. -/
structure Coverage where
  total : Nat
  totalCovered : Nat
deriving DecidableEq, Repr

/-- The coverage pass of `BlocksFinder::GenerateOutput` (lines 329-352): the masks of length
`GetChrSequence(i).size() + 1`, the marking of every block of `blocksInstance_`, and the two
counters that the printed ratio is computed from. -/
def GenerateOutput (s : JunctionStorage) (finder : BlocksFinder) : Option Coverage :=
  let covered := (List.range s.chrNumber).map fun i => List.replicate (s.chrLength i + 1) false
  (finder.blocksInstance_.foldlM markBlock covered).map fun covered =>
    { total := (covered.map List.length).sum
      totalCovered := (covered.map fun chr => chr.count true).sum }

/-- What the loop of `OutputLines` appends from the counter value `i` on, when the
characters `l` are the ones left to write. -/
def wrapFrom (length : Nat) : Nat → List Char → List StreamItem
  | _, [] => []
  | i, c :: rest =>
    StreamItem.char c ::
      ((if i % 80 = 0 ∧ i ≠ length then [StreamItem.endl] else []) ++
        wrapFrom length (i + 1) rest)

/-- The lines `lines` continue a line that holds `r` characters already: the first line
fills it up to at most 80, no later line is longer than 80, and when there are later lines
the first is filled up to exactly 80 and so is every later line but the last. -/
def linesFill (r : Nat) : List (List Char) → Prop
  | [] => False
  | line :: lines =>
    line.length + r ≤ 80 ∧ (∀ x ∈ lines, x.length ≤ 80) ∧
      (lines ≠ [] → line.length + r = 80 ∧ ∀ x ∈ lines.dropLast, x.length = 80)

/-- An example for the parameter `reverseChar`: the complement of the four nucleotides. -/
def complementChar : Char → Char
  | 'A' => 'T'
  | 'C' => 'G'
  | 'G' => 'C'
  | 'T' => 'A'
  | c => c

/-- The entry `covered[c][j]` of the masks, `false` outside of them. -/
def maskBit (covered : List (List Bool)) (c j : Nat) : Bool :=
  (covered.getD c []).getD j false

/-- Some block of the list lies on chromosome `c` and has `start ≤ i < end`. -/
def coveredBy (blocks : List BlockInstance) (c i : Nat) : Bool :=
  blocks.any fun b => decide (b.chr_ = c ∧ b.start_ ≤ i ∧ i < b.end_)

/-- Two chromosomes of 10 bases with one junction each. -/
def coverageStorage : JunctionStorage :=
  tableStorage [[(1, 0)], [(1, 0)]] 10 2

/-- A finder that holds three block instances: two overlapping ones on chromosome 0 and one
over the whole of chromosome 1. -/
def coverageFinder : BlocksFinder :=
  { BlocksFinder.new 3 with
    blocksInstance_ := [⟨1, 0, 4, 0⟩, ⟨-1, 2, 6, 0⟩, ⟨2, 0, 10, 1⟩] }

/-! ## The storages of the scenarios A and B -/

/-- The instances of the vertices of Scenario A: vertex `v` of `1, ..., 100` is junction
`v - 1` of both chromosomes read on the positive strand, and `-v` is the same junction read
on the negative strand. -/
def scenarioAInstances (v : Int) : List JunctionSequentialIterator :=
  if 1 ≤ v ∧ v ≤ 100 then
    [{ chrId := 0, idx := v - 1, positiveStrand := true },
     { chrId := 1, idx := v - 1, positiveStrand := true }]
  else if -100 ≤ v ∧ v ≤ -1 then
    [{ chrId := 0, idx := -v - 1, positiveStrand := false },
     { chrId := 1, idx := -v - 1, positiveStrand := false }]
  else []

/-- Scenario A: two chromosomes of 10000 bases with the same sequence, which carry the 100
junctions `1, ..., 100` on the positive strand at the positions `0, 100, ..., 9900`. The
outgoing edge of junction `i` is labelled `label i` on the positive strand and `labelRC i` on
the negative strand, on both chromosomes. -/
def scenarioA (label labelRC : Nat → Char) : JunctionStorage :=
  { chrNumber := 2
    chrVerticesCount := fun _ => 100
    chrLength := fun _ => 10000
    verticesNumber := 101
    instances := scenarioAInstances
    vertexId := fun it => if it.positiveStrand then it.idx + 1 else -(it.idx + 1)
    position := fun it => it.idx.toNat * 100
    char := fun it => if it.positiveStrand then label it.idx.toNat else labelRC it.idx.toNat }

/-- The instances of the vertices of Scenario B: vertex `v` of `1, ..., 100` is junction
`v - 1` of chromosome 0 read on the positive strand and junction `100 - v` of chromosome 1
read on the negative strand; `-v` is the same two junctions read on the other strand. -/
def scenarioBInstances (v : Int) : List JunctionSequentialIterator :=
  if 1 ≤ v ∧ v ≤ 100 then
    [{ chrId := 0, idx := v - 1, positiveStrand := true },
     { chrId := 1, idx := 100 - v, positiveStrand := false }]
  else if -100 ≤ v ∧ v ≤ -1 then
    [{ chrId := 0, idx := -v - 1, positiveStrand := false },
     { chrId := 1, idx := 100 + v, positiveStrand := true }]
  else []

/-- Scenario B: chromosome 0 of Scenario A, and as chromosome 1 its reverse complement.
Junction `j` of chromosome 1 is junction `99 - j` of chromosome 0 on the other strand; its
21 bases start at position `10000 - 21 - 100 * (99 - j) = 100 * j + 79`. -/
def scenarioB (label labelRC : Nat → Char) : JunctionStorage :=
  { chrNumber := 2
    chrVerticesCount := fun _ => 100
    chrLength := fun _ => 10000
    verticesNumber := 101
    instances := scenarioBInstances
    vertexId := fun it =>
      if it.chrId = 0 then (if it.positiveStrand then it.idx + 1 else -(it.idx + 1))
      else (if it.positiveStrand then -(100 - it.idx) else 100 - it.idx)
    position := fun it =>
      if it.chrId = 0 then it.idx.toNat * 100 else it.idx.toNat * 100 + 79
    char := fun it =>
      if it.chrId = 0 then
        (if it.positiveStrand then label it.idx.toNat else labelRC it.idx.toNat)
      else
        (if it.positiveStrand then labelRC (99 - it.idx.toNat)
          else label (99 - it.idx.toNat)) }

/-- Scenario B with every edge labelled `A` on the strand of chromosome 0 and `T` on the
other strand. -/
def scenarioBExample : JunctionStorage :=
  scenarioB (fun _ => 'A') (fun _ => 'T')

/-- Modelled from the spec: an iterator comparison that compares the chromosomes before the
indices, as an alternative to the comparison by index alone. -/
def JunctionSequentialIterator.ltByChr (a b : JunctionSequentialIterator) : Bool :=
  decide (a.chrId < b.chrId) || (decide (a.chrId = b.chrId) && decide (a.idx < b.idx))

/-- The finder over Scenario A after the enumeration phase of `FindBlocks`, called with
`k = 21`, `minBlockSize = 500` and `maxBranchSize = 50`: the fork of vertex 1 is the one
source and the fork of vertex 100 the one sink. -/
def scenarioAEnumerated : BlocksFinder :=
  { k_ := 21, blocksFound_ := 0, minBlockSize_ := 500, maxBranchSize_ := 50,
    maxFlankingSize_ := 0, blocksInstance_ := [],
    sink_ := [{ branch0 := { chrId := 1, idx := 99, positiveStrand := true }
                branch1 := { chrId := 0, idx := 99, positiveStrand := true } }],
    source_ := [{ branch0 := { chrId := 1, idx := 0, positiveStrand := true }
                  branch1 := { chrId := 0, idx := 0, positiveStrand := true } }] }

/-- The finder over Scenario A after `FindBlocks`: one block, with one instance on each
chromosome. -/
def scenarioAResult : BlocksFinder :=
  { scenarioAEnumerated with
    blocksFound_ := 1
    blocksInstance_ :=
      [{ id_ := 1, start_ := 0, end_ := 9921, chr_ := 1 },
        { id_ := 1, start_ := 0, end_ := 9921, chr_ := 0 }] }

/-- The finder over `scenarioBExample` after the enumeration phase of `FindBlocks`, called
with `k = 21`, `minBlockSize = 500` and `maxBranchSize = 50`: the forks of the vertices `-100`
and `1` are the sources, the forks of the vertices `-1` and `100` the sinks. -/
def scenarioBEnumerated : BlocksFinder :=
  { k_ := 21, blocksFound_ := 0, minBlockSize_ := 500, maxBranchSize_ := 50,
    maxFlankingSize_ := 0, blocksInstance_ := [],
    sink_ :=
      [{ branch0 := { chrId := 0, idx := 0, positiveStrand := false }
         branch1 := { chrId := 1, idx := 99, positiveStrand := true } },
       { branch0 := { chrId := 1, idx := 0, positiveStrand := false }
         branch1 := { chrId := 0, idx := 99, positiveStrand := true } }],
    source_ :=
      [{ branch0 := { chrId := 1, idx := 0, positiveStrand := true }
         branch1 := { chrId := 0, idx := 99, positiveStrand := false } },
       { branch0 := { chrId := 0, idx := 0, positiveStrand := true }
         branch1 := { chrId := 1, idx := 99, positiveStrand := false } }] }

/-- The finder `scenarioBEnumerated` with every fork rebuilt by the constructor over the
comparison `ltByChr`: the branch on chromosome 0 is stored first. -/
def scenarioBByChr : BlocksFinder :=
  { scenarioBEnumerated with
    source_ := scenarioBEnumerated.source_.map fun f =>
      Fork.newWith JunctionSequentialIterator.ltByChr f.branch0 f.branch1
    sink_ := scenarioBEnumerated.sink_.map fun f =>
      Fork.newWith JunctionSequentialIterator.ltByChr f.branch0 f.branch1 }

/-! ## Grouping the block instances by id -/

/-- The inner loop of `GroupBy` (line 109): `now` moves on while it is below `store.size()`
and `pred(store[prev], store[now])` is false. The first argument is the number of elements
from `now` to the end, which bounds the number of iterations. -/
def GroupBy.scan {T : Type} (pred : T → T → Bool) (store : List T) (prev : Nat) :
    Nat → Nat → Nat
  | 0, now => now
  | fuel + 1, now =>
    match store[prev]?, store[now]? with
    | some a, some b => if pred a b = false then GroupBy.scan pred store prev fuel (now + 1)
      else now
    | _, _ => now

/-- The outer loop of `GroupBy` (lines 106-111) from the index `now` on, `out` being the
pairs emitted so far. The first argument bounds the number of iterations; there is no result
when it is used up and the loop would go on. -/
def GroupBy.loop {T : Type} (pred : T → T → Bool) (store : List T) :
    Nat → Nat → List (Nat × Nat) → Option (List (Nat × Nat))
  | 0, now, out => if now < store.length then none else some out
  | fuel + 1, now, out =>
    if now < store.length then
      let prev := now
      let now := GroupBy.scan pred store prev (store.length - now) now
      GroupBy.loop pred store fuel now (out ++ [(prev, now)])
    else some out

/-- `GroupBy(store, pred, out)` (lines 102-112): the vector after `sort(store.begin(),
store.end(), pred)` and the index pairs written to `out`. -/
def GroupBy {T : Type} (store : List T) (pred : T → T → Bool) :
    Option (List T × List (Nat × Nat)) :=
  let store := store.insertionSort (fun a b => pred b a = false)
  (GroupBy.loop pred store store.length 0 []).map fun out => (store, out)

/-- The comparison `pred` is a strict weak ordering: irreflexive, transitive, and with a
transitive incomparability. -/
def StrictWeakOrder {T : Type} (pred : T → T → Bool) : Prop :=
  (∀ a, pred a a = false) ∧
    (∀ a b c, pred a b = true → pred b c = true → pred a c = true) ∧
    ∀ a b c, pred a b = false → pred b a = false → pred b c = false → pred c b = false →
      pred a c = false ∧ pred c a = false

/-- The index ranges `[first, last)` of the list are non-empty and consecutive, and cover
exactly `[lo, hi)`. -/
def rangesFrom : Nat → List (Nat × Nat) → Nat → Prop
  | lo, [], hi => lo = hi
  | lo, r :: rest, hi => r.1 = lo ∧ r.1 < r.2 ∧ rangesFrom r.2 rest hi

/-- Modelled from the spec: `BlockInstance::GetBlockId` (its body is not part of the
sources), the block id without the sign: "the two BlockInstances produced from one (source,
sink) pair share `|id|`; signs reflect each branch's strand". -/
def BlockInstance.GetBlockId (b : BlockInstance) : Nat := b.id_.natAbs

/-- Modelled from the spec: `compareById` (declared at line 172, its body is not part of the
sources), the comparison of the block ids by `CompareBlocks`: "one FASTA file per block
id". -/
def compareById (a b : BlockInstance) : Bool := decide (a.GetBlockId < b.GetBlockId)

/-! ## Paths: the types shared by the two files `path.h` -/

/-- Modelled from the spec: the class `Edge` (not part of the sources), "(start vertex, end
vertex, label character, length in bases)", with `operator==` as the equality of the four
values. -/
structure Edge where
  startVertex : Int
  endVertex : Int
  ch : Char
  length : Int
deriving DecidableEq, Repr, Inhabited

/-- The struct `Path::Point`, the same in both files: an edge and the distance of its start
vertex from the origin. Distances are `int64_t`; they are integers here, an overflow of a sum
of edge lengths being undefined in the source. -/
structure Point where
  edge : Edge
  startDistance : Int
deriving DecidableEq, Repr, Inhabited

namespace Point

/-- `Point::EndDistance`. -/
def EndDistance (p : Point) : Int := p.startDistance + p.edge.length

/-- `Point::operator==`. -/
def eq (a p : Point) : Bool :=
  decide (a.startDistance = p.startDistance) && decide (a.edge = p.edge)

/-- `Point::operator!=`, whose body is `return p != *this;`: the call of `operator!=` on
`p` with the argument `*this`. The first argument bounds the depth of the calls; there is no
result when it is used up. -/
def ne : Nat → Point → Point → Option Bool
  | 0, _, _ => none
  | fuel + 1, a, p => ne fuel p a

end Point

/-- The class `DistanceKeeper` (src/src/distancekeeper.h): the map
`std::unordered_map<int32_t, int32_t> distance_`, as the list of its entries. -/
structure DistanceKeeper where
  distance_ : List (Int × Int)
deriving DecidableEq, Repr, Inhabited

namespace DistanceKeeper

/-- The constructor `DistanceKeeper(int64_t vertices)`: the map starts empty. -/
def new : DistanceKeeper := { distance_ := [] }

/-- `DistanceKeeper::IsSet`: the key is the argument converted to `int32_t`. -/
def IsSet (k : DistanceKeeper) (v : Int) : Bool :=
  (k.distance_.lookup (toInt32 v)).isSome

/-- `DistanceKeeper::Set`: `distance_[v] = d` with key and value converted to `int32_t`. -/
def Set (k : DistanceKeeper) (v d : Int) : DistanceKeeper :=
  { distance_ := (toInt32 v, toInt32 d) :: k.distance_.filter fun p => p.1 ≠ toInt32 v }

/-- `DistanceKeeper::Get`: the value found for the key; there is none when the key is not
set (the iterator `distance_.find(v)` is then the end of the map). -/
def Get (k : DistanceKeeper) (v : Int) : Option Int :=
  k.distance_.lookup (toInt32 v)

/-- `DistanceKeeper::Unset`: `distance_.erase(v)`. -/
def Unset (k : DistanceKeeper) (v : Int) : DistanceKeeper :=
  { distance_ := k.distance_.filter fun p => p.1 ≠ toInt32 v }

end DistanceKeeper

/-! ## Paths: `Path` of src/src/path.h

The iterator type `JunctionStorage::JunctionIterator` of this file is read through
`JunctionSequentialIterator` and the accessors of `JunctionStorage`;
`GetJunctionInstance(v, i)` is entry `i` of `instances v`, and `used` tells which instances
are marked as used (`IsUsed`). A failed `assert` ends the program and is out of the model. -/

/-- The struct `Path::Instance` (lines 62-144). -/
structure Instance where
  frontDistance_ : Int
  backDistance_ : Int
  front_ : JunctionSequentialIterator
  back_ : JunctionSequentialIterator
deriving DecidableEq, Repr, Inhabited

namespace Instance

/-- The constructor `Instance(it, distance)`. -/
def new (it : JunctionSequentialIterator) (distance : Int) : Instance :=
  { frontDistance_ := distance, backDistance_ := distance, front_ := it, back_ := it }

/-- `Instance::ChangeFront`. -/
def ChangeFront (a : Instance) (it : JunctionSequentialIterator) (distance : Int) : Instance :=
  { a with front_ := it, frontDistance_ := distance }

/-- `Instance::ChangeBack`. -/
def ChangeBack (a : Instance) (it : JunctionSequentialIterator) (distance : Int) : Instance :=
  { a with back_ := it, backDistance_ := distance }

/-- `Instance::Within` (lines 120-130). -/
def Within (a : Instance) (it : JunctionSequentialIterator) : Bool :=
  if it.chrId = a.front_.chrId then
    decide (min a.front_.idx a.back_.idx ≤ it.idx) &&
      decide (it.idx ≤ max a.front_.idx a.back_.idx)
  else false

/-- `Instance::operator<` (lines 132-143). -/
def lt (a inst : Instance) : Bool :=
  if a.front_.chrId ≠ inst.front_.chrId then decide (a.front_.chrId < inst.front_.chrId)
  else
    let idx1 := if a.back_.positiveStrand then a.back_.idx else a.front_.idx
    let idx2 := if inst.back_.positiveStrand then inst.back_.idx else inst.front_.idx
    decide (idx1 < idx2)

/-- `instance_.upper_bound(x)` over the multiset in its order: the index of the first
instance that `x` is less than, the size of the multiset when there is none. -/
def upperBound (set : List Instance) (x : Instance) : Nat :=
  set.findIdx fun y => x.lt y

/-- `instance_.insert(x)`: the new element goes to the upper bound of its equals. -/
def insert (set : List Instance) (x : Instance) : List Instance :=
  set.take (upperBound set x) ++ x :: set.drop (upperBound set x)

end Instance

/-- The data members of `Path` (lines 603-620); `storage_` is passed separately. -/
structure Path where
  leftBody_ : List Point
  rightBody_ : List Point
  instance_ : List Instance
  origin_ : Int
  minChainSize_ : Int
  minBlockSize_ : Int
  maxBranchSize_ : Int
  maxFlankingSize_ : Int
  leftBodyFlank_ : Int
  rightBodyFlank_ : Int
  distanceKeeper_ : DistanceKeeper
deriving DecidableEq, Repr, Inhabited

namespace Path

/-- The constructor `Path(storage, maxBranchSize, minBlockSize, maxFlankingSize)` (lines
36-46). It leaves `origin_` and the two flanks without a value; `Init` assigns them. -/
def new (maxBranchSize minBlockSize maxFlankingSize : Int) : Path :=
  { leftBody_ := [], rightBody_ := [], instance_ := [], origin_ := 0,
    minChainSize_ := minBlockSize - 2 * maxFlankingSize, minBlockSize_ := minBlockSize,
    maxBranchSize_ := maxBranchSize, maxFlankingSize_ := maxFlankingSize,
    leftBodyFlank_ := 0, rightBodyFlank_ := 0, distanceKeeper_ := DistanceKeeper.new }

/-- The loop of `Init` (lines 53-60) over the instances of `vid` that are left. -/
def initInstances (used : JunctionSequentialIterator → Bool) :
    List JunctionSequentialIterator → List Instance → List Instance
  | [], set => set
  | it :: rest, set =>
    initInstances used rest (if used it then set else Instance.insert set (Instance.new it 0))

/-- `Path::Init` (lines 48-61). -/
def Init (s : JunctionStorage) (used : JunctionSequentialIterator → Bool) (p : Path)
    (vid : Int) : Path :=
  { p with
    origin_ := vid
    distanceKeeper_ := p.distanceKeeper_.Set vid 0
    leftBodyFlank_ := 0
    rightBodyFlank_ := 0
    instance_ := initInstances used (s.instances vid) p.instance_ }

/-- `Path::IsInPath`. -/
def IsInPath (p : Path) (vertex : Int) : Bool := p.distanceKeeper_.IsSet vertex

/-- `Path::LeftDistance`. -/
def LeftDistance (p : Path) : Int := -p.leftBodyFlank_

/-- `Path::RightDistance`. -/
def RightDistance (p : Path) : Int := p.rightBodyFlank_

/-- `Path::MiddlePathLength`. -/
def MiddlePathLength (p : Path) : Int := p.LeftDistance + p.RightDistance

/-- `Path::GetEndVertex` (lines 217-225). -/
def GetEndVertex (p : Path) : Int :=
  match p.rightBody_.getLast? with
  | some pt => pt.edge.endVertex
  | none => p.origin_

/-- `Path::GetStartVertex` (lines 227-235). -/
def GetStartVertex (p : Path) : Int :=
  match p.leftBody_.getLast? with
  | some pt => pt.edge.startVertex
  | none => p.origin_

/-- `Path::DumpPath(std::vector<Edge> &)` (lines 239-251): both loops run from `rbegin()`
to `rend()`. -/
def DumpPath (p : Path) : List Edge :=
  (p.leftBody_.reverse.map fun pt => pt.edge) ++ (p.rightBody_.reverse.map fun pt => pt.edge)

/-- `Path::Compatible` (lines 253-289). -/
def Compatible (s : JunctionStorage) (p : Path) (start end1 : JunctionSequentialIterator)
    (e : Edge) : Bool :=
  if start.chrId ≠ end1.chrId ∨ start.positiveStrand ≠ end1.positiveStrand then false
  else
    let diff := end1.GetPosition s - start.GetPosition s
    if start.positiveStrand then
      if diff < 0 then false
      else
        let start1 := start.plus 1
        if diff > p.maxBranchSize_ ∧
            (s.char start ≠ e.ch ∨ end1.eq start1 = false ∨
              s.vertexId start1 ≠ e.endVertex) then false
        else true
    else
      if -diff < 0 then false
      else
        let start1 := start.plus 1
        if -diff > p.maxBranchSize_ ∧
            (s.char start ≠ e.ch ∨ end1.eq start1 = false ∨
              s.vertexId start1 ≠ e.endVertex) then false
        else true

/-- The body of the loop of `PointPushBackWorker::operator()` (lines 385-417) for the index
`i`: the instance set after it and the value of `failFlag`. -/
def pushBackBody (s : JunctionStorage) (used : JunctionSequentialIterator → Bool) (p : Path)
    (vertex distance : Int) (e : Edge) (set : List Instance) (i : Nat) :
    List Instance × Bool :=
  let nowIt := (s.instances vertex).getD i default
  if used nowIt then (set, false)
  else
    let inst := Instance.upperBound set (Instance.new nowIt 0)
    if inst < set.length ∧ (set.getD inst default).Within nowIt = true then (set, false)
    else
      let found : Bool × Nat :=
        if nowIt.positiveStrand then
          if inst ≠ 0 then
            (p.Compatible s (set.getD (inst - 1) default).back_ nowIt e, inst - 1)
          else (false, inst)
        else
          if inst < set.length ∧ p.Compatible s (set.getD inst default).back_ nowIt e = true
          then (true, inst)
          else (false, inst)
      let inst := found.2
      if found.1 = true ∧ s.vertexId (set.getD inst default).back_ ≠ vertex then
        let nextLength : Int :=
          (nowIt.GetPosition s - (set.getD inst default).front_.GetPosition s).natAbs
        let leftFlankSize := -(p.leftBodyFlank_ - (set.getD inst default).frontDistance_)
        if nextLength ≥ p.minChainSize_ ∧ leftFlankSize > p.maxFlankingSize_ then (set, true)
        else (set.set inst ((set.getD inst default).ChangeBack nowIt distance), false)
      else (Instance.insert set (Instance.new nowIt distance), false)

/-- `PointPushBackWorker::operator()` (lines 381-419) from the index `i` on; the first
argument is the number of indices that are left in the range. -/
def PointPushBackWorker (s : JunctionStorage) (used : JunctionSequentialIterator → Bool)
    (p : Path) (vertex distance : Int) (e : Edge) :
    Nat → Nat → List Instance → List Instance × Bool
  | 0, _, set => (set, false)
  | n + 1, i, set =>
    let r := pushBackBody s used p vertex distance e set i
    if r.2 then r else PointPushBackWorker s used p vertex distance e n (i + 1) r.1

/-- The body of the loop of `PointPushFrontWorker::operator()` (lines 306-352). -/
def pushFrontBody (s : JunctionStorage) (used : JunctionSequentialIterator → Bool) (p : Path)
    (vertex distance : Int) (e : Edge) (set : List Instance) (i : Nat) :
    List Instance × Bool :=
  let nowIt := (s.instances vertex).getD i default
  if used nowIt then (set, false)
  else
    let inst := Instance.upperBound set (Instance.new nowIt 0)
    if inst < set.length ∧ (set.getD inst default).Within nowIt = true then (set, false)
    else
      let found : Bool × Nat :=
        if nowIt.positiveStrand then
          if inst < set.length ∧ p.Compatible s nowIt (set.getD inst default).front_ e = true
          then (true, inst)
          else (false, inst)
        else
          if inst ≠ 0 then
            (p.Compatible s nowIt (set.getD (inst - 1) default).front_ e, inst - 1)
          else (false, inst)
      let inst := found.2
      if found.1 = true ∧ s.vertexId (set.getD inst default).front_ ≠ vertex then
        let nextLength : Int :=
          (nowIt.GetPosition s - (set.getD inst default).back_.GetPosition s).natAbs
        let rightFlankSize := p.rightBodyFlank_ - (set.getD inst default).backDistance_
        if nextLength ≥ p.minChainSize_ ∧ rightFlankSize > p.maxFlankingSize_ then (set, true)
        else (set.set inst ((set.getD inst default).ChangeFront nowIt distance), false)
      else (Instance.insert set (Instance.new nowIt distance), false)

/-- `PointPushFrontWorker::operator()` (lines 306-354) from the index `i` on. -/
def PointPushFrontWorker (s : JunctionStorage) (used : JunctionSequentialIterator → Bool)
    (p : Path) (vertex distance : Int) (e : Edge) :
    Nat → Nat → List Instance → List Instance × Bool
  | 0, _, set => (set, false)
  | n + 1, i, set =>
    let r := pushFrontBody s used p vertex distance e set i
    if r.2 then r else PointPushFrontWorker s used p vertex distance e n (i + 1) r.1

/-- The loop `while (true)` of `PointPopBack` (lines 461-472) for `next = false`, and of
`PointPopFront` (lines 527-538) for `next = true`: the iterator `jt` moves back, or on, until
its vertex is set in `keeper`. Reading the vertex of an iterator that has left the chromosome
has no result; the first argument bounds the number of steps. -/
def walkToPath (s : JunctionStorage) (keeper : DistanceKeeper) (next : Bool) :
    Nat → JunctionSequentialIterator → Option JunctionSequentialIterator
  | 0, _ => none
  | fuel + 1, jt =>
    if jt.Valid s = false then none
    else if keeper.IsSet (s.vertexId jt) then some jt
    else walkToPath s keeper next fuel (if next then jt.plus 1 else jt.minus 1)

/-- The loop over `instance_` of `PointPopBack` (lines 453-483). -/
def popBackInstances (s : JunctionStorage) (keeper : DistanceKeeper) (lastVertex : Int) :
    List Instance → Option (List Instance)
  | [] => some []
  | it :: rest =>
    if s.vertexId it.back_ = lastVertex then
      if it.front_.eq it.back_ then popBackInstances s keeper lastVertex rest
      else
        match walkToPath s keeper false (walkFuel s it.back_) it.back_ with
        | none => none
        | some jt =>
          match keeper.Get (s.vertexId jt), popBackInstances s keeper lastVertex rest with
          | some d, some rest1 => some (it.ChangeBack jt d :: rest1)
          | _, _ => none
    else (popBackInstances s keeper lastVertex rest).map fun rest1 => it :: rest1

/-- The loop over `instance_` of `PointPopFront` (lines 517-548). -/
def popFrontInstances (s : JunctionStorage) (keeper : DistanceKeeper) (lastVertex : Int) :
    List Instance → Option (List Instance)
  | [] => some []
  | it :: rest =>
    if s.vertexId it.front_ = lastVertex then
      if it.front_.eq it.back_ then popFrontInstances s keeper lastVertex rest
      else
        match walkToPath s keeper true (walkFuel s it.front_) it.front_ with
        | none => none
        | some jt =>
          match keeper.Get (s.vertexId jt), popFrontInstances s keeper lastVertex rest with
          | some d, some rest1 => some (it.ChangeFront jt d :: rest1)
          | _, _ => none
    else (popFrontInstances s keeper lastVertex rest).map fun rest1 => it :: rest1

/-- The value `rightBody_.empty() ? 0 : rightBody_.back().EndDistance()` of line 452. -/
def rightFlankOf (rightBody : List Point) : Int :=
  match rightBody.getLast? with
  | none => 0
  | some pt => pt.EndDistance

/-- The value `leftBody_.empty() ? 0 : leftBody_.back().StartDistance()` of line 516. -/
def leftFlankOf (leftBody : List Point) : Int :=
  match leftBody.getLast? with
  | none => 0
  | some pt => pt.startDistance

/-- `Path::PointPopBack` (lines 447-485). `rightBody_.back()` has no value on an empty
vector. -/
def PointPopBack (s : JunctionStorage) (p : Path) : Option Path :=
  match p.rightBody_.getLast? with
  | none => none
  | some last =>
    let lastVertex := last.edge.endVertex
    let rightBody := p.rightBody_.dropLast
    let keeper := p.distanceKeeper_.Unset lastVertex
    let flank := rightFlankOf rightBody
    (popBackInstances s keeper lastVertex p.instance_).map fun set =>
      { p with
        rightBody_ := rightBody
        distanceKeeper_ := keeper
        rightBodyFlank_ := flank
        instance_ := set }

/-- `Path::PointPopFront` (lines 511-549). -/
def PointPopFront (s : JunctionStorage) (p : Path) : Option Path :=
  match p.leftBody_.getLast? with
  | none => none
  | some last =>
    let lastVertex := last.edge.startVertex
    let leftBody := p.leftBody_.dropLast
    let keeper := p.distanceKeeper_.Unset lastVertex
    let flank := leftFlankOf leftBody
    (popFrontInstances s keeper lastVertex p.instance_).map fun set =>
      { p with
        leftBody_ := leftBody
        distanceKeeper_ := keeper
        leftBodyFlank_ := flank
        instance_ := set }

/-- `Path::PointPushBack` (lines 423-445): the returned value and the path after the
call. -/
def PointPushBack (s : JunctionStorage) (used : JunctionSequentialIterator → Bool) (p : Path)
    (e : Edge) : Option (Bool × Path) :=
  let vertex := e.endVertex
  if p.distanceKeeper_.IsSet vertex then some (false, p)
  else
    let startVertexDistance := p.rightBodyFlank_
    let endVertexDistance := startVertexDistance + e.length
    let r := PointPushBackWorker s used p vertex endVertexDistance e
      (s.instances vertex).length 0 p.instance_
    let p1 : Path :=
      { p with
        instance_ := r.1
        rightBody_ := p.rightBody_ ++ [{ edge := e, startDistance := startVertexDistance }]
        distanceKeeper_ := p.distanceKeeper_.Set e.endVertex endVertexDistance
        rightBodyFlank_ :=
          Point.EndDistance { edge := e, startDistance := startVertexDistance } }
    if r.2 then (PointPopBack s p1).map fun p2 => (false, p2) else some (true, p1)

/-- `Path::PointPushFront` (lines 487-509). -/
def PointPushFront (s : JunctionStorage) (used : JunctionSequentialIterator → Bool) (p : Path)
    (e : Edge) : Option (Bool × Path) :=
  let vertex := e.startVertex
  if p.distanceKeeper_.IsSet vertex then some (false, p)
  else
    let endVertexDistance := p.leftBodyFlank_
    let startVertexDistance := endVertexDistance - e.length
    let r := PointPushFrontWorker s used p vertex startVertexDistance e
      (s.instances vertex).length 0 p.instance_
    let p1 : Path :=
      { p with
        instance_ := r.1
        leftBody_ := p.leftBody_ ++ [{ edge := e, startDistance := startVertexDistance }]
        distanceKeeper_ := p.distanceKeeper_.Set e.startVertex startVertexDistance
        leftBodyFlank_ := startVertexDistance }
    if r.2 then (PointPopFront s p1).map fun p2 => (false, p2) else some (true, p1)

end Path

/-! ## Paths: `Path` of SibeliaZ-LCB/path.h

The containers `instance_`, `allInstance_` and `goodInstance_` of this file are written by
the loop of `Init` and by the two workers only. They are kept as one component of a type `ι`,
and the three loops are parameters: each reads the path and gives the containers after it,
or no result when it does not return. The file SibeliaZ-LCB/distancekeeper.h that this
file includes is not part of the sources: the class `DistanceKeeper` of
src/src/distancekeeper.h is taken in its place. What is stated of `IsInPath` for this file
is stated for vertices that are 32-bit values, on which that class is a map from the
vertices that were set to their distances. -/

/-- The data members of `Path` (lines 685-701); `storage_` is read by the workers only. -/
structure LCBPath (ι : Type) where
  leftBody_ : List Point
  rightBody_ : List Point
  instances : ι
  origin_ : Int
  minBlockSize_ : Int
  minScoringUnit_ : Int
  maxBranchSize_ : Int
  leftBodyFlank_ : Int
  rightBodyFlank_ : Int
  maxFlankingSize_ : Int
  distanceKeeper_ : DistanceKeeper

/-- The loop of `Init` (lines 41-49), `PointPushBackWorker::operator()` (lines 527-568) and
`PointPushFrontWorker::operator()` (lines 466-507), called with the path, the vertex, the
distance and the edge. Neither worker assigns `failFlag`. -/
structure LCBWorkers (ι : Type) where
  init : LCBPath ι → Int → Option ι
  pushBack : LCBPath ι → Int → Int → Edge → Option ι
  pushFront : LCBPath ι → Int → Int → Edge → Option ι

namespace LCBPath

/-- The constructor `Path(storage, maxBranchSize, minBlockSize, minScoringUnit,
maxFlankingSize)` (lines 20-34), `empty` being the containers it builds. -/
def new {ι : Type} (empty : ι)
    (maxBranchSize minBlockSize minScoringUnit maxFlankingSize : Int) : LCBPath ι :=
  { leftBody_ := [], rightBody_ := [], instances := empty, origin_ := 0,
    minBlockSize_ := minBlockSize, minScoringUnit_ := minScoringUnit,
    maxBranchSize_ := maxBranchSize, leftBodyFlank_ := 0, rightBodyFlank_ := 0,
    maxFlankingSize_ := maxFlankingSize, distanceKeeper_ := DistanceKeeper.new }

/-- `Path::Init` (lines 36-50). -/
def Init {ι : Type} (w : LCBWorkers ι) (p : LCBPath ι) (vid : Int) : Option (LCBPath ι) :=
  let p1 : LCBPath ι :=
    { p with
      origin_ := vid
      distanceKeeper_ := p.distanceKeeper_.Set vid 0
      leftBodyFlank_ := 0
      rightBodyFlank_ := 0 }
  (w.init p1 vid).map fun i => { p1 with instances := i }

/-- `Path::IsInPath`. -/
def IsInPath {ι : Type} (p : LCBPath ι) (vertex : Int) : Bool :=
  p.distanceKeeper_.IsSet vertex

/-- `Path::LeftDistance` (lines 239-242). -/
def LeftDistance {ι : Type} (p : LCBPath ι) : Int := -p.leftBodyFlank_

/-- `Path::RightDistance` (lines 244-247). -/
def RightDistance {ι : Type} (p : LCBPath ι) : Int := p.rightBodyFlank_

/-- `Path::MiddlePathLength` (lines 249-252). -/
def MiddlePathLength {ι : Type} (p : LCBPath ι) : Int := p.LeftDistance + p.RightDistance

/-- `Path::RightSize`. -/
def RightSize {ι : Type} (p : LCBPath ι) : Nat := p.rightBody_.length + 1

/-- `Path::LeftSize`. -/
def LeftSize {ι : Type} (p : LCBPath ι) : Nat := p.leftBody_.length + 1

/-- `Path::GetEndVertex` (lines 254-262). -/
def GetEndVertex {ι : Type} (p : LCBPath ι) : Int :=
  match p.rightBody_.getLast? with
  | some pt => pt.edge.endVertex
  | none => p.origin_

/-- `Path::GetStartVertex` (lines 264-272). -/
def GetStartVertex {ι : Type} (p : LCBPath ι) : Int :=
  match p.leftBody_.getLast? with
  | some pt => pt.edge.startVertex
  | none => p.origin_

/-- `Path::DumpPath(std::vector<Edge> &)` (lines 370-382): both loops run from `rbegin()`
to `rend()`. -/
def DumpPath {ι : Type} (p : LCBPath ι) : List Edge :=
  (p.leftBody_.reverse.map fun pt => pt.edge) ++ (p.rightBody_.reverse.map fun pt => pt.edge)

/-- `Path::DumpPath(std::ostream &)` (lines 334-347), as the edges of the lines it writes
after `Left:` and after `Right:`: the first loop runs from `rbegin()` to `rend()`, the second
from `begin()` to `end()`. -/
def DumpPathStream {ι : Type} (p : LCBPath ι) : List Edge × List Edge :=
  (p.leftBody_.reverse.map fun pt => pt.edge, p.rightBody_.map fun pt => pt.edge)

/-- `Path::PointPushBack` (lines 572-588). The value of `failFlag` is the `false` it is
initialised with. -/
def PointPushBack {ι : Type} (w : LCBWorkers ι) (p : LCBPath ι) (e : Edge) :
    Option (Bool × LCBPath ι) :=
  let vertex := e.endVertex
  if p.distanceKeeper_.IsSet vertex then some (false, p)
  else
    let startVertexDistance := p.rightBodyFlank_
    let endVertexDistance := startVertexDistance + e.length
    let p1 : LCBPath ι :=
      { p with distanceKeeper_ := p.distanceKeeper_.Set e.endVertex (toInt32 endVertexDistance) }
    (w.pushBack p1 vertex endVertexDistance e).map fun i =>
      (true,
        { p1 with
          instances := i
          rightBody_ := p.rightBody_ ++ [{ edge := e, startDistance := startVertexDistance }]
          rightBodyFlank_ :=
            Point.EndDistance { edge := e, startDistance := startVertexDistance } })

/-- `Path::PointPushFront` (lines 590-606). -/
def PointPushFront {ι : Type} (w : LCBWorkers ι) (p : LCBPath ι) (e : Edge) :
    Option (Bool × LCBPath ι) :=
  let vertex := e.startVertex
  if p.distanceKeeper_.IsSet vertex then some (false, p)
  else
    let endVertexDistance := p.leftBodyFlank_
    let startVertexDistance := endVertexDistance - e.length
    let p1 : LCBPath ι :=
      { p with
        distanceKeeper_ := p.distanceKeeper_.Set e.startVertex (toInt32 startVertexDistance) }
    (w.pushFront p1 vertex startVertexDistance e).map fun i =>
      (true,
        { p1 with
          instances := i
          leftBody_ := p.leftBody_ ++ [{ edge := e, startDistance := startVertexDistance }]
          leftBodyFlank_ := startVertexDistance })

end LCBPath

/-! ## Statements about paths -/

/-- The sum of the lengths of the edges of a body. -/
def edgeLengths (body : List Point) : Int := (body.map fun pt => pt.edge.length).sum

/-- The points of a right body, in the order of the pushes, start at the distance `d` and
each starts where the one before it ends. -/
def rightChain : Int → List Point → Prop
  | _, [] => True
  | d, pt :: rest => pt.startDistance = d ∧ rightChain pt.EndDistance rest

/-- The points of a left body, in the order of the pushes, end at the distance `d` and each
ends where the one pushed before it starts: read from left to right along the path, each
starts where the one before it ends. -/
def leftChain : Int → List Point → Prop
  | _, [] => True
  | d, pt :: rest => pt.EndDistance = d ∧ leftChain pt.startDistance rest

/-- The origin, the end vertices of the right body and the start vertices of the left
body. -/
def pathVertices (origin : Int) (leftBody rightBody : List Point) : List Int :=
  origin :: ((rightBody.map fun pt => pt.edge.endVertex) ++
    leftBody.map fun pt => pt.edge.startVertex)

/-- The distance invariant of a path, over the members that both files share. -/
structure PathInvariant (origin : Int) (leftBody rightBody : List Point)
    (leftBodyFlank rightBodyFlank : Int) (keeper : DistanceKeeper) : Prop where
  right : rightBodyFlank = edgeLengths rightBody
  left : -leftBodyFlank = edgeLengths leftBody
  rightPoints : rightChain 0 rightBody
  leftPoints : leftChain 0 leftBody
  inPath : ∀ v, keeper.IsSet v = true ↔
    toInt32 v ∈ (pathVertices origin leftBody rightBody).map toInt32
  once : ((pathVertices origin leftBody rightBody).map toInt32).Nodup

/-- The distances of a path as a caller reads them: the values of `LeftDistance()`,
`RightDistance()` and `MiddlePathLength()` are the sums of the lengths of the edges of the
left body, of the right body and of both; with the points of a body in the order of the
pushes, the first point of the right body starts at `0` and each later one starts where the
one pushed before it ends, and the first point of the left body ends at `0` and each later
one ends where the one pushed before it starts. -/
def PathSums (leftBody rightBody : List Point)
    (leftDistance rightDistance middlePathLength : Int) : Prop :=
  rightDistance = edgeLengths rightBody ∧ leftDistance = edgeLengths leftBody ∧
    middlePathLength = edgeLengths leftBody + edgeLengths rightBody ∧
    ((∀ a, rightBody[0]? = some a → a.startDistance = 0) ∧
      ∀ i a b, rightBody[i]? = some a → rightBody[i + 1]? = some b →
        b.startDistance = a.EndDistance) ∧
    ((∀ a, leftBody[0]? = some a → a.EndDistance = 0) ∧
      ∀ i a b, leftBody[i]? = some a → leftBody[i + 1]? = some b →
        a.startDistance = b.EndDistance)

/-- The answers of `IsInPath` over 32-bit keys: a vertex is in the path exactly when its
32-bit value is the one of the origin or of a vertex of a body, and no two of these have
the same 32-bit value. -/
def InPathModular (origin : Int) (leftBody rightBody : List Point)
    (isInPath : Int → Bool) : Prop :=
  (∀ v, isInPath v = true ↔
      toInt32 v ∈ (pathVertices origin leftBody rightBody).map toInt32) ∧
    ((pathVertices origin leftBody rightBody).map toInt32).Nodup

/-- The answers of `IsInPath` when the origin and the vertices of the bodies are 32-bit
values: a 32-bit value is in the path exactly when it is the origin or a vertex of a body,
and none of these occurs twice. -/
def InPathExact (origin : Int) (leftBody rightBody : List Point)
    (isInPath : Int → Bool) : Prop :=
  (∀ x ∈ pathVertices origin leftBody rightBody, -2 ^ 31 ≤ x ∧ x < 2 ^ 31) →
    (∀ v, -2 ^ 31 ≤ v → v < 2 ^ 31 →
      (isInPath v = true ↔ v ∈ pathVertices origin leftBody rightBody)) ∧
    (pathVertices origin leftBody rightBody).Nodup

/-- The distance invariant of a path of src/src/path.h. -/
def Path.Invariant (p : Path) : Prop :=
  PathInvariant p.origin_ p.leftBody_ p.rightBody_ p.leftBodyFlank_ p.rightBodyFlank_
    p.distanceKeeper_

/-- The distance invariant of a path of SibeliaZ-LCB/path.h. -/
def LCBPath.Invariant {ι : Type} (p : LCBPath ι) : Prop :=
  PathInvariant p.origin_ p.leftBody_ p.rightBody_ p.leftBodyFlank_ p.rightBodyFlank_
    p.distanceKeeper_

/-- The paths of src/src/path.h that the calls of the interface build: `Init` on a new path,
then calls of `PointPushBack`, `PointPushFront`, `PointPopBack` and `PointPopFront` that
return. -/
inductive Path.Reachable (s : JunctionStorage) (used : JunctionSequentialIterator → Bool) :
    Path → Prop where
  | init (maxBranchSize minBlockSize maxFlankingSize vid : Int) :
    Path.Reachable s used
      (Path.Init s used (Path.new maxBranchSize minBlockSize maxFlankingSize) vid)
  | pushBack (p : Path) (e : Edge) (b : Bool) (q : Path) :
    Path.Reachable s used p → Path.PointPushBack s used p e = some (b, q) →
    Path.Reachable s used q
  | pushFront (p : Path) (e : Edge) (b : Bool) (q : Path) :
    Path.Reachable s used p → Path.PointPushFront s used p e = some (b, q) →
    Path.Reachable s used q
  | popBack (p q : Path) :
    Path.Reachable s used p → Path.PointPopBack s p = some q → Path.Reachable s used q
  | popFront (p q : Path) :
    Path.Reachable s used p → Path.PointPopFront s p = some q → Path.Reachable s used q

/-- The paths of SibeliaZ-LCB/path.h that the calls of the interface build: `Init` on a new
path, then calls of `PointPushBack` and `PointPushFront` that return. -/
inductive LCBPath.Reachable {ι : Type} (w : LCBWorkers ι) : LCBPath ι → Prop where
  | init (empty : ι) (maxBranchSize minBlockSize minScoringUnit maxFlankingSize vid : Int)
      (q : LCBPath ι) :
    LCBPath.Init w
      (LCBPath.new empty maxBranchSize minBlockSize minScoringUnit maxFlankingSize) vid =
        some q →
    LCBPath.Reachable w q
  | pushBack (p : LCBPath ι) (e : Edge) (b : Bool) (q : LCBPath ι) :
    LCBPath.Reachable w p → LCBPath.PointPushBack w p e = some (b, q) →
    LCBPath.Reachable w q
  | pushFront (p : LCBPath ι) (e : Edge) (b : Bool) (q : LCBPath ι) :
    LCBPath.Reachable w p → LCBPath.PointPushFront w p e = some (b, q) →
    LCBPath.Reachable w q

/-- The edges of a path from the leftmost to the rightmost: the left body from its last point
to its first, then the right body from its first point to its last. -/
def pathEdges (leftBody rightBody : List Point) : List Edge :=
  (leftBody.reverse.map fun pt => pt.edge) ++ rightBody.map fun pt => pt.edge

/-- The end vertex of each edge is the start vertex of the next one. -/
def Chained (edges : List Edge) : Prop :=
  List.Chain' (fun a b : Edge => a.endVertex = b.startVertex) edges

instance (edges : List Edge) : Decidable (Chained edges) :=
  inferInstanceAs (Decidable (List.Chain' (fun a b : Edge => a.endVertex = b.startVertex) edges))

/-- The edges of a right body, in the order of the pushes, start at the vertex `v` and each
starts at the end vertex of the one before it. -/
def rightVertexChain : Int → List Point → Prop
  | _, [] => True
  | v, pt :: rest => pt.edge.startVertex = v ∧ rightVertexChain pt.edge.endVertex rest

/-- The edges of a left body, in the order of the pushes, end at the vertex `v` and each ends
at the start vertex of the one before it. -/
def leftVertexChain : Int → List Point → Prop
  | _, [] => True
  | v, pt :: rest => pt.edge.endVertex = v ∧ leftVertexChain pt.edge.startVertex rest

/-- The paths of src/src/path.h built by `Init` followed by calls of `PointPushBack` with an
edge that starts at the end vertex of the path and of `PointPushFront` with an edge that ends
at its start vertex. -/
inductive Path.Extended (s : JunctionStorage) (used : JunctionSequentialIterator → Bool) :
    Path → Prop where
  | init (maxBranchSize minBlockSize maxFlankingSize vid : Int) :
    Path.Extended s used
      (Path.Init s used (Path.new maxBranchSize minBlockSize maxFlankingSize) vid)
  | pushBack (p : Path) (e : Edge) (b : Bool) (q : Path) :
    Path.Extended s used p → e.startVertex = p.GetEndVertex →
    Path.PointPushBack s used p e = some (b, q) → Path.Extended s used q
  | pushFront (p : Path) (e : Edge) (b : Bool) (q : Path) :
    Path.Extended s used p → e.endVertex = p.GetStartVertex →
    Path.PointPushFront s used p e = some (b, q) → Path.Extended s used q

/-- The paths of SibeliaZ-LCB/path.h built by `Init` followed by calls of `PointPushBack`
with an edge that starts at the end vertex of the path and of `PointPushFront` with an edge
that ends at its start vertex. -/
inductive LCBPath.Extended {ι : Type} (w : LCBWorkers ι) : LCBPath ι → Prop where
  | init (empty : ι) (maxBranchSize minBlockSize minScoringUnit maxFlankingSize vid : Int)
      (q : LCBPath ι) :
    LCBPath.Init w
      (LCBPath.new empty maxBranchSize minBlockSize minScoringUnit maxFlankingSize) vid =
        some q →
    LCBPath.Extended w q
  | pushBack (p : LCBPath ι) (e : Edge) (b : Bool) (q : LCBPath ι) :
    LCBPath.Extended w p → e.startVertex = p.GetEndVertex →
    LCBPath.PointPushBack w p e = some (b, q) → LCBPath.Extended w q
  | pushFront (p : LCBPath ι) (e : Edge) (b : Bool) (q : LCBPath ι) :
    LCBPath.Extended w p → e.endVertex = p.GetStartVertex →
    LCBPath.PointPushFront w p e = some (b, q) → LCBPath.Extended w q

/-! ## Example paths -/

/-- No junction is marked as used. -/
def unused : JunctionSequentialIterator → Bool := fun _ => false

/-- A storage of two chromosomes: chromosome 0 carries the junctions `1, 2, 3, 4` at the
positions `0, 100, 200, 300`, chromosome 1 the junctions `3, 4` at the positions `0, 100`. -/
def flankStorage : JunctionStorage :=
  tableStorage [[(1, 0), (2, 100), (3, 200), (4, 300)], [(3, 0), (4, 100)]] 500 5

/-- The path over `flankStorage` after `Init(3)`, with `maxBranchSize = 50`,
`minBlockSize = 100` and `maxFlankingSize = 50`. -/
def flankOrigin : Path := Path.Init flankStorage unused (Path.new 50 100 50) 3

/-- The path `flankOrigin` after `PointPushFront` of the edge from `2` to `3` of length
`100`: the instance on chromosome 0 reaches `100` to the left, the one on chromosome 1 stays
at the origin. -/
def flankPath : Path :=
  { flankOrigin with
    leftBody_ := [{ edge := ⟨2, 3, 'A', 100⟩, startDistance := -100 }]
    instance_ :=
      [{ frontDistance_ := -100, backDistance_ := 0,
         front_ := { chrId := 0, idx := 1, positiveStrand := true },
         back_ := { chrId := 0, idx := 2, positiveStrand := true } },
       { frontDistance_ := 0, backDistance_ := 0,
         front_ := { chrId := 1, idx := 0, positiveStrand := true },
         back_ := { chrId := 1, idx := 0, positiveStrand := true } }]
    leftBodyFlank_ := -100
    distanceKeeper_ := { distance_ := [(2, -100), (3, 0)] } }

/-- The path over `exampleStorage` after `Init(1)`. -/
def exampleOrigin : Path := Path.Init exampleStorage unused (Path.new 50 100 50) 1

/-- The path `exampleOrigin` after `PointPushBack` of the edge from `1` to `2` of length
`100`. -/
def examplePath : Path :=
  { exampleOrigin with
    rightBody_ := [{ edge := ⟨1, 2, 'A', 100⟩, startDistance := 0 }]
    instance_ :=
      [{ frontDistance_ := 0, backDistance_ := 100,
         front_ := { chrId := 0, idx := 0, positiveStrand := true },
         back_ := { chrId := 0, idx := 1, positiveStrand := true } },
       { frontDistance_ := 0, backDistance_ := 100,
         front_ := { chrId := 1, idx := 0, positiveStrand := true },
         back_ := { chrId := 1, idx := 1, positiveStrand := true } }]
    rightBodyFlank_ := 100
    distanceKeeper_ := { distance_ := [(2, 100), (1, 0)] } }

/-- A storage of two chromosomes: chromosome 0 carries the junctions `2, 4, 3` at the
positions `0, 100, 200`, chromosome 1 the junction `1` at the position `0`. -/
def staleStorage : JunctionStorage := tableStorage [[(2, 0), (4, 100), (3, 200)], [(1, 0)]] 500 5

/-- The path over `staleStorage` after `Init(1)`, with `maxBranchSize = 1000`,
`minBlockSize = 100` and `maxFlankingSize = 1000`. -/
def staleOrigin : Path := Path.Init staleStorage unused (Path.new 1000 100 1000) 1

/-- The instance on chromosome 0 of `staleStorage` from the junction `front` to the junction
`back`. -/
def staleInstance (front back : Int) (frontDistance backDistance : Int) : Instance :=
  { frontDistance_ := frontDistance, backDistance_ := backDistance,
    front_ := { chrId := 0, idx := front, positiveStrand := true },
    back_ := { chrId := 0, idx := back, positiveStrand := true } }

/-- The instance of the origin of `staleOrigin`, on chromosome 1. -/
def staleOriginInstance : Instance :=
  { frontDistance_ := 0, backDistance_ := 0,
    front_ := { chrId := 1, idx := 0, positiveStrand := true },
    back_ := { chrId := 1, idx := 0, positiveStrand := true } }

/-- The paths after the calls `PointPushBack(1 -> 2)`, `PointPushBack(2 -> 3)`,
`PointPushFront(4 -> 1)`, `PointPopBack()`, `PointPopBack()` on `staleOrigin`, in this order,
every edge of length `100`. The instance on chromosome 0 is made by the first call at the
junction of `2`, reaches the junction of `3` after the second, and is moved back by the first
`PointPopBack` to the junction of `4`, which lies between them and is in the path by then.
The second `PointPopBack` takes `2` out of the path and leaves the instance as it is. -/
def stalePaths : List Path :=
  [ { staleOrigin with
      rightBody_ := [⟨⟨1, 2, 'A', 100⟩, 0⟩]
      instance_ := [staleInstance 0 0 100 100, staleOriginInstance]
      rightBodyFlank_ := 100
      distanceKeeper_ := { distance_ := [(2, 100), (1, 0)] } },
    { staleOrigin with
      rightBody_ := [⟨⟨1, 2, 'A', 100⟩, 0⟩, ⟨⟨2, 3, 'A', 100⟩, 100⟩]
      instance_ := [staleInstance 0 2 100 200, staleOriginInstance]
      rightBodyFlank_ := 200
      distanceKeeper_ := { distance_ := [(3, 200), (2, 100), (1, 0)] } },
    { staleOrigin with
      leftBody_ := [⟨⟨4, 1, 'A', 100⟩, -100⟩]
      rightBody_ := [⟨⟨1, 2, 'A', 100⟩, 0⟩, ⟨⟨2, 3, 'A', 100⟩, 100⟩]
      instance_ := [staleInstance 0 2 100 200, staleOriginInstance]
      leftBodyFlank_ := -100
      rightBodyFlank_ := 200
      distanceKeeper_ := { distance_ := [(4, -100), (3, 200), (2, 100), (1, 0)] } },
    { staleOrigin with
      leftBody_ := [⟨⟨4, 1, 'A', 100⟩, -100⟩]
      rightBody_ := [⟨⟨1, 2, 'A', 100⟩, 0⟩]
      instance_ := [staleInstance 0 1 100 (-100), staleOriginInstance]
      leftBodyFlank_ := -100
      rightBodyFlank_ := 100
      distanceKeeper_ := { distance_ := [(4, -100), (2, 100), (1, 0)] } },
    { staleOrigin with
      leftBody_ := [⟨⟨4, 1, 'A', 100⟩, -100⟩]
      instance_ := [staleInstance 0 1 100 (-100), staleOriginInstance]
      leftBodyFlank_ := -100
      distanceKeeper_ := { distance_ := [(4, -100), (1, 0)] } } ]

/-- The path after a call of `PointPopFront()` on the last path of `stalePaths`: the origin
alone is in the path, and the instance on chromosome 0 still runs from the junction of `2` to
the junction of `4`. -/
def stalePath : Path :=
  { staleOrigin with instance_ := [staleInstance 0 1 100 (-100), staleOriginInstance] }

/-- The path `stalePath` after `PointPushBack` of the edge from `1` to `4`. -/
def stalePushed : Path :=
  { stalePath with
    rightBody_ := [⟨⟨1, 4, 'A', 100⟩, 0⟩]
    instance_ := [staleInstance 0 1 100 (-100), staleInstance 1 1 100 100, staleOriginInstance]
    rightBodyFlank_ := 100
    distanceKeeper_ := { distance_ := [(4, 100), (1, 0)] } }

/-- A storage of `2^32 + 2` vertices in which chromosome 0 carries the junctions of the
vertices `1` and `2^32 + 1` at the positions `0` and `100`. -/
def wideStorage : JunctionStorage :=
  tableStorage [[(1, 0), (2 ^ 32 + 1, 100)]] 500 (2 ^ 32 + 2)

/-- The path over `wideStorage` after `Init(1)`. -/
def wideOrigin : Path := Path.Init wideStorage unused (Path.new 50 100 50) 1

/-- Workers of SibeliaZ-LCB/path.h over containers without content: each loop returns. -/
def unitWorkers : LCBWorkers Unit :=
  { init := fun _ _ => some ()
    pushBack := fun _ _ _ _ => some ()
    pushFront := fun _ _ _ _ => some () }

/-- The path of SibeliaZ-LCB/path.h after `Init(1)`. -/
def lcbOrigin : LCBPath Unit :=
  { LCBPath.new () 50 100 10 50 with distanceKeeper_ := { distance_ := [(1, 0)] }, origin_ := 1 }

/-- The path `lcbOrigin` after `PointPushBack` of the edge from `1` to `2` of length `100`. -/
def lcbPath1 : LCBPath Unit :=
  { lcbOrigin with
    rightBody_ := [⟨⟨1, 2, 'A', 100⟩, 0⟩]
    rightBodyFlank_ := 100
    distanceKeeper_ := { distance_ := [(2, 100), (1, 0)] } }

/-- The path `lcbPath1` after `PointPushBack` of the edge from `2` to `3` of length `100`. -/
def lcbPath2 : LCBPath Unit :=
  { lcbOrigin with
    rightBody_ := [⟨⟨1, 2, 'A', 100⟩, 0⟩, ⟨⟨2, 3, 'A', 100⟩, 100⟩]
    rightBodyFlank_ := 200
    distanceKeeper_ := { distance_ := [(3, 200), (2, 100), (1, 0)] } }

/-- The path `lcbPath2` after `PointPushFront` of the edge from `0` to `1` of length `50`. -/
def lcbPath3 : LCBPath Unit :=
  { lcbPath2 with
    leftBody_ := [⟨⟨0, 1, 'A', 50⟩, -50⟩]
    leftBodyFlank_ := -50
    distanceKeeper_ := { distance_ := [(0, -50), (3, 200), (2, 100), (1, 0)] } }

/-- The path `examplePath` after `PointPushBack` of the edge from `2` to `3` of length
`100`. -/
def examplePath2 : Path :=
  { examplePath with
    rightBody_ := [⟨⟨1, 2, 'A', 100⟩, 0⟩, ⟨⟨2, 3, 'A', 100⟩, 100⟩]
    instance_ :=
      [{ frontDistance_ := 0, backDistance_ := 200,
         front_ := { chrId := 0, idx := 0, positiveStrand := true },
         back_ := { chrId := 0, idx := 2, positiveStrand := true } },
       { frontDistance_ := 0, backDistance_ := 200,
         front_ := { chrId := 1, idx := 0, positiveStrand := true },
         back_ := { chrId := 1, idx := 2, positiveStrand := true } }]
    rightBodyFlank_ := 200
    distanceKeeper_ := { distance_ := [(3, 200), (2, 100), (1, 0)] } }

/-! ## Lemmas -/

/-! ### Narrowing to 32 bits -/

/-- The conversion to 32 bits keeps a value of the range from `-2^31` to `2^31 - 1`. -/
theorem toInt32_of_range (v : Int) (h1 : -2 ^ 31 ≤ v) (h2 : v < 2 ^ 31) : toInt32 v = v := by
  unfold toInt32
  rw [Int.emod_eq_of_lt (by omega) (by omega)]
  omega

theorem pushBackAt_length (B : List (List Nat)) (i x : Nat) :
    (pushBackAt B i x).length = B.length := by
  induction B generalizing i with
  | nil => rfl
  | cons b bs ih =>
    cases i with
    | zero => rfl
    | succ i => simp [pushBackAt, ih]

theorem getD_pushBackAt (B : List (List Nat)) (i x j : Nat) :
    (pushBackAt B i x).getD j [] =
      if j = i ∧ i < B.length then B.getD j [] ++ [x] else B.getD j [] := by
  induction B generalizing i j with
  | nil => simp [pushBackAt]
  | cons b bs ih =>
    cases i with
    | zero =>
      cases j with
      | zero => simp [pushBackAt]
      | succ j => simp [pushBackAt]
    | succ i =>
      cases j with
      | zero => simp [pushBackAt]
      | succ j =>
        simp only [pushBackAt, List.getD_cons_succ, List.length_cons, Nat.add_lt_add_iff_right,
          Nat.add_right_cancel_iff]
        exact ih i j

/-- Folding `push_back` over a list of pairs appends to row `j` the second components of the
pairs whose first component is `j`, in order. -/
theorem getD_foldl_pushBackAt (P : List (Nat × Nat)) (B : List (List Nat)) (j : Nat)
    (hj : j < B.length) :
    (P.foldl (fun bulges p => pushBackAt bulges p.1 p.2) B).getD j [] =
      B.getD j [] ++ (P.filter (fun p => p.1 = j)).map Prod.snd := by
  induction P generalizing B with
  | nil => simp
  | cons p P ih =>
    rw [List.foldl_cons, ih _ (by rw [pushBackAt_length]; exact hj), getD_pushBackAt]
    by_cases h : p.1 = j
    · subst h; simp [hj]
    · have h' : ¬ j = p.1 := fun e => h e.symm
      simp [h, h']

theorem length_foldl_pushBackAt (P : List (Nat × Nat)) (B : List (List Nat)) :
    (P.foldl (fun bulges p => pushBackAt bulges p.1 p.2) B).length = B.length := by
  induction P generalizing B with
  | nil => rfl
  | cons p P ih => rw [List.foldl_cons, ih, pushBackAt_length]

theorem addParallel_eq (pe : List (List Nat)) (B : BubbledBranches) :
    addParallel pe B =
      (pe.flatMap pairsFrom).foldl (fun bulges p => pushBackAt bulges p.1 p.2) B := by
  unfold addParallel
  induction pe generalizing B with
  | nil => rfl
  | cons b pe ih => simp [List.flatMap_cons, List.foldl_append, ih]

theorem addVisited_eq (visit : VisitMap) (B : BubbledBranches) :
    addVisited visit B =
      (visit.flatMap fun point => pairsFrom (point.2.insertionSort (· ≤ ·))).foldl
        addVisitedPair B := by
  unfold addVisited
  induction visit generalizing B with
  | nil => rfl
  | cons b pe ih => simp [List.flatMap_cons, List.foldl_append, ih]

theorem addVisitedPair_length (B : BubbledBranches) (p : Nat × Nat) :
    (addVisitedPair B p).length = B.length := by
  unfold addVisitedPair
  dsimp only
  split
  · exact pushBackAt_length _ _ _
  · rfl

theorem length_foldl_addVisitedPair (Q : List (Nat × Nat)) (B : BubbledBranches) :
    (Q.foldl addVisitedPair B).length = B.length := by
  induction Q generalizing B with
  | nil => rfl
  | cons p Q ih => rw [List.foldl_cons, ih, addVisitedPair_length]

theorem mem_getD_addVisitedPair (B : BubbledBranches) (p : Nat × Nat) (j k : Nat)
    (hj : j < B.length) :
    k ∈ (addVisitedPair B p).getD j [] ↔ k ∈ B.getD j [] ∨ (p = (j, k) ∧ j ≠ k) := by
  unfold addVisitedPair
  obtain ⟨a, b⟩ := p
  simp only
  split
  · rename_i h
    rw [getD_pushBackAt]
    by_cases hja : j = a
    · subst hja
      simp only [hj, and_self, if_true, List.mem_append, List.mem_singleton, Prod.mk.injEq,
        true_and]
      constructor
      · rintro (h1 | h1)
        · exact Or.inl h1
        · subst h1; exact Or.inr ⟨rfl, h.1⟩
      · rintro (h1 | ⟨h1, _⟩)
        · exact Or.inl h1
        · exact Or.inr h1.symm
    · have : ¬ a = j := fun e => hja e.symm
      simp [hja, this]
  · rename_i h
    constructor
    · exact Or.inl
    · rintro (h1 | ⟨h1, h2⟩)
      · exact h1
      · simp only [Prod.mk.injEq] at h1
        obtain ⟨rfl, rfl⟩ := h1
        by_contra hk
        exact h ⟨h2, hk⟩

theorem mem_getD_foldl_addVisitedPair (Q : List (Nat × Nat)) (B : BubbledBranches) (j k : Nat)
    (hj : j < B.length) :
    k ∈ (Q.foldl addVisitedPair B).getD j [] ↔ k ∈ B.getD j [] ∨ ((j, k) ∈ Q ∧ j ≠ k) := by
  induction Q generalizing B with
  | nil => simp
  | cons p Q ih =>
    rw [List.foldl_cons, ih _ (by rw [addVisitedPair_length]; exact hj),
      mem_getD_addVisitedPair _ _ _ _ hj, List.mem_cons]
    constructor
    · rintro ((h | ⟨h, h2⟩) | ⟨h, h2⟩)
      · exact Or.inl h
      · exact Or.inr ⟨Or.inl h.symm, h2⟩
      · exact Or.inr ⟨Or.inr h, h2⟩
    · rintro (h | ⟨h | h, h2⟩)
      · exact Or.inl (Or.inl h)
      · exact Or.inl (Or.inr ⟨h.symm, h2⟩)
      · exact Or.inr ⟨h, h2⟩

theorem nodup_getD_addVisitedPair (B : BubbledBranches) (p : Nat × Nat) (j : Nat)
    (hn : (B.getD j []).Nodup) : ((addVisitedPair B p).getD j []).Nodup := by
  unfold addVisitedPair
  obtain ⟨a, b⟩ := p
  simp only
  split
  · rename_i h
    rw [getD_pushBackAt]
    split
    · rename_i h2
      obtain ⟨rfl, _⟩ := h2
      rw [List.nodup_append]
      refine ⟨hn, List.nodup_singleton _, ?_⟩
      intro x hx hx2
      simp only [List.mem_singleton] at hx2
      subst hx2
      exact h.2 hx
    · exact hn
  · exact hn

theorem nodup_getD_foldl_addVisitedPair (Q : List (Nat × Nat)) (B : BubbledBranches) (j : Nat)
    (hn : (B.getD j []).Nodup) : ((Q.foldl addVisitedPair B).getD j []).Nodup := by
  induction Q generalizing B with
  | nil => exact hn
  | cons p Q ih =>
    rw [List.foldl_cons]
    exact ih _ (nodup_getD_addVisitedPair _ _ _ hn)

theorem mem_pairsFrom_mem {l : List Nat} {a b : Nat} (h : (a, b) ∈ pairsFrom l) :
    a ∈ l ∧ b ∈ l := by
  induction l with
  | nil => simp [pairsFrom] at h
  | cons x rest ih =>
    simp only [pairsFrom, List.mem_append, List.mem_map, Prod.mk.injEq] at h
    rcases h with ⟨c, hc, rfl, rfl⟩ | h
    · exact ⟨List.mem_cons_self _ _, List.mem_cons_of_mem _ hc⟩
    · exact ⟨List.mem_cons_of_mem _ (ih h).1, List.mem_cons_of_mem _ (ih h).2⟩

theorem rel_of_mem_pairsFrom {R : Nat → Nat → Prop} {l : List Nat} {a b : Nat}
    (hl : l.Pairwise R) (h : (a, b) ∈ pairsFrom l) : R a b := by
  induction l with
  | nil => simp [pairsFrom] at h
  | cons x rest ih =>
    rw [List.pairwise_cons] at hl
    simp only [pairsFrom, List.mem_append, List.mem_map, Prod.mk.injEq] at h
    rcases h with ⟨c, hc, rfl, rfl⟩ | h
    · exact hl.1 _ hc
    · exact ih hl.2 h

theorem mem_pairsFrom_of_lt {l : List Nat} {a b : Nat} (hl : l.Pairwise (· ≤ ·))
    (ha : a ∈ l) (hb : b ∈ l) (hab : a < b) : (a, b) ∈ pairsFrom l := by
  induction l with
  | nil => simp at ha
  | cons x rest ih =>
    rw [List.pairwise_cons] at hl
    simp only [pairsFrom, List.mem_append, List.mem_map, Prod.mk.injEq]
    rcases List.mem_cons.1 ha with rfl | ha'
    · rcases List.mem_cons.1 hb with rfl | hb'
      · omega
      · exact Or.inl ⟨b, hb', rfl, rfl⟩
    · rcases List.mem_cons.1 hb with rfl | hb'
      · have := hl.1 _ ha'
        omega
      · exact Or.inr (ih hl.2 ha' hb')

theorem nodup_pairsFrom {l : List Nat} (hl : l.Nodup) : (pairsFrom l).Nodup := by
  induction l with
  | nil => simp [pairsFrom]
  | cons x rest ih =>
    rw [List.nodup_cons] at hl
    simp only [pairsFrom]
    rw [List.nodup_append]
    refine ⟨?_, ih hl.2, ?_⟩
    · exact hl.2.map (fun a b h => by simpa using h)
    · intro p hp hp2
      simp only [List.mem_map] at hp
      obtain ⟨c, _, rfl⟩ := hp
      exact hl.1 (mem_pairsFrom_mem hp2).1

theorem inVisit_visitPush (visit : VisitMap) (w : Int) (i : Nat) (w' : Int) (t : Nat) :
    inVisit (visitPush visit w i) w' t ↔ inVisit visit w' t ∨ (w' = w ∧ t = i) := by
  induction visit with
  | nil =>
    simp only [inVisit, visitPush, List.mem_singleton, Prod.mk.injEq, List.not_mem_nil,
      false_and, exists_false, false_or]
    constructor
    · rintro ⟨b, ⟨rfl, rfl⟩, ht⟩
      exact ⟨rfl, by simpa using ht⟩
    · rintro ⟨rfl, rfl⟩
      exact ⟨[t], ⟨rfl, rfl⟩, by simp⟩
  | cons e rest ih =>
    obtain ⟨x, ids⟩ := e
    unfold inVisit at ih ⊢
    simp only [visitPush]
    split
    · rename_i h
      subst h
      simp only [List.mem_cons, Prod.mk.injEq]
      constructor
      · rintro ⟨b, (⟨rfl, rfl⟩ | hb), ht⟩
        · rcases List.mem_append.1 ht with ht | ht
          · exact Or.inl ⟨ids, Or.inl ⟨rfl, rfl⟩, ht⟩
          · exact Or.inr ⟨rfl, by simpa using ht⟩
        · exact Or.inl ⟨b, Or.inr hb, ht⟩
      · rintro (⟨b, (⟨rfl, rfl⟩ | hb), ht⟩ | ⟨rfl, rfl⟩)
        · exact ⟨b ++ [i], Or.inl ⟨rfl, rfl⟩, List.mem_append_left _ ht⟩
        · exact ⟨b, Or.inr hb, ht⟩
        · exact ⟨ids ++ [t], Or.inl ⟨rfl, rfl⟩, by simp⟩
    · split
      · simp only [List.mem_cons, Prod.mk.injEq]
        constructor
        · rintro ⟨b, (⟨rfl, rfl⟩ | hb), ht⟩
          · exact Or.inr ⟨rfl, by simpa using ht⟩
          · exact Or.inl ⟨b, hb, ht⟩
        · rintro (⟨b, hb, ht⟩ | ⟨rfl, rfl⟩)
          · exact ⟨b, Or.inr hb, ht⟩
          · exact ⟨[t], Or.inl ⟨rfl, rfl⟩, by simp⟩
      · simp only [List.mem_cons, Prod.mk.injEq]
        constructor
        · rintro ⟨b, (⟨rfl, rfl⟩ | hb), ht⟩
          · exact Or.inl ⟨b, Or.inl ⟨rfl, rfl⟩, ht⟩
          · rcases ih.1 ⟨b, hb, ht⟩ with ⟨b', hb', ht'⟩ | h
            · exact Or.inl ⟨b', Or.inr hb', ht'⟩
            · exact Or.inr h
        · rintro (⟨b, (⟨rfl, rfl⟩ | hb), ht⟩ | h)
          · exact ⟨b, Or.inl ⟨rfl, rfl⟩, ht⟩
          · obtain ⟨b', hb', ht'⟩ := ih.2 (Or.inl ⟨b, hb, ht⟩)
            exact ⟨b', Or.inr hb', ht'⟩
          · obtain ⟨b', hb', ht'⟩ := ih.2 (Or.inr h)
            exact ⟨b', Or.inr hb', ht'⟩

theorem keys_visitPush (visit : VisitMap) (w : Int) (i : Nat) (x : Int)
    (hx : x ∈ (visitPush visit w i).map Prod.fst) : x = w ∨ x ∈ visit.map Prod.fst := by
  induction visit with
  | nil => simp [visitPush] at hx; exact Or.inl hx
  | cons e rest ih =>
    obtain ⟨y, ids⟩ := e
    simp only [visitPush] at hx
    split at hx
    · simp only [List.map_cons, List.mem_cons] at hx ⊢
      exact Or.inr hx
    · split at hx
      · simp only [List.map_cons, List.mem_cons] at hx ⊢
        exact hx
      · simp only [List.map_cons, List.mem_cons] at hx ⊢
        rcases hx with h | h
        · exact Or.inr (Or.inl h)
        · rcases ih h with h | h
          · exact Or.inl h
          · exact Or.inr (Or.inr h)

theorem keysSorted_visitPush (visit : VisitMap) (w : Int) (i : Nat) (h : keysSorted visit) :
    keysSorted (visitPush visit w i) := by
  induction visit with
  | nil => simp [keysSorted, visitPush]
  | cons e rest ih =>
    obtain ⟨y, ids⟩ := e
    unfold keysSorted at h ih ⊢
    simp only [List.map_cons, List.pairwise_cons] at h
    simp only [visitPush]
    split
    · simp only [List.map_cons, List.pairwise_cons]
      exact h
    · split
      · rename_i h1 h2
        simp only [List.map_cons, List.pairwise_cons, List.mem_cons]
        refine ⟨?_, h⟩
        rintro a (rfl | ha)
        · exact h2
        · exact lt_trans h2 (h.1 a ha)
      · rename_i h1 h2
        simp only [List.map_cons, List.pairwise_cons]
        refine ⟨?_, ih h.2⟩
        intro a ha
        rcases keys_visitPush rest w i a ha with rfl | ha
        · omega
        · exact h.1 a ha

theorem keysSorted_unique {visit : VisitMap} (h : keysSorted visit) {w : Int}
    {b1 b2 : List Nat} (h1 : (w, b1) ∈ visit) (h2 : (w, b2) ∈ visit) : b1 = b2 := by
  induction visit with
  | nil => simp at h1
  | cons e rest ih =>
    unfold keysSorted at h ih
    simp only [List.map_cons, List.pairwise_cons] at h
    rcases List.mem_cons.1 h1 with rfl | h1'
    · rcases List.mem_cons.1 h2 with h2' | h2'
      · exact (Prod.mk.inj h2').2.symm
      · have := h.1 w (List.mem_map.2 ⟨_, h2', rfl⟩)
        simp at this
    · rcases List.mem_cons.1 h2 with rfl | h2'
      · have := h.1 w (List.mem_map.2 ⟨_, h1', rfl⟩)
        simp at this
      · exact ih h.2 h1' h2'

theorem keysSorted_walk (s : JunctionStorage)
    (next : JunctionSequentialIterator → JunctionSequentialIterator)
    (mb sp : Int) (i fuel : Nat) (vertex : JunctionSequentialIterator) (visit : VisitMap)
    (h : keysSorted visit) : keysSorted (walk s next mb sp i fuel vertex visit) := by
  induction fuel generalizing vertex visit with
  | zero => exact h
  | succ fuel ih =>
    simp only [walk]
    split
    · exact ih _ _ (keysSorted_visitPush _ _ _ h)
    · exact h

theorem inVisit_walk (s : JunctionStorage)
    (next : JunctionSequentialIterator → JunctionSequentialIterator)
    (mb sp : Int) (i fuel : Nat) (vertex : JunctionSequentialIterator) (visit : VisitMap)
    (w : Int) (t : Nat) :
    inVisit (walk s next mb sp i fuel vertex visit) w t ↔
      inVisit visit w t ∨ (t = i ∧ ∃ m, m < fuel ∧
        (∀ r, r ≤ m → withinBranch s mb sp (next^[r] vertex)) ∧
        s.vertexId (next^[m] vertex) = w) := by
  induction fuel generalizing vertex visit with
  | zero => simp [walk]
  | succ fuel ih =>
    simp only [walk]
    split
    · rename_i hc
      have hc' : withinBranch s mb sp vertex := by
        simpa [withinBranch] using hc
      rw [ih, inVisit_visitPush]
      constructor
      · rintro ((h | ⟨rfl, rfl⟩) | ⟨rfl, m, hm, hall, hw⟩)
        · exact Or.inl h
        · exact Or.inr ⟨rfl, 0, by omega, by
            intro r hr
            obtain rfl : r = 0 := by omega
            exact hc', rfl⟩
        · refine Or.inr ⟨rfl, m + 1, by omega, ?_, by simpa [Function.iterate_succ_apply] using hw⟩
          intro r hr
          cases r with
          | zero => exact hc'
          | succ r =>
            rw [Function.iterate_succ_apply]
            exact hall r (by omega)
      · rintro (h | ⟨rfl, m, hm, hall, hw⟩)
        · exact Or.inl (Or.inl h)
        · cases m with
          | zero => exact Or.inl (Or.inr ⟨hw.symm, rfl⟩)
          | succ m =>
            refine Or.inr ⟨rfl, m, by omega, ?_, by
              simpa [Function.iterate_succ_apply] using hw⟩
            intro r hr
            have := hall (r + 1) (by omega)
            rwa [Function.iterate_succ_apply] at this
    · rename_i hc
      have hc' : ¬ withinBranch s mb sp vertex := by
        simpa [withinBranch] using hc
      constructor
      · exact Or.inl
      · rintro (h | ⟨_, m, _, hall, _⟩)
        · exact h
        · exact absurd (hall 0 (Nat.zero_le _)) hc'

theorem scanForward_eq (s : JunctionStorage) (mb : Int)
    (inst : List JunctionSequentialIterator) (i : Nat) (acc : List (List Nat) × VisitMap) :
    scanForward s mb inst i acc =
      scanGen (fun v => (v.plus 1).Valid s) (fun v => MakeUpChar (s.char v))
        (fun v i visit => walk s (fun it => it.plus 1) mb (v.GetPosition s) i (walkFuel s v)
          (v.plus 1) visit) inst i acc := by
  induction inst generalizing i acc with
  | nil => rfl
  | cons x rest ih =>
    obtain ⟨pe, visit⟩ := acc
    simp only [scanForward, scanGen]
    exact ih _ _

theorem scanBackward_eq (s : JunctionStorage) (mb : Int)
    (inst : List JunctionSequentialIterator) (i : Nat) (acc : List (List Nat) × VisitMap) :
    scanBackward s mb inst i acc =
      scanGen (fun v => (v.minus 1).Valid s) (fun v => MakeUpChar (s.char (v.minus 1)))
        (fun v i visit => walk s (fun it => it.minus 1) mb (v.GetPosition s) i (walkFuel s v)
          (v.minus 1) visit) inst i acc := by
  induction inst generalizing i acc with
  | nil => rfl
  | cons x rest ih =>
    obtain ⟨pe, visit⟩ := acc
    simp only [scanBackward, scanGen]
    exact ih _ _

section scan

variable (hasEdge : JunctionSequentialIterator → Bool)
  (bucket : JunctionSequentialIterator → Nat)
  (walkOf : JunctionSequentialIterator → Nat → VisitMap → VisitMap)

theorem scanGen_fst_length (inst : List JunctionSequentialIterator) (i0 : Nat)
    (pe : List (List Nat)) (visit : VisitMap) :
    (scanGen hasEdge bucket walkOf inst i0 (pe, visit)).1.length = pe.length := by
  induction inst generalizing i0 pe visit with
  | nil => rfl
  | cons x rest ih =>
    simp only [scanGen]
    rw [ih]
    split
    · exact pushBackAt_length _ _ _
    · rfl

theorem getD_sub_succ (x : JunctionSequentialIterator) (rest : List JunctionSequentialIterator)
    (t i0 : Nat) (h : i0 < t) :
    (x :: rest).getD (t - i0) default = rest.getD (t - (i0 + 1)) default := by
  obtain ⟨d, rfl⟩ : ∃ d, t = i0 + 1 + d := ⟨t - (i0 + 1), by omega⟩
  have h1 : i0 + 1 + d - i0 = d + 1 := by omega
  have h2 : i0 + 1 + d - (i0 + 1) = d := by omega
  rw [h1, h2, List.getD_cons_succ]

theorem mem_scanGen_fst (inst : List JunctionSequentialIterator) (i0 : Nat)
    (pe : List (List Nat)) (visit : VisitMap) (c t : Nat) (hc : c < pe.length) :
    t ∈ (scanGen hasEdge bucket walkOf inst i0 (pe, visit)).1.getD c [] ↔
      t ∈ pe.getD c [] ∨ (i0 ≤ t ∧ t < i0 + inst.length ∧
        hasEdge (inst.getD (t - i0) default) = true ∧
        bucket (inst.getD (t - i0) default) = c) := by
  induction inst generalizing i0 pe visit with
  | nil =>
    simp only [scanGen, List.length_nil, Nat.add_zero]
    constructor
    · exact Or.inl
    · rintro (h | ⟨h1, h2, _⟩)
      · exact h
      · omega
  | cons x rest ih =>
    simp only [scanGen]
    rw [ih]
    swap
    · split
      · rw [pushBackAt_length]; exact hc
      · exact hc
    have key : t ∈ (if hasEdge x = true then pushBackAt pe (bucket x) i0 else pe).getD c [] ↔
        t ∈ pe.getD c [] ∨ (t = i0 ∧ hasEdge x = true ∧ bucket x = c) := by
      split
      · rename_i hx
        rw [getD_pushBackAt]
        split
        · rename_i h
          obtain ⟨rfl, _⟩ := h
          simp [hx]
        · rename_i h
          constructor
          · exact Or.inl
          · rintro (h1 | ⟨_, _, h3⟩)
            · exact h1
            · exact absurd ⟨h3.symm, h3 ▸ hc⟩ h
      · rename_i hx
        simp [hx]
    rw [key]
    simp only [List.length_cons]
    constructor
    · rintro ((h | ⟨rfl, h2, h3⟩) | ⟨h1, h2, h3, h4⟩)
      · exact Or.inl h
      · exact Or.inr ⟨le_refl _, by omega, by simpa using h2, by simpa using h3⟩
      · rw [← getD_sub_succ x rest t i0 (by omega)] at h3 h4
        exact Or.inr ⟨by omega, by omega, h3, h4⟩
    · rintro (h | ⟨h1, h2, h3, h4⟩)
      · exact Or.inl (Or.inl h)
      · by_cases ht : t = i0
        · subst ht
          simp only [Nat.sub_self, List.getD_cons_zero] at h3 h4
          exact Or.inl (Or.inr ⟨rfl, h3, h4⟩)
        · rw [getD_sub_succ x rest t i0 (by omega)] at h3 h4
          exact Or.inr ⟨by omega, by omega, h3, h4⟩

theorem sorted_scanGen_fst (inst : List JunctionSequentialIterator) (i0 : Nat)
    (pe : List (List Nat)) (visit : VisitMap) (c : Nat)
    (hs : ∀ c, (pe.getD c []).Pairwise (· < ·))
    (hb : ∀ c, ∀ t ∈ pe.getD c [], t < i0) :
    ((scanGen hasEdge bucket walkOf inst i0 (pe, visit)).1.getD c []).Pairwise (· < ·) := by
  induction inst generalizing i0 pe visit with
  | nil => exact hs c
  | cons x rest ih =>
    simp only [scanGen]
    apply ih
    · intro c'
      split
      · rw [getD_pushBackAt]
        split
        · rw [List.pairwise_append]
          refine ⟨hs c', List.pairwise_singleton _ _, ?_⟩
          intro a ha b hb'
          simp only [List.mem_singleton] at hb'
          subst hb'
          exact hb c' a ha
        · exact hs c'
      · exact hs c'
    · intro c' t ht
      split at ht
      · rw [getD_pushBackAt] at ht
        split at ht
        · rcases List.mem_append.1 ht with h | h
          · exact Nat.lt_succ_of_lt (hb c' t h)
          · simp only [List.mem_singleton] at h
            omega
        · exact Nat.lt_succ_of_lt (hb c' t ht)
      · exact Nat.lt_succ_of_lt (hb c' t ht)

theorem keysSorted_scanGen (inst : List JunctionSequentialIterator) (i0 : Nat)
    (pe : List (List Nat)) (visit : VisitMap)
    (hw : ∀ x i visit, keysSorted visit → keysSorted (walkOf x i visit))
    (h : keysSorted visit) :
    keysSorted (scanGen hasEdge bucket walkOf inst i0 (pe, visit)).2 := by
  induction inst generalizing i0 pe visit with
  | nil => exact h
  | cons x rest ih =>
    simp only [scanGen]
    exact ih _ _ _ (hw _ _ _ h)

theorem inVisit_scanGen (R : JunctionSequentialIterator → Int → Prop)
    (inst : List JunctionSequentialIterator) (i0 : Nat)
    (pe : List (List Nat)) (visit : VisitMap) (w : Int) (t : Nat)
    (hw : ∀ x i visit w t,
      inVisit (walkOf x i visit) w t ↔ inVisit visit w t ∨ (t = i ∧ R x w)) :
    inVisit (scanGen hasEdge bucket walkOf inst i0 (pe, visit)).2 w t ↔
      inVisit visit w t ∨ (i0 ≤ t ∧ t < i0 + inst.length ∧ R (inst.getD (t - i0) default) w) := by
  induction inst generalizing i0 pe visit with
  | nil =>
    simp only [scanGen, List.length_nil, Nat.add_zero]
    constructor
    · exact Or.inl
    · rintro (h | ⟨h1, h2, _⟩)
      · exact h
      · omega
  | cons x rest ih =>
    simp only [scanGen]
    rw [ih, hw]
    simp only [List.length_cons]
    constructor
    · rintro ((h | ⟨rfl, h2⟩) | ⟨h1, h2, h3⟩)
      · exact Or.inl h
      · exact Or.inr ⟨le_refl _, by omega, by simpa using h2⟩
      · rw [← getD_sub_succ x rest t i0 (by omega)] at h3
        exact Or.inr ⟨by omega, by omega, h3⟩
    · rintro (h | ⟨h1, h2, h3⟩)
      · exact Or.inl (Or.inl h)
      · by_cases ht : t = i0
        · subst ht
          simp only [Nat.sub_self, List.getD_cons_zero] at h3
          exact Or.inl (Or.inr ⟨rfl, h3⟩)
        · rw [getD_sub_succ x rest t i0 (by omega)] at h3
          exact Or.inr ⟨by omega, by omega, h3⟩

end scan

theorem getD_replicate_nil (n j : Nat) : (List.replicate n ([] : List Nat)).getD j [] = [] := by
  by_cases h : j < n
  · rw [List.getD_eq_getElem _ _ (by simpa using h)]
    simp
  · rw [List.getD_eq_default _ _ (by simpa using h)]

theorem getD_emptyParallelEdge (c : Nat) : emptyParallelEdge.getD c [] = [] := by
  unfold emptyParallelEdge
  match c with
  | 0 | 1 | 2 | 3 | 4 => rfl
  | c + 5 => rfl

section scan

variable (hasEdge : JunctionSequentialIterator → Bool)
  (bucket : JunctionSequentialIterator → Nat)
  (walkOf : JunctionSequentialIterator → Nat → VisitMap → VisitMap)

/-- Membership in a character bucket after the first loop. -/
theorem mem_bucket (inst : List JunctionSequentialIterator) (c t : Nat) (hc : c < 5) :
    t ∈ (scanGen hasEdge bucket walkOf inst 0 (emptyParallelEdge, [])).1.getD c [] ↔
      t < inst.length ∧ hasEdge (inst.getD t default) = true ∧
        bucket (inst.getD t default) = c := by
  rw [mem_scanGen_fst hasEdge bucket walkOf inst 0 emptyParallelEdge [] c t hc,
    getD_emptyParallelEdge]
  simp

theorem sorted_bucket (inst : List JunctionSequentialIterator) (c : Nat) :
    ((scanGen hasEdge bucket walkOf inst 0 (emptyParallelEdge, [])).1.getD c []).Pairwise
      (· < ·) := by
  apply sorted_scanGen_fst
  · intro c'; rw [getD_emptyParallelEdge]; exact List.Pairwise.nil
  · intro c' t ht; rw [getD_emptyParallelEdge] at ht; simp at ht

/-- The pairs recorded by the loop over the character buckets. -/
theorem mem_parallelPairs (inst : List JunctionSequentialIterator) (j k : Nat)
    (hb : ∀ x, bucket x < 5) :
    (j, k) ∈ ((scanGen hasEdge bucket walkOf inst 0 (emptyParallelEdge, [])).1).flatMap
        pairsFrom ↔
      j < k ∧ j < inst.length ∧ k < inst.length ∧
        hasEdge (inst.getD j default) = true ∧ hasEdge (inst.getD k default) = true ∧
        bucket (inst.getD j default) = bucket (inst.getD k default) := by
  have hlen := scanGen_fst_length hasEdge bucket walkOf inst 0 emptyParallelEdge []
  have h5 : emptyParallelEdge.length = 5 := rfl
  rw [List.mem_flatMap]
  constructor
  · rintro ⟨b, hbm, hp⟩
    obtain ⟨c, hc, rfl⟩ := List.mem_iff_getElem.1 hbm
    rw [← List.getD_eq_getElem _ [] hc] at hp
    have hc5 : c < 5 := by omega
    have hm := mem_pairsFrom_mem hp
    have hlt := rel_of_mem_pairsFrom (sorted_bucket hasEdge bucket walkOf inst c) hp
    have h1 := (mem_bucket hasEdge bucket walkOf inst c j hc5).1 hm.1
    have h2 := (mem_bucket hasEdge bucket walkOf inst c k hc5).1 hm.2
    exact ⟨hlt, h1.1, h2.1, h1.2.1, h2.2.1, h1.2.2.trans h2.2.2.symm⟩
  · rintro ⟨hlt, hj, hk, hej, hek, hbk⟩
    have hc5 := hb (inst.getD j default)
    have hc : bucket (inst.getD j default) <
        (scanGen hasEdge bucket walkOf inst 0 (emptyParallelEdge, [])).1.length := by omega
    refine ⟨_, List.getElem_mem hc, ?_⟩
    rw [← List.getD_eq_getElem _ [] hc]
    apply mem_pairsFrom_of_lt
    · exact (sorted_bucket hasEdge bucket walkOf inst _).imp (fun h => Nat.le_of_lt h)
    · exact (mem_bucket hasEdge bucket walkOf inst _ j hc5).2 ⟨hj, hej, rfl⟩
    · exact (mem_bucket hasEdge bucket walkOf inst _ k hc5).2 ⟨hk, hek, hbk.symm⟩
    · exact hlt

theorem nodup_parallelPairs (inst : List JunctionSequentialIterator) :
    (((scanGen hasEdge bucket walkOf inst 0 (emptyParallelEdge, [])).1).flatMap
      pairsFrom).Nodup := by
  have hlen := scanGen_fst_length hasEdge bucket walkOf inst 0 emptyParallelEdge []
  have h5 : emptyParallelEdge.length = 5 := rfl
  rw [List.nodup_flatMap]
  constructor
  · intro b hbm
    obtain ⟨c, hc, rfl⟩ := List.mem_iff_getElem.1 hbm
    rw [← List.getD_eq_getElem _ [] hc]
    apply nodup_pairsFrom
    exact (sorted_bucket hasEdge bucket walkOf inst c).imp (fun h => Nat.ne_of_lt h)
  · rw [List.pairwise_iff_getElem]
    intro c1 c2 hc1 hc2 hlt
    rw [← List.getD_eq_getElem _ [] hc1, ← List.getD_eq_getElem _ [] hc2]
    intro p hp1 hp2
    obtain ⟨a, b⟩ := p
    have h1 := (mem_bucket hasEdge bucket walkOf inst c1 a (by omega)).1 (mem_pairsFrom_mem hp1).1
    have h2 := (mem_bucket hasEdge bucket walkOf inst c2 a (by omega)).1 (mem_pairsFrom_mem hp2).1
    omega

/-- Membership in the branch lists of `visit` after the first loop. -/
theorem inVisit_scan (R : JunctionSequentialIterator → Int → Prop)
    (inst : List JunctionSequentialIterator) (w : Int) (t : Nat)
    (hw : ∀ x i visit w t,
      inVisit (walkOf x i visit) w t ↔ inVisit visit w t ∨ (t = i ∧ R x w)) :
    inVisit (scanGen hasEdge bucket walkOf inst 0 (emptyParallelEdge, [])).2 w t ↔
      t < inst.length ∧ R (inst.getD t default) w := by
  rw [inVisit_scanGen hasEdge bucket walkOf R inst 0 emptyParallelEdge [] w t hw]
  simp [inVisit]

/-- The pairs recorded by the loop over the visited vertices. -/
theorem mem_visitedPairs (R : JunctionSequentialIterator → Int → Prop)
    (inst : List JunctionSequentialIterator) (j k : Nat)
    (hs : ∀ x i visit, keysSorted visit → keysSorted (walkOf x i visit))
    (hw : ∀ x i visit w t,
      inVisit (walkOf x i visit) w t ↔ inVisit visit w t ∨ (t = i ∧ R x w)) :
    ((j, k) ∈ ((scanGen hasEdge bucket walkOf inst 0 (emptyParallelEdge, [])).2.flatMap
        fun point => pairsFrom (point.2.insertionSort (· ≤ ·))) ∧ j ≠ k) ↔
      j < k ∧ j < inst.length ∧ k < inst.length ∧
        ∃ w, R (inst.getD j default) w ∧ R (inst.getD k default) w := by
  have hks : keysSorted (scanGen hasEdge bucket walkOf inst 0 (emptyParallelEdge, [])).2 :=
    keysSorted_scanGen hasEdge bucket walkOf inst 0 emptyParallelEdge [] hs
      (by simp [keysSorted])
  rw [List.mem_flatMap]
  constructor
  · rintro ⟨⟨⟨w, ids⟩, hmem, hp⟩, hne⟩
    simp only at hp
    have hm := mem_pairsFrom_mem hp
    rw [List.mem_insertionSort, List.mem_insertionSort] at hm
    have hle : j ≤ k := rel_of_mem_pairsFrom (List.sorted_insertionSort (· ≤ ·) ids) hp
    have h1 := (inVisit_scan hasEdge bucket walkOf R inst w j hw).1 ⟨ids, hmem, hm.1⟩
    have h2 := (inVisit_scan hasEdge bucket walkOf R inst w k hw).1 ⟨ids, hmem, hm.2⟩
    exact ⟨by omega, h1.1, h2.1, w, h1.2, h2.2⟩
  · rintro ⟨hlt, hj, hk, w, hrj, hrk⟩
    obtain ⟨ids, hmem, hjm⟩ := (inVisit_scan hasEdge bucket walkOf R inst w j hw).2 ⟨hj, hrj⟩
    obtain ⟨ids', hmem', hkm⟩ := (inVisit_scan hasEdge bucket walkOf R inst w k hw).2 ⟨hk, hrk⟩
    obtain rfl := keysSorted_unique hks hmem hmem'
    refine ⟨⟨(w, ids), hmem, ?_⟩, by omega⟩
    apply mem_pairsFrom_of_lt (List.sorted_insertionSort (· ≤ ·) ids)
    · rw [List.mem_insertionSort]; exact hjm
    · rw [List.mem_insertionSort]; exact hkm
    · exact hlt

theorem length_bubblesGen (inst : List JunctionSequentialIterator) :
    (bubblesGen hasEdge bucket walkOf inst).length = inst.length := by
  unfold bubblesGen
  simp only
  rw [addVisited_eq, length_foldl_addVisitedPair, addParallel_eq, length_foldl_pushBackAt,
    List.length_replicate]

/-- Row `j` after the loop over the character buckets. -/
theorem getD_addParallel_scan (inst : List JunctionSequentialIterator) (j : Nat)
    (hj : j < inst.length) :
    (addParallel (scanGen hasEdge bucket walkOf inst 0 (emptyParallelEdge, [])).1
        (List.replicate inst.length [])).getD j [] =
      ((((scanGen hasEdge bucket walkOf inst 0 (emptyParallelEdge, [])).1).flatMap
        pairsFrom).filter (fun p => p.1 = j)).map Prod.snd := by
  rw [addParallel_eq, getD_foldl_pushBackAt _ _ _ (by simpa using hj), getD_replicate_nil]
  simp

/-- The content of row `j` of the result of an enumerator. -/
theorem mem_bubblesGen (R : JunctionSequentialIterator → Int → Prop)
    (inst : List JunctionSequentialIterator) (j k : Nat) (hj : j < inst.length)
    (hb : ∀ x, bucket x < 5)
    (hs : ∀ x i visit, keysSorted visit → keysSorted (walkOf x i visit))
    (hw : ∀ x i visit w t,
      inVisit (walkOf x i visit) w t ↔ inVisit visit w t ∨ (t = i ∧ R x w)) :
    k ∈ (bubblesGen hasEdge bucket walkOf inst).getD j [] ↔
      j < k ∧ k < inst.length ∧
        ((hasEdge (inst.getD j default) = true ∧ hasEdge (inst.getD k default) = true ∧
            bucket (inst.getD j default) = bucket (inst.getD k default)) ∨
          ∃ w, R (inst.getD j default) w ∧ R (inst.getD k default) w) := by
  unfold bubblesGen
  simp only
  rw [addVisited_eq, mem_getD_foldl_addVisitedPair _ _ _ _
    (by rw [addParallel_eq, length_foldl_pushBackAt]; simpa using hj),
    getD_addParallel_scan hasEdge bucket walkOf inst j hj,
    mem_visitedPairs hasEdge bucket walkOf R inst j k hs hw]
  have hpar : k ∈ ((((scanGen hasEdge bucket walkOf inst 0 (emptyParallelEdge, [])).1).flatMap
        pairsFrom).filter (fun p => p.1 = j)).map Prod.snd ↔
      (j, k) ∈ ((scanGen hasEdge bucket walkOf inst 0 (emptyParallelEdge, [])).1).flatMap
        pairsFrom := by
    simp only [List.mem_map, List.mem_filter, decide_eq_true_eq]
    constructor
    · rintro ⟨⟨a, b⟩, ⟨hm, rfl⟩, rfl⟩
      exact hm
    · intro hm
      exact ⟨(j, k), ⟨hm, rfl⟩, rfl⟩
  rw [hpar, mem_parallelPairs hasEdge bucket walkOf inst j k hb]
  constructor
  · rintro (⟨h1, h2, h3, h4⟩ | ⟨h1, h2, h3, h4⟩)
    · exact ⟨h1, h3, Or.inl h4⟩
    · exact ⟨h1, h3, Or.inr h4⟩
  · rintro ⟨h1, h2, h3 | h3⟩
    · exact Or.inl ⟨h1, hj, h2, h3⟩
    · exact Or.inr ⟨h1, hj, h2, h3⟩

/-- No row of the result of an enumerator holds an index twice. -/
theorem nodup_bubblesGen (inst : List JunctionSequentialIterator) (j : Nat) :
    ((bubblesGen hasEdge bucket walkOf inst).getD j []).Nodup := by
  by_cases hj : j < inst.length
  · unfold bubblesGen
    simp only
    rw [addVisited_eq]
    apply nodup_getD_foldl_addVisitedPair
    rw [getD_addParallel_scan hasEdge bucket walkOf inst j hj]
    apply List.Nodup.map_on
    · rintro ⟨a, b⟩ ha ⟨c, d⟩ hc hbd
      simp only [List.mem_filter, decide_eq_true_eq] at ha hc
      simp only at hbd
      obtain ⟨_, rfl⟩ := ha
      obtain ⟨_, rfl⟩ := hc
      rw [hbd]
    · exact (nodup_parallelPairs hasEdge bucket walkOf inst).filter _
  · rw [List.getD_eq_default _ _ (by rw [length_bubblesGen]; omega)]
    exact List.nodup_nil

end scan

theorem plus_plus_one (a : JunctionSequentialIterator) (n : Nat) :
    (a.plus n).plus 1 = a.plus (n + 1) := by
  cases hs : a.positiveStrand <;>
    simp [JunctionSequentialIterator.plus, hs] <;> omega

theorem minus_minus_one (a : JunctionSequentialIterator) (n : Nat) :
    (a.minus n).minus 1 = a.minus (n + 1) := by
  cases hs : a.positiveStrand <;>
    simp [JunctionSequentialIterator.minus, hs] <;> omega

theorem iterate_plus (a : JunctionSequentialIterator) (r : Nat) :
    (fun it : JunctionSequentialIterator => it.plus 1)^[r] (a.plus 1) = a.plus (r + 1) := by
  induction r with
  | zero => rfl
  | succ r ih => rw [Function.iterate_succ_apply', ih, plus_plus_one]

theorem iterate_minus (a : JunctionSequentialIterator) (r : Nat) :
    (fun it : JunctionSequentialIterator => it.minus 1)^[r] (a.minus 1) = a.minus (r + 1) := by
  induction r with
  | zero => rfl
  | succ r ih => rw [Function.iterate_succ_apply', ih, minus_minus_one]

/-- A walk that stays valid for `m` steps is shorter than `walkFuel`. -/
theorem steps_lt_walkFuel_plus (s : JunctionStorage) (a : JunctionSequentialIterator) (m : Nat)
    (h1 : (a.plus 1).Valid s = true) (hm : (a.plus (m + 1)).Valid s = true) :
    m < walkFuel s a := by
  unfold walkFuel
  cases hs : a.positiveStrand <;>
    simp [JunctionSequentialIterator.plus, JunctionSequentialIterator.Valid, hs] at h1 hm <;>
    omega

theorem steps_lt_walkFuel_minus (s : JunctionStorage) (a : JunctionSequentialIterator) (m : Nat)
    (h1 : (a.minus 1).Valid s = true) (hm : (a.minus (m + 1)).Valid s = true) :
    m < walkFuel s a := by
  unfold walkFuel
  cases hs : a.positiveStrand <;>
    simp [JunctionSequentialIterator.minus, JunctionSequentialIterator.Valid, hs] at h1 hm <;>
    omega

/-- The forward walk loop of line 526 records exactly the vertices that the bounded forward
walk reaches; the iteration bound is never what stops it. -/
theorem inVisit_walk_forward (s : JunctionStorage) (mb : Int) (a : JunctionSequentialIterator)
    (i : Nat) (visit : VisitMap) (w : Int) (t : Nat) :
    inVisit (walk s (fun it => it.plus 1) mb (a.GetPosition s) i (walkFuel s a) (a.plus 1)
        visit) w t ↔
      inVisit visit w t ∨ (t = i ∧ reachesForward s mb a w) := by
  rw [inVisit_walk]
  apply or_congr_right
  apply and_congr_right
  intro _
  unfold reachesForward
  constructor
  · rintro ⟨m, _, hall, hw⟩
    refine ⟨m + 1, by omega, ?_, by rwa [iterate_plus] at hw⟩
    intro r hr1 hr2
    have := hall (r - 1) (by omega)
    rw [iterate_plus] at this
    rwa [show r - 1 + 1 = r by omega] at this
  · rintro ⟨m, hm1, hall, hw⟩
    obtain ⟨m, rfl⟩ : ∃ m', m = m' + 1 := ⟨m - 1, by omega⟩
    refine ⟨m, ?_, ?_, by rwa [iterate_plus]⟩
    · exact steps_lt_walkFuel_plus s a m (hall 1 (le_refl _) (by omega)).1
        (hall (m + 1) (by omega) (le_refl _)).1
    · intro r hr
      rw [iterate_plus]
      exact hall (r + 1) (by omega) (by omega)

theorem inVisit_walk_backward (s : JunctionStorage) (mb : Int) (a : JunctionSequentialIterator)
    (i : Nat) (visit : VisitMap) (w : Int) (t : Nat) :
    inVisit (walk s (fun it => it.minus 1) mb (a.GetPosition s) i (walkFuel s a) (a.minus 1)
        visit) w t ↔
      inVisit visit w t ∨ (t = i ∧ reachesBackward s mb a w) := by
  rw [inVisit_walk]
  apply or_congr_right
  apply and_congr_right
  intro _
  unfold reachesBackward
  constructor
  · rintro ⟨m, _, hall, hw⟩
    refine ⟨m + 1, by omega, ?_, by rwa [iterate_minus] at hw⟩
    intro r hr1 hr2
    have := hall (r - 1) (by omega)
    rw [iterate_minus] at this
    rwa [show r - 1 + 1 = r by omega] at this
  · rintro ⟨m, hm1, hall, hw⟩
    obtain ⟨m, rfl⟩ : ∃ m', m = m' + 1 := ⟨m - 1, by omega⟩
    refine ⟨m, ?_, ?_, by rwa [iterate_minus]⟩
    · exact steps_lt_walkFuel_minus s a m (hall 1 (le_refl _) (by omega)).1
        (hall (m + 1) (by omega) (le_refl _)).1
    · intro r hr
      rw [iterate_minus]
      exact hall (r + 1) (by omega) (by omega)

theorem MakeUpChar_lt (c : Char) : MakeUpChar c < 5 := by
  unfold MakeUpChar
  split_ifs <;> omega

theorem BubbledBranchesForward_eq (s : JunctionStorage) (mb : Int)
    (inst : List JunctionSequentialIterator) :
    BubbledBranchesForward s mb inst =
      bubblesGen (fun v => (v.plus 1).Valid s) (fun v => MakeUpChar (s.char v))
        (fun v i visit => walk s (fun it => it.plus 1) mb (v.GetPosition s) i (walkFuel s v)
          (v.plus 1) visit) inst := by
  unfold BubbledBranchesForward bubblesGen
  rw [scanForward_eq]

theorem BubbledBranchesBackward_eq (s : JunctionStorage) (mb : Int)
    (inst : List JunctionSequentialIterator) :
    BubbledBranchesBackward s mb inst =
      bubblesGen (fun v => (v.minus 1).Valid s) (fun v => MakeUpChar (s.char (v.minus 1)))
        (fun v i visit => walk s (fun it => it.minus 1) mb (v.GetPosition s) i (walkFuel s v)
          (v.minus 1) visit) inst := by
  unfold BubbledBranchesBackward bubblesGen
  rw [scanBackward_eq]

theorem nodup_BubbledBranchesForward (s : JunctionStorage) (mb : Int)
    (inst : List JunctionSequentialIterator) (j : Nat) :
    ((BubbledBranchesForward s mb inst).getD j []).Nodup := by
  rw [BubbledBranchesForward_eq]
  exact nodup_bubblesGen _ _ _ inst j

theorem nodup_BubbledBranchesBackward (s : JunctionStorage) (mb : Int)
    (inst : List JunctionSequentialIterator) (j : Nat) :
    ((BubbledBranchesBackward s mb inst).getD j []).Nodup := by
  rw [BubbledBranchesBackward_eq]
  exact nodup_bubblesGen _ _ _ inst j

/-- The index pairs of one loop nest of `CheckIfSource`: no pair twice, and a pair is listed
exactly when it passes the test of the loop body. -/
theorem forkPairs_spec (inst : List JunctionSequentialIterator) (X Y : BubbledBranches)
    (hX : ∀ j, (X.getD j []).Nodup) :
    (forkPairs inst X Y).Nodup ∧
      ∀ j k, (j, k) ∈ forkPairs inst X Y ↔
        (k ∈ X.getD j [] ∧ ¬ k ∈ Y.getD j [] ∧
          ((inst.getD j default).positiveStrand = true ∨
            (inst.getD k default).positiveStrand = true)) := by
  unfold forkPairs
  constructor
  · rw [List.nodup_flatMap]
    constructor
    · intro i _
      apply List.Nodup.map (fun a b h => (Prod.mk.inj h).2)
      exact (hX i).filter _
    · apply (List.nodup_range X.length).imp
      intro a b hab p hp1 hp2
      simp only [List.mem_map] at hp1 hp2
      obtain ⟨_, _, rfl⟩ := hp1
      obtain ⟨_, _, h⟩ := hp2
      exact hab (Prod.mk.inj h).1.symm
  · intro j k
    simp only [List.mem_flatMap, List.mem_range, List.mem_map, List.mem_filter, Prod.mk.injEq,
      Bool.and_eq_true, decide_eq_true_eq, Bool.or_eq_true]
    constructor
    · rintro ⟨i, _, k', ⟨h1, h2, h3⟩, rfl, rfl⟩
      exact ⟨h1, h2, h3⟩
    · rintro ⟨h1, h2, h3⟩
      have hj : j < X.length := by
        by_contra hn
        rw [List.getD_eq_default _ _ (by omega)] at h1
        simp at h1
      exact ⟨j, hj, k, ⟨h1, h2, h3⟩, rfl, rfl⟩

/-- Row `j` of the result of `BubbledBranchesForward`, for `j` below the number of
instances. -/
theorem mem_BubbledBranchesForward_getD (s : JunctionStorage) (mb : Int)
    (inst : List JunctionSequentialIterator) (j k : Nat) (hj : j < inst.length) :
    k ∈ (BubbledBranchesForward s mb inst).getD j [] ↔
      j < k ∧ k < inst.length ∧
        ((((inst.getD j default).plus 1).Valid s = true ∧
            ((inst.getD k default).plus 1).Valid s = true ∧
            MakeUpChar (s.char (inst.getD j default)) =
              MakeUpChar (s.char (inst.getD k default))) ∨
          ∃ w, reachesForward s mb (inst.getD j default) w ∧
            reachesForward s mb (inst.getD k default) w) := by
  rw [BubbledBranchesForward_eq]
  exact mem_bubblesGen _ _ _ (reachesForward s mb) inst j k hj
    (fun x => MakeUpChar_lt _)
    (fun x i visit h => keysSorted_walk _ _ _ _ _ _ _ _ h)
    (fun x i visit w t => inVisit_walk_forward s mb x i visit w t)

/-- Row `j` of the result of `BubbledBranchesBackward`, for `j` below the number of
instances. -/
theorem mem_BubbledBranchesBackward_getD (s : JunctionStorage) (mb : Int)
    (inst : List JunctionSequentialIterator) (j k : Nat) (hj : j < inst.length) :
    k ∈ (BubbledBranchesBackward s mb inst).getD j [] ↔
      j < k ∧ k < inst.length ∧
        ((((inst.getD j default).minus 1).Valid s = true ∧
            ((inst.getD k default).minus 1).Valid s = true ∧
            MakeUpChar (s.char ((inst.getD j default).minus 1)) =
              MakeUpChar (s.char ((inst.getD k default).minus 1))) ∨
          ∃ w, reachesBackward s mb (inst.getD j default) w ∧
            reachesBackward s mb (inst.getD k default) w) := by
  rw [BubbledBranchesBackward_eq]
  exact mem_bubblesGen _ _ _ (reachesBackward s mb) inst j k hj
    (fun x => MakeUpChar_lt _)
    (fun x i visit h => keysSorted_walk _ _ _ _ _ _ _ _ h)
    (fun x i visit w t => inVisit_walk_backward s mb x i visit w t)

theorem length_BubbledBranchesForward (s : JunctionStorage) (mb : Int)
    (inst : List JunctionSequentialIterator) :
    (BubbledBranchesForward s mb inst).length = inst.length := by
  rw [BubbledBranchesForward_eq]
  exact length_bubblesGen _ _ _ inst

theorem length_BubbledBranchesBackward (s : JunctionStorage) (mb : Int)
    (inst : List JunctionSequentialIterator) :
    (BubbledBranchesBackward s mb inst).length = inst.length := by
  rw [BubbledBranchesBackward_eq]
  exact length_bubblesGen _ _ _ inst

/-- An index recorded in row `j` by `BubbledBranchesForward` is larger than `j` and below
the number of instances. -/
theorem bounds_of_mem_Forward (s : JunctionStorage) (mb : Int)
    (inst : List JunctionSequentialIterator) (j k : Nat)
    (h : k ∈ (BubbledBranchesForward s mb inst).getD j []) : j < k ∧ k < inst.length := by
  have hj : j < inst.length := by
    by_contra hn
    rw [List.getD_eq_default _ _ (by rw [length_BubbledBranchesForward]; omega)] at h
    simp at h
  have := (mem_BubbledBranchesForward_getD s mb inst j k hj).1 h
  exact ⟨this.1, this.2.1⟩

theorem bounds_of_mem_Backward (s : JunctionStorage) (mb : Int)
    (inst : List JunctionSequentialIterator) (j k : Nat)
    (h : k ∈ (BubbledBranchesBackward s mb inst).getD j []) : j < k ∧ k < inst.length := by
  have hj : j < inst.length := by
    by_contra hn
    rw [List.getD_eq_default _ _ (by rw [length_BubbledBranchesBackward]; omega)] at h
    simp at h
  have := (mem_BubbledBranchesBackward_getD s mb inst j k hj).1 h
  exact ⟨this.1, this.2.1⟩

/-- The key that `Fork::operator<` compares lexicographically: both strands, both chromosome
ids, and the position of `branch[0]`, negated on the negative strand. -/
theorem Fork.lt_iff (s : JunctionStorage) (a f : Fork) :
    Fork.lt s a f = true ↔
      (a.branch0.positiveStrand = false ∧ f.branch0.positiveStrand = true) ∨
      (a.branch0.positiveStrand = f.branch0.positiveStrand ∧
        ((a.branch1.positiveStrand = false ∧ f.branch1.positiveStrand = true) ∨
        (a.branch1.positiveStrand = f.branch1.positiveStrand ∧
          (a.branch0.chrId < f.branch0.chrId ∨
          (a.branch0.chrId = f.branch0.chrId ∧
            (a.branch1.chrId < f.branch1.chrId ∨
            (a.branch1.chrId = f.branch1.chrId ∧
              ((a.branch0.positiveStrand = true ∧ s.position a.branch0 < s.position f.branch0) ∨
               (a.branch0.positiveStrand = false ∧
                s.position f.branch0 < s.position a.branch0))))))))) := by
  unfold Fork.lt JunctionSequentialIterator.GetPosition
  cases a.branch0.positiveStrand <;> cases f.branch0.positiveStrand <;>
    cases a.branch1.positiveStrand <;> cases f.branch1.positiveStrand <;>
    simp <;> split_ifs <;> simp_all

theorem Fork.lt_irrefl (s : JunctionStorage) (a : Fork) : Fork.lt s a a = false := by
  rw [← Bool.not_eq_true, Fork.lt_iff]
  simp

theorem Fork.le_total (s : JunctionStorage) (a b : Fork) :
    Fork.lt s b a = false ∨ Fork.lt s a b = false := by
  rw [← Bool.not_eq_true, ← Bool.not_eq_true, Fork.lt_iff, Fork.lt_iff]
  cases a.branch0.positiveStrand <;> cases b.branch0.positiveStrand <;>
    cases a.branch1.positiveStrand <;> cases b.branch1.positiveStrand <;>
    simp <;> omega

theorem Fork.le_trans (s : JunctionStorage) (a b c : Fork)
    (h1 : Fork.lt s b a = false) (h2 : Fork.lt s c b = false) : Fork.lt s c a = false := by
  rw [← Bool.not_eq_true, Fork.lt_iff] at h1 h2 ⊢
  revert h1 h2
  cases a.branch0.positiveStrand <;> cases b.branch0.positiveStrand <;>
    cases c.branch0.positiveStrand <;>
    cases a.branch1.positiveStrand <;> cases b.branch1.positiveStrand <;>
    cases c.branch1.positiveStrand <;>
    simp <;> omega

theorem sortForks_perm (s : JunctionStorage) (sink : List Fork) :
    (sortForks s sink).Perm sink :=
  List.perm_insertionSort _ _

theorem mem_sortForks (s : JunctionStorage) (sink : List Fork) (v : Fork) :
    v ∈ sortForks s sink ↔ v ∈ sink :=
  (sortForks_perm s sink).mem_iff

theorem sortForks_sorted (s : JunctionStorage) (sink : List Fork) :
    (sortForks s sink).Pairwise (fun a b => Fork.lt s b a = false) := by
  haveI : IsTotal Fork (fun a b => Fork.lt s b a = false) := ⟨fun a b => Fork.le_total s a b⟩
  haveI : IsTrans Fork (fun a b => Fork.lt s b a = false) :=
    ⟨fun a b c h1 h2 => Fork.le_trans s a b c h1 h2⟩
  exact List.sorted_insertionSort _ _

/-- In a vector sorted by `Fork::operator<`, the elements less than `u` come first. -/
theorem partitioned_of_sorted (s : JunctionStorage) (sink : List Fork) (u : Fork)
    (hs : sink.Pairwise (fun a b => Fork.lt s b a = false)) (i j : Nat) (hij : i ≤ j)
    (hj : j < sink.length) (h : Fork.lt s (sink.getD j default) u = true) :
    Fork.lt s (sink.getD i default) u = true := by
  rcases Nat.eq_or_lt_of_le hij with rfl | hlt
  · exact h
  · have hi : i < sink.length := by omega
    rw [List.getD_eq_getElem _ _ hj] at h
    rw [List.getD_eq_getElem _ _ hi]
    have hle := List.pairwise_iff_getElem.1 hs i j hi hj hlt
    by_contra hn
    rw [Bool.not_eq_true] at hn
    have := Fork.le_trans s u sink[i] sink[j] hn hle
    rw [this] at h
    exact Bool.false_ne_true h

/-- The loop of `std::lower_bound` on a sorted vector: the result lies in the range, the
elements of the range before it are less than `u` and those from it on are not. -/
theorem lowerBoundLoop_spec (s : JunctionStorage) (sink : List Fork) (u : Fork)
    (hs : sink.Pairwise (fun a b => Fork.lt s b a = false)) (fuel first count : Nat)
    (hf : count ≤ fuel) (hlen : first + count ≤ sink.length) :
    first ≤ lowerBoundLoop s sink u fuel first count ∧
      lowerBoundLoop s sink u fuel first count ≤ first + count ∧
      (∀ i, first ≤ i → i < lowerBoundLoop s sink u fuel first count →
        Fork.lt s (sink.getD i default) u = true) ∧
      (∀ i, lowerBoundLoop s sink u fuel first count ≤ i → i < first + count →
        Fork.lt s (sink.getD i default) u = false) := by
  induction fuel generalizing first count with
  | zero =>
    obtain rfl : count = 0 := by omega
    simp only [lowerBoundLoop]
    exact ⟨le_refl _, by omega, fun i h1 h2 => by omega, fun i h1 h2 => by omega⟩
  | succ fuel ih =>
    simp only [lowerBoundLoop]
    split
    · rename_i h0
      subst h0
      exact ⟨le_refl _, by omega, fun i h1 h2 => by omega, fun i h1 h2 => by omega⟩
    · rename_i h0
      have hstep : count / 2 < count := Nat.div_lt_self (by omega) (by omega)
      split
      · rename_i hlt
        obtain ⟨h1, h2, h3, h4⟩ := ih (first + count / 2 + 1) (count - (count / 2 + 1))
          (by omega) (by omega)
        refine ⟨by omega, by omega, ?_, ?_⟩
        · intro i hi1 hi2
          by_cases hi : i ≤ first + count / 2
          · exact partitioned_of_sorted s sink u hs i (first + count / 2) hi (by omega) hlt
          · exact h3 i (by omega) hi2
        · intro i hi1 hi2
          exact h4 i hi1 (by omega)
      · rename_i hlt
        rw [Bool.not_eq_true] at hlt
        obtain ⟨h1, h2, h3, h4⟩ := ih first (count / 2) (by omega) (by omega)
        refine ⟨h1, by omega, h3, ?_⟩
        intro i hi1 hi2
        by_cases hi : i < first + count / 2
        · exact h4 i hi1 hi
        · by_contra hn
          rw [Bool.not_eq_false] at hn
          have := partitioned_of_sorted s sink u hs (first + count / 2) i (by omega)
            (by omega) hn
          rw [this] at hlt
          exact Bool.noConfusion hlt

theorem lowerBound_spec (s : JunctionStorage) (sink : List Fork) (u : Fork)
    (hs : sink.Pairwise (fun a b => Fork.lt s b a = false)) :
    lowerBound s sink u ≤ sink.length ∧
      (∀ i, i < lowerBound s sink u → Fork.lt s (sink.getD i default) u = true) ∧
      (∀ i, lowerBound s sink u ≤ i → i < sink.length →
        Fork.lt s (sink.getD i default) u = false) := by
  obtain ⟨_, h2, h3, h4⟩ := lowerBoundLoop_spec s sink u hs sink.length 0 sink.length
    (le_refl _) (by omega)
  refine ⟨by simpa [lowerBound] using h2, fun i hi => h3 i (Nat.zero_le _) hi, ?_⟩
  intro i hi1 hi2
  exact h4 i hi1 (by omega)

/-- The sink paired with `u` over a sorted vector that holds an element not less than `u`:
it is the first such element. -/
theorem pairedSink_sorted_some (s : JunctionStorage) (sink : List Fork) (u : Fork)
    (hs : sink.Pairwise (fun a b => Fork.lt s b a = false))
    (h : ∃ w ∈ sink, Fork.lt s w u = false) :
    ∃ v, pairedSink s sink u = some v ∧ v ∈ sink ∧ Fork.lt s v u = false ∧
      (∀ w ∈ sink, Fork.lt s w u = false → Fork.lt s w v = false) ∧
      lowerBound s sink u < sink.length ∧
      ∀ i, i < lowerBound s sink u → Fork.lt s (sink.getD i default) u = true := by
  obtain ⟨hle, hbefore, hafter⟩ := lowerBound_spec s sink u hs
  have hlt : lowerBound s sink u < sink.length := by
    obtain ⟨w, hw, hwu⟩ := h
    obtain ⟨n, hn, rfl⟩ := List.mem_iff_getElem.1 hw
    by_contra hc
    have := hbefore n (by omega)
    rw [List.getD_eq_getElem _ _ hn, hwu] at this
    exact Bool.false_ne_true this
  refine ⟨sink[lowerBound s sink u], ?_, List.getElem_mem _, ?_, ?_, hlt, hbefore⟩
  · unfold pairedSink
    rw [List.get?_eq_getElem?, List.getElem?_eq_getElem hlt]
  · have := hafter _ (le_refl _) hlt
    rwa [List.getD_eq_getElem _ _ hlt] at this
  · intro w hw hwu
    obtain ⟨n, hn, rfl⟩ := List.mem_iff_getElem.1 hw
    have hn' : lowerBound s sink u ≤ n := by
      by_contra hc
      have := hbefore n (by omega)
      rw [List.getD_eq_getElem _ _ hn, hwu] at this
      exact Bool.false_ne_true this
    rcases Nat.eq_or_lt_of_le hn' with heq | hlt'
    · simp only [← heq]
      exact Fork.lt_irrefl s _
    · exact List.pairwise_iff_getElem.1 hs _ n hlt hn hlt'

/-- Over a sorted vector in which every element is less than `u`, `std::lower_bound`
returns the end of the vector. -/
theorem pairedSink_sorted_none (s : JunctionStorage) (sink : List Fork) (u : Fork)
    (hs : sink.Pairwise (fun a b => Fork.lt s b a = false))
    (h : ∀ w ∈ sink, Fork.lt s w u = true) : pairedSink s sink u = none := by
  obtain ⟨hle, hbefore, hafter⟩ := lowerBound_spec s sink u hs
  have : lowerBound s sink u = sink.length := by
    by_contra hc
    have hlt : lowerBound s sink u < sink.length := by omega
    have h1 := hafter _ (le_refl _) hlt
    rw [List.getD_eq_getElem _ _ hlt, h _ (List.getElem_mem _)] at h1
    exact Bool.noConfusion h1
  unfold pairedSink
  rw [this, List.get?_eq_getElem?]
  exact List.getElem?_eq_none (le_refl _)

theorem chrCheckLoop_eq (u v : Fork) (finder : BlocksFinder) :
    chrCheckLoop u v finder = finder := by
  simp [chrCheckLoop]

theorem pairBody_of_ge (s : JunctionStorage) (finder : BlocksFinder) (u v : Fork)
    (h : ChainLength s u v ≥ finder.minBlockSize_) :
    pairBody s finder u v =
      { finder with
        blocksFound_ := finder.blocksFound_ + 1
        blocksInstance_ := finder.blocksInstance_ ++
          [emitBranch s finder.k_ (finder.blocksFound_ + 1) u v 0,
            emitBranch s finder.k_ (finder.blocksFound_ + 1) u v 1] } := by
  simp only [pairBody, chrCheckLoop_eq]
  rw [if_pos h]

theorem pairBody_of_lt (s : JunctionStorage) (finder : BlocksFinder) (u v : Fork)
    (h : ¬ ChainLength s u v ≥ finder.minBlockSize_) :
    pairBody s finder u v = finder := by
  simp only [pairBody, chrCheckLoop_eq]
  rw [if_neg h]

theorem pairLoop_none (s : JunctionStorage) (source : List Fork) (finder : BlocksFinder)
    (h : ∃ u ∈ source, pairedSink s finder.sink_ u = none) :
    pairLoop s source finder = none := by
  induction source generalizing finder with
  | nil => simp at h
  | cons u rest ih =>
    simp only [pairLoop, pairStep]
    cases hv : pairedSink s finder.sink_ u with
    | none => rfl
    | some v =>
      simp only
      apply ih
      obtain ⟨w, hw, hwn⟩ := h
      rcases List.mem_cons.1 hw with rfl | hw'
      · rw [hv] at hwn; exact Option.noConfusion hwn
      · refine ⟨w, hw', ?_⟩
        by_cases hc : ChainLength s u v ≥ finder.minBlockSize_
        · rw [pairBody_of_ge s finder u v hc]; exact hwn
        · rw [pairBody_of_lt s finder u v hc]; exact hwn

/-- The loop of `FindBlocksPwise` when every source has a paired sink: the counter advances
by the number of emitting pairs and their block instances are pushed in order. -/
theorem pairLoop_eq (s : JunctionStorage) (source : List Fork) (finder : BlocksFinder)
    (h : ∀ u ∈ source, ∃ v, pairedSink s finder.sink_ u = some v) :
    pairLoop s source finder =
      some { finder with
        blocksFound_ := finder.blocksFound_ +
          (emittingPairs s finder.sink_ finder.minBlockSize_ source).length
        blocksInstance_ := finder.blocksInstance_ ++
          emitAll s finder.k_ finder.blocksFound_
            (emittingPairs s finder.sink_ finder.minBlockSize_ source) } := by
  induction source generalizing finder with
  | nil => simp [pairLoop, emittingPairs, emitAll]
  | cons u rest ih =>
    obtain ⟨v, hv⟩ := h u (List.mem_cons_self _ _)
    have hrest : ∀ w ∈ rest, ∃ v, pairedSink s finder.sink_ w = some v :=
      fun w hw => h w (List.mem_cons_of_mem _ hw)
    simp only [pairLoop, pairStep, hv]
    by_cases hc : ChainLength s u v ≥ finder.minBlockSize_
    · rw [pairBody_of_ge s finder u v hc, ih]
      swap
      · exact hrest
      simp only [emittingPairs, List.filterMap_cons, hv, if_pos hc, emitAll, List.length_cons,
        List.append_assoc, List.cons_append, List.nil_append, Nat.cast_add, Nat.cast_one]
      congr 2
      omega
    · rw [pairBody_of_lt s finder u v hc, ih _ hrest]
      simp only [emittingPairs, List.filterMap_cons, hv, if_neg hc]

theorem mem_emittingPairs (s : JunctionStorage) (sink : List Fork) (minBlockSize : Int)
    (source : List Fork) (u v : Fork) :
    (u, v) ∈ emittingPairs s sink minBlockSize source ↔
      u ∈ source ∧ pairedSink s sink u = some v ∧ ChainLength s u v ≥ minBlockSize := by
  unfold emittingPairs
  rw [List.mem_filterMap]
  constructor
  · rintro ⟨a, ha, h⟩
    cases hp : pairedSink s sink a with
    | none => rw [hp] at h; exact Option.noConfusion h
    | some w =>
      rw [hp] at h
      simp only at h
      split at h
      · rename_i hc
        obtain ⟨rfl, rfl⟩ := Prod.mk.inj (Option.some.inj h)
        exact ⟨ha, hp, hc⟩
      · exact Option.noConfusion h
  · rintro ⟨hu, hp, hc⟩
    exact ⟨u, hu, by rw [hp]; simp only; rw [if_pos hc]⟩

theorem length_emitAll (s : JunctionStorage) (k : Nat) (b : Int) (pairs : List (Fork × Fork)) :
    (emitAll s k b pairs).length = 2 * pairs.length := by
  induction pairs generalizing b with
  | nil => rfl
  | cons p rest ih =>
    obtain ⟨u, v⟩ := p
    simp only [emitAll, List.length_cons, ih]
    omega

/-- The id of an emitted instance is the counter, or its negation, narrowed to `int`. -/
theorem emitBranch_id (s : JunctionStorage) (k : Nat) (b : Int) (u v : Fork) (l : Nat) :
    (emitBranch s k b u v l).id_ = toInt32 b ∨ (emitBranch s k b u v l).id_ = toInt32 (-b) := by
  unfold emitBranch BlockInstance.new
  simp only
  split
  · exact Or.inl rfl
  · exact Or.inr rfl

/-- From the counter `2^31` on the narrowing changes the id: at `2^31` both branches get
the id `-2^31`, at `2^32` the id `0`. -/
theorem emitBranch_id_wraps (s : JunctionStorage) (k : Nat) (u v : Fork) (l : Nat) :
    (emitBranch s k (2 ^ 31) u v l).id_ = -2 ^ 31 ∧ (emitBranch s k (2 ^ 32) u v l).id_ = 0 := by
  constructor
  · rcases emitBranch_id s k (2 ^ 31) u v l with h | h <;> rw [h] <;> decide
  · rcases emitBranch_id s k (2 ^ 32) u v l with h | h <;> rw [h] <;> decide

/-- Below `2^31` the narrowing keeps the counter and its negation. -/
theorem emitBranch_id_of_lt (s : JunctionStorage) (k : Nat) (b : Int) (u v : Fork) (l : Nat)
    (h0 : 0 ≤ b) (hb : b < 2 ^ 31) :
    (emitBranch s k b u v l).id_ = b ∨ (emitBranch s k b u v l).id_ = -b := by
  rcases emitBranch_id s k b u v l with h | h
  · rw [toInt32_of_range b (by omega) hb] at h
    exact Or.inl h
  · rw [toInt32_of_range (-b) (by omega) (by omega)] at h
    exact Or.inr h

theorem emitBranch_natAbs (s : JunctionStorage) (k : Nat) (b : Int) (u v : Fork) (l : Nat)
    (h0 : 0 ≤ b) (hb : b < 2 ^ 31) :
    (emitBranch s k b u v l).id_.natAbs = b.natAbs := by
  rcases emitBranch_id_of_lt s k b u v l h0 hb with h | h <;> rw [h]
  exact Int.natAbs_neg b

/-- The instances at positions `2 i` and `2 i + 1` of `emitAll` come from pair `i` and carry
the block id `blocksFound + i + 1`. -/
theorem get?_emitAll (s : JunctionStorage) (k : Nat) (b : Int) (pairs : List (Fork × Fork))
    (i : Nat) (hi : i < pairs.length) :
    (emitAll s k b pairs).get? (2 * i) =
        some (emitBranch s k (b + i + 1) (pairs.getD i default).1 (pairs.getD i default).2 0) ∧
      (emitAll s k b pairs).get? (2 * i + 1) =
        some (emitBranch s k (b + i + 1) (pairs.getD i default).1 (pairs.getD i default).2 1) := by
  induction pairs generalizing b i with
  | nil => simp at hi
  | cons p rest ih =>
    obtain ⟨u, v⟩ := p
    cases i with
    | zero => simp [emitAll]
    | succ i =>
      have h := ih (b + 1) i (by simpa using hi)
      have e1 : 2 * (i + 1) = 2 * i + 1 + 1 := by omega
      have e2 : (b + 1 + (i : Int) + 1) = b + ((i + 1 : Nat) : Int) + 1 := by
        push_cast; ring
      simp only [emitAll, e1, List.get?_cons_succ, List.getD_cons_succ]
      rw [← e2]
      exact h

theorem map_natAbs_emitAll (s : JunctionStorage) (k : Nat) (b : Nat)
    (pairs : List (Fork × Fork)) (h : b + pairs.length < 2 ^ 31) :
    (emitAll s k b pairs).map (fun x => x.id_.natAbs) =
      (List.range pairs.length).flatMap (fun i => [b + i + 1, b + i + 1]) := by
  induction pairs generalizing b with
  | nil => rfl
  | cons p rest ih =>
    obtain ⟨u, v⟩ := p
    have hb : ((b : Int) + 1) = ((b + 1 : Nat) : Int) := by push_cast; ring
    rw [List.length_cons] at h
    have h0 : (0 : Int) ≤ (b : Int) + 1 := by omega
    have h2 : (b : Int) + 1 < 2 ^ 31 := by omega
    simp only [emitAll, List.map_cons, emitBranch_natAbs s k _ u v _ h0 h2, List.length_cons]
    have h1 : ((b : Int) + 1).natAbs = b + 0 + 1 := by omega
    rw [h1, hb, ih (b + 1) (by omega), List.range_succ_eq_map, List.flatMap_cons,
      List.flatMap_map]
    simp only [List.cons_append, List.nil_append, List.cons.injEq, true_and]
    congr 1
    funext i
    simp only [Function.comp, Nat.succ_eq_add_one, List.cons.injEq, and_true]
    omega

/-- The emitting pairs are at most as many as the sources. -/
theorem length_emittingPairs_le (s : JunctionStorage) (sink : List Fork) (m : Int)
    (source : List Fork) : (emittingPairs s sink m source).length ≤ source.length := by
  unfold emittingPairs
  exact List.length_filterMap_le _ _

/-- `FindBlocksPwise` returns exactly when every source has a paired sink in the sorted
sink vector, and then its result is given by the emitting pairs. -/
theorem FindBlocksPwise_eq_some (s : JunctionStorage) (finder finder' : BlocksFinder)
    (h : FindBlocksPwise s finder = some finder') :
    (∀ u ∈ finder.source_, ∃ v, pairedSink s (sortForks s finder.sink_) u = some v) ∧
      finder' =
        { finder with
          sink_ := sortForks s finder.sink_
          blocksFound_ := finder.blocksFound_ +
            (emittingPairs s (sortForks s finder.sink_) finder.minBlockSize_
              finder.source_).length
          blocksInstance_ := finder.blocksInstance_ ++
            emitAll s finder.k_ finder.blocksFound_
              (emittingPairs s (sortForks s finder.sink_) finder.minBlockSize_
                finder.source_) } := by
  unfold FindBlocksPwise at h
  simp only at h
  have hall : ∀ u ∈ finder.source_,
      ∃ v, pairedSink s (sortForks s finder.sink_) u = some v := by
    intro u hu
    cases hp : pairedSink s (sortForks s finder.sink_) u with
    | some v => exact ⟨v, rfl⟩
    | none =>
      rw [pairLoop_none s finder.source_ _ ⟨u, hu, hp⟩] at h
      exact Option.noConfusion h
  rw [pairLoop_eq s finder.source_ _ hall] at h
  exact ⟨hall, (Option.some.inj h).symm⟩

theorem foldl_CheckIfSource_fields (s : JunctionStorage) (vs : List Int)
    (finder : BlocksFinder) :
    (vs.foldl (CheckIfSource s) finder).k_ = finder.k_ ∧
      (vs.foldl (CheckIfSource s) finder).blocksFound_ = finder.blocksFound_ ∧
      (vs.foldl (CheckIfSource s) finder).blocksInstance_ = finder.blocksInstance_ ∧
      (vs.foldl (CheckIfSource s) finder).minBlockSize_ = finder.minBlockSize_ := by
  induction vs generalizing finder with
  | nil => exact ⟨rfl, rfl, rfl, rfl⟩
  | cons v vs ih =>
    rw [List.foldl_cons]
    obtain ⟨h1, h2, h3, h4⟩ := ih (CheckIfSource s finder v)
    exact ⟨h1, h2, h3, h4⟩

theorem mem_of_pairedSink (s : JunctionStorage) (sink : List Fork) (u v : Fork)
    (h : pairedSink s sink u = some v) : v ∈ sink := by
  unfold pairedSink at h
  exact List.get?_mem h

/-- The block instances of a run of `FindBlocksPwise` that starts with the counter at 0 and
an empty output list, and ends with the counter below `2^31`. -/
theorem FindBlocksPwise_ids (s : JunctionStorage) (finder finder' : BlocksFinder)
    (h0 : finder.blocksFound_ = 0) (hi : finder.blocksInstance_ = [])
    (h : FindBlocksPwise s finder = some finder') (hn : finder'.blocksFound_ < 2 ^ 31) :
    ∃ n : Nat, finder'.blocksFound_ = n ∧ finder'.blocksInstance_.length = 2 * n ∧
      finder'.blocksInstance_.map (fun x => x.id_.natAbs) =
        (List.range n).flatMap (fun i => [i + 1, i + 1]) ∧
      ∀ i, i < n → ∃ u v, u ∈ finder'.source_ ∧ v ∈ finder'.sink_ ∧
        pairedSink s finder'.sink_ u = some v ∧
        finder'.blocksInstance_.get? (2 * i) = some (emitBranch s finder.k_ (i + 1) u v 0) ∧
        finder'.blocksInstance_.get? (2 * i + 1) =
          some (emitBranch s finder.k_ (i + 1) u v 1) := by
  obtain ⟨_, rfl⟩ := FindBlocksPwise_eq_some s finder finder' h
  simp only [h0, hi, zero_add, List.nil_append] at hn ⊢
  refine ⟨_, rfl, length_emitAll _ _ _ _, ?_, ?_⟩
  · have := map_natAbs_emitAll s finder.k_ 0
      (emittingPairs s (sortForks s finder.sink_) finder.minBlockSize_ finder.source_)
      (by omega)
    simpa using this
  · intro i hi'
    have hg := get?_emitAll s finder.k_ 0
      (emittingPairs s (sortForks s finder.sink_) finder.minBlockSize_ finder.source_) i hi'
    rw [zero_add] at hg
    have hmem : (emittingPairs s (sortForks s finder.sink_) finder.minBlockSize_
        finder.source_).getD i default ∈
        emittingPairs s (sortForks s finder.sink_) finder.minBlockSize_ finder.source_ := by
      rw [List.getD_eq_getElem _ _ hi']
      exact List.getElem_mem _
    obtain ⟨hu, hp, _⟩ := (mem_emittingPairs s _ _ _ _ _).1 hmem
    exact ⟨_, _, hu, mem_of_pairedSink s _ _ _ hp, hp, hg.1, hg.2⟩

theorem FindBlocks_eq (s : JunctionStorage) (finder : BlocksFinder) (a b c : Int) :
    FindBlocks s finder a b c = FindBlocksPwise s (enumeration s finder a b c) := rfl

/-- A fork appended by a loop nest of `CheckIfSource` is built by the constructor from two
instances of which one is on the positive strand. -/
theorem mem_forksOf (inst : List JunctionSequentialIterator) (X Y : BubbledBranches)
    (f : Fork) (h : f ∈ forksOf inst X Y) :
    ∃ a b, f = Fork.new a b ∧ (a.positiveStrand = true ∨ b.positiveStrand = true) := by
  unfold forksOf forkPairs at h
  simp only [List.mem_map, List.mem_flatMap, List.mem_range, List.mem_filter,
    Bool.and_eq_true, decide_eq_true_eq, Bool.or_eq_true] at h
  obtain ⟨p, ⟨i, _, k, ⟨_, _, hs⟩, rfl⟩, rfl⟩ := h
  exact ⟨_, _, rfl, hs⟩

/-- A property of the stored forks that the loop nests of `CheckIfSource` keep. -/
theorem stored_forall (P : Fork → Prop) (s : JunctionStorage) (vs : List Int)
    (finder : BlocksFinder)
    (h0 : ∀ f, f ∈ finder.source_ ∨ f ∈ finder.sink_ → P f)
    (hP : ∀ a b : JunctionSequentialIterator,
      a.positiveStrand = true ∨ b.positiveStrand = true → P (Fork.new a b)) :
    ∀ f, f ∈ (vs.foldl (CheckIfSource s) finder).source_ ∨
      f ∈ (vs.foldl (CheckIfSource s) finder).sink_ → P f := by
  induction vs generalizing finder with
  | nil => exact h0
  | cons v vs ih =>
    rw [List.foldl_cons]
    apply ih
    intro f hf
    simp only [CheckIfSource, List.mem_append] at hf
    rcases hf with (hf | hf) | (hf | hf)
    · exact h0 f (Or.inl hf)
    · obtain ⟨a, b, rfl, hs⟩ := mem_forksOf _ _ _ f hf
      exact hP a b hs
    · exact h0 f (Or.inr hf)
    · obtain ⟨a, b, rfl, hs⟩ := mem_forksOf _ _ _ f hf
      exact hP a b hs

theorem Fork.new_eq_newWith (a b : JunctionSequentialIterator) :
    Fork.new a b = Fork.newWith JunctionSequentialIterator.lt a b := rfl

/-- The sink that `std::lower_bound` returns over a sorted vector is not less than `u`. -/
theorem not_lt_of_pairedSink (s : JunctionStorage) (sink : List Fork) (u v : Fork)
    (hs : sink.Pairwise (fun a b => Fork.lt s b a = false))
    (h : pairedSink s sink u = some v) : Fork.lt s v u = false := by
  obtain ⟨_, _, hafter⟩ := lowerBound_spec s sink u hs
  unfold pairedSink at h
  obtain ⟨hlt, hget⟩ := List.get?_eq_some.1 h
  have := hafter _ (le_refl _) hlt
  rw [List.getD_eq_getElem _ _ hlt] at this
  rw [← hget]
  exact this

/-- Every source has a paired sink over the sorted sink vector when some sink is not less
than it. -/
theorem pairedSink_some_of_cover (s : JunctionStorage) (sink : List Fork) (u : Fork)
    (h : ∃ w ∈ sink, Fork.lt s w u = false) :
    ∃ v, pairedSink s (sortForks s sink) u = some v := by
  obtain ⟨w, hw, hwu⟩ := h
  obtain ⟨v, hv, _⟩ := pairedSink_sorted_some s (sortForks s sink) u (sortForks_sorted s sink)
    ⟨w, (mem_sortForks s sink w).2 hw, hwu⟩
  exact ⟨v, hv⟩

theorem FindBlocksPwise_eq_of_paired (s : JunctionStorage) (finder : BlocksFinder)
    (h : ∀ u ∈ finder.source_, ∃ v, pairedSink s (sortForks s finder.sink_) u = some v) :
    FindBlocksPwise s finder =
      some { finder with
        sink_ := sortForks s finder.sink_
        blocksFound_ := finder.blocksFound_ +
          (emittingPairs s (sortForks s finder.sink_) finder.minBlockSize_
            finder.source_).length
        blocksInstance_ := finder.blocksInstance_ ++
          emitAll s finder.k_ finder.blocksFound_
            (emittingPairs s (sortForks s finder.sink_) finder.minBlockSize_
              finder.source_) } := by
  unfold FindBlocksPwise
  simp only
  rw [pairLoop_eq s finder.source_ _ h]

theorem ChainLength_le (s : JunctionStorage) (u v : Fork) (l : Nat) :
    ChainLength s u v ≤
      (((s.position (u.branch l) : Int) - s.position (v.branch l)).natAbs : Int) := by
  unfold ChainLength JunctionSequentialIterator.GetPosition Fork.branch
  by_cases hl : l = 0
  · simp only [hl, if_true]
    exact min_le_left _ _
  · simp only [hl, if_false]
    exact min_le_right _ _

/-- The tuple of an emitted instance does not depend on the block id as long as the counter
is positive and below `2^31`. -/
theorem tuple_emitBranch (s : JunctionStorage) (k : Nat) (c : Int) (u v : Fork) (l : Nat)
    (hc : 0 < c) (hc2 : c < 2 ^ 31) :
    (emitBranch s k c u v l).tuple = (emitBranch s k 1 u v l).tuple := by
  have e1 : toInt32 c = c := toInt32_of_range c (by omega) hc2
  have e2 : toInt32 (-c) = -c := toInt32_of_range (-c) (by omega) (by omega)
  have e3 : toInt32 1 = 1 := by decide
  have e4 : toInt32 (-1) = -1 := by decide
  unfold emitBranch BlockInstance.new BlockInstance.tuple
  simp only
  split
  · simp only [e1, e3, Prod.mk.injEq, true_and, decide_eq_decide]
    omega
  · simp only [e2, e4, Prod.mk.injEq, true_and, decide_eq_decide]
    omega

theorem map_tuple_emitAll (s : JunctionStorage) (k : Nat) (b : Int) (hb : 0 ≤ b)
    (pairs : List (Fork × Fork)) (hlt : b + pairs.length < 2 ^ 31) :
    (emitAll s k b pairs).map BlockInstance.tuple =
      pairs.flatMap (fun p =>
        [(emitBranch s k 1 p.1 p.2 0).tuple, (emitBranch s k 1 p.1 p.2 1).tuple]) := by
  induction pairs generalizing b with
  | nil => rfl
  | cons p rest ih =>
    obtain ⟨u, v⟩ := p
    rw [List.length_cons] at hlt
    push_cast at hlt
    simp only [emitAll, List.map_cons, List.flatMap_cons, List.cons_append, List.nil_append]
    rw [tuple_emitBranch s k (b + 1) u v 0 (by omega) (by omega),
      tuple_emitBranch s k (b + 1) u v 1 (by omega) (by omega),
      ih (b + 1) (by omega) (by omega)]

theorem pairUp_emitAll (s : JunctionStorage) (k : Nat) (b : Int) (hb : 0 ≤ b)
    (pairs : List (Fork × Fork)) (hlt : b + pairs.length < 2 ^ 31) :
    pairUp (emitAll s k b pairs) =
      pairs.map (fun p =>
        ((emitBranch s k 1 p.1 p.2 0).tuple, (emitBranch s k 1 p.1 p.2 1).tuple)) := by
  induction pairs generalizing b with
  | nil => rfl
  | cons p rest ih =>
    obtain ⟨u, v⟩ := p
    rw [List.length_cons] at hlt
    push_cast at hlt
    simp only [emitAll, pairUp, List.map_cons]
    rw [tuple_emitBranch s k (b + 1) u v 0 (by omega) (by omega),
      tuple_emitBranch s k (b + 1) u v 1 (by omega) (by omega),
      ih (b + 1) (by omega) (by omega)]

theorem emittingPairs_perm (s : JunctionStorage) (sink : List Fork) (m : Int)
    (source source' : List Fork) (h : source'.Perm source) :
    (emittingPairs s sink m source').Perm (emittingPairs s sink m source) := by
  unfold emittingPairs
  exact h.filterMap _

theorem emittingPairs_eq_nil (s : JunctionStorage) (sink : List Fork) (m : Int)
    (source : List Fork)
    (h : ∀ u ∈ source, ∀ v, pairedSink s sink u = some v → ChainLength s u v < m) :
    emittingPairs s sink m source = [] := by
  cases hp : emittingPairs s sink m source with
  | nil => rfl
  | cons p rest =>
    obtain ⟨u, v⟩ := p
    have hm : (u, v) ∈ emittingPairs s sink m source := by
      rw [hp]; exact List.mem_cons_self _ _
    obtain ⟨hu, hv, hc⟩ := (mem_emittingPairs s sink m source u v).1 hm
    have := h u hu v hv
    omega

theorem exampleStorage_distinctPositions : distinctPositions exampleStorage := by
  intro it h1 h2
  cases hs : it.positiveStrand <;>
    simp only [JunctionSequentialIterator.Valid, JunctionSequentialIterator.plus, exampleStorage,
      Bool.and_eq_true, decide_eq_true_eq, hs, Bool.false_eq_true, if_false, if_true,
      Nat.cast_one, Nat.cast_ofNat] at h1 h2 ⊢ <;>
    omega

theorem exampleStorage_labelDeterministic : labelDeterministic exampleStorage := by
  intro a b ha hb hv ha1 hb1 _
  cases hsa : a.positiveStrand <;> cases hsb : b.positiveStrand <;>
    simp only [JunctionSequentialIterator.Valid, JunctionSequentialIterator.plus, exampleStorage,
      Bool.and_eq_true, decide_eq_true_eq, hsa, hsb, Bool.false_eq_true, if_false, if_true,
      Nat.cast_one, Nat.cast_ofNat] at ha hb hv ha1 hb1 ⊢ <;>
    omega

theorem exampleStorage_bucketDeterministic : bucketDeterministic exampleStorage := by
  intro a b ha hb hv ha1 hb1 _
  cases hsa : a.positiveStrand <;> cases hsb : b.positiveStrand <;>
    simp only [JunctionSequentialIterator.Valid, JunctionSequentialIterator.plus, exampleStorage,
      Bool.and_eq_true, decide_eq_true_eq, hsa, hsb, Bool.false_eq_true, if_false, if_true,
      Nat.cast_one, Nat.cast_ofNat] at ha hb hv ha1 hb1 ⊢ <;>
    omega

theorem bucketStorage_valid (it : JunctionSequentialIterator)
    (h : it.Valid bucketStorage = true) : it ∈ bucketStorageIterators := by
  obtain ⟨c, i, st⟩ := it
  simp only [JunctionSequentialIterator.Valid, bucketStorage, labelledStorage, Bool.and_eq_true,
    decide_eq_true_eq] at h
  match c with
  | 0 | 1 =>
    simp only [List.getD_cons_zero, List.getD_cons_succ, List.length_cons, List.length_nil] at h
    obtain ⟨j, rfl⟩ : ∃ j : Nat, i = j := ⟨i.toNat, by omega⟩
    have hj : j = 0 ∨ j = 1 := by omega
    rcases hj with rfl | rfl <;> cases st <;> decide
  | c + 2 =>
    simp at h
    omega

theorem bucketStorage_distinctPositions : distinctPositions bucketStorage := by
  intro it h1 h2
  have h : ∀ x ∈ bucketStorageIterators, x.Valid bucketStorage = true →
      (x.plus 1).Valid bucketStorage = true →
      bucketStorage.position x ≠ bucketStorage.position (x.plus 1) := by decide
  exact h it (bucketStorage_valid it h1) h1 h2

theorem bucketStorage_labelDeterministic : labelDeterministic bucketStorage := by
  intro a b ha hb hv ha1 hb1 hc
  have h : ∀ x ∈ bucketStorageIterators, ∀ y ∈ bucketStorageIterators,
      bucketStorage.vertexId x = bucketStorage.vertexId y →
      (x.plus 1).Valid bucketStorage = true → (y.plus 1).Valid bucketStorage = true →
      bucketStorage.char x = bucketStorage.char y →
      bucketStorage.vertexId (x.plus 1) = bucketStorage.vertexId (y.plus 1) := by decide
  exact h a (bucketStorage_valid a ha) b (bucketStorage_valid b hb) hv ha1 hb1 hc

/-- With `maxBranchSize = 0` the walk loop records nothing where consecutive junctions have
different positions. -/
theorem not_reachesForward_zero (s : JunctionStorage) (hpos : distinctPositions s)
    (a : JunctionSequentialIterator) (ha : a.Valid s = true) (w : Int) :
    ¬ reachesForward s 0 a w := by
  rintro ⟨m, hm, hall, _⟩
  obtain ⟨hv, hd⟩ := hall 1 (le_refl _) hm
  have := hpos a ha hv
  simp only [JunctionSequentialIterator.GetPosition] at hd
  omega

/-! ### The enumeration over the vertex ids, and the mirrored storage -/

theorem shuffleOf_eq_filter (s : JunctionStorage) :
    shuffleOf s = (allVertexIds s).filter
      fun v => (s.instances v).any fun it => it.positiveStrand := rfl

theorem getD_positiveStrand_false (inst : List JunctionSequentialIterator)
    (h : ∀ it ∈ inst, it.positiveStrand = false) (i : Nat) :
    (inst.getD i default).positiveStrand = false := by
  by_cases hi : i < inst.length
  · rw [List.getD_eq_getElem _ _ hi]
    exact h _ (List.getElem_mem _)
  · rw [List.getD_eq_default _ _ (by omega)]
    rfl

theorem forkPairs_eq_nil_of_negative (inst : List JunctionSequentialIterator)
    (X Y : BubbledBranches) (h : ∀ it ∈ inst, it.positiveStrand = false) :
    forkPairs inst X Y = [] := by
  unfold forkPairs
  rw [List.flatMap_eq_nil_iff]
  intro i _
  rw [List.map_eq_nil_iff, List.filter_eq_nil_iff]
  intro k _
  rw [getD_positiveStrand_false inst h, getD_positiveStrand_false inst h]
  simp

/-- A vertex without an instance on the positive strand contributes no fork. -/
theorem CheckIfSource_of_negative (s : JunctionStorage) (finder : BlocksFinder) (v : Int)
    (h : ((s.instances v).any fun it => it.positiveStrand) = false) :
    CheckIfSource s finder v = finder := by
  have hneg : ∀ it ∈ s.instances v, it.positiveStrand = false := by
    intro it hit
    by_contra hc
    rw [Bool.not_eq_false] at hc
    have : ((s.instances v).any fun it => it.positiveStrand) = true :=
      List.any_eq_true.2 ⟨it, hit, hc⟩
    rw [h] at this
    exact Bool.false_ne_true this
  simp only [CheckIfSource, forksOf, forkPairs_eq_nil_of_negative _ _ _ hneg, List.map_nil,
    List.append_nil]

theorem foldl_filter_CheckIfSource (s : JunctionStorage) (vs : List Int)
    (finder : BlocksFinder) :
    (vs.filter fun v => (s.instances v).any fun it => it.positiveStrand).foldl
        (CheckIfSource s) finder =
      vs.foldl (CheckIfSource s) finder := by
  induction vs generalizing finder with
  | nil => rfl
  | cons v vs ih =>
    by_cases hv : ((s.instances v).any fun it => it.positiveStrand) = true
    · rw [List.filter_cons, if_pos hv, List.foldl_cons, List.foldl_cons, ih]
    · rw [List.filter_cons, if_neg hv, List.foldl_cons, ih,
        CheckIfSource_of_negative s finder v (by simpa using hv)]

theorem flatMap_singleton_cast (l : List Nat) :
    List.flatMap l (fun a : Nat => [(a : Int)]) = List.map (fun a : Nat => (a : Int)) l := by
  induction l with
  | nil => rfl
  | cons a l ih => rw [List.flatMap_cons, ih]; rfl

theorem allVertexIds_eq (s : JunctionStorage) :
    allVertexIds s = List.map (fun i : Nat => (i : Int) - ((s.verticesNumber : Int) - 1))
      (List.range (2 * s.verticesNumber - 1)) := by
  have h : allVertexIds s = List.map (fun i : Int => i - ((s.verticesNumber : Int) - 1))
      (List.flatMap (List.range (2 * s.verticesNumber - 1)) (fun a : Nat => [(a : Int)])) :=
    rfl
  rw [h, flatMap_singleton_cast, List.map_map]
  rfl

theorem allVertexIds_nodup (s : JunctionStorage) : (allVertexIds s).Nodup := by
  have hinj : Function.Injective
      (fun i : Nat => (i : Int) - ((s.verticesNumber : Int) - 1)) := by
    intro a b h
    simp only at h
    omega
  rw [allVertexIds_eq]
  exact (List.nodup_map_iff hinj).2 (List.nodup_range (2 * s.verticesNumber - 1))

theorem mem_allVertexIds (s : JunctionStorage) (v : Int) :
    v ∈ allVertexIds s ↔ -(s.verticesNumber : Int) + 1 ≤ v ∧ v ≤ (s.verticesNumber : Int) - 1 := by
  rw [allVertexIds_eq, List.mem_map]
  constructor
  · rintro ⟨i, hi, rfl⟩
    rw [List.mem_range] at hi
    omega
  · rintro ⟨h1, h2⟩
    refine ⟨(v + ((s.verticesNumber : Int) - 1)).toNat, ?_, ?_⟩
    · rw [List.mem_range]
      omega
    · rw [Int.toNat_of_nonneg (by omega)]
      omega

theorem iterator_reverse_reverse (it : JunctionSequentialIterator) : it.reverse.reverse = it := by
  obtain ⟨c, i, st⟩ := it
  simp [JunctionSequentialIterator.reverse]

theorem iterator_reverse_plus (it : JunctionSequentialIterator) (n : Nat) :
    it.reverse.plus n = (it.minus n).reverse := by
  obtain ⟨c, i, st⟩ := it
  cases st <;> simp [JunctionSequentialIterator.reverse, JunctionSequentialIterator.plus,
    JunctionSequentialIterator.minus]

theorem iterator_reverse_valid (s : JunctionStorage) (it : JunctionSequentialIterator) :
    it.reverse.Valid (mirrorStorage s) = it.Valid s := rfl

theorem walk_mirror (s : JunctionStorage) (mb sp : Int) (i fuel : Nat)
    (y : JunctionSequentialIterator) (visit : VisitMap) :
    walk (mirrorStorage s) (fun it => it.plus 1) mb sp i fuel y.reverse visit =
      walk s (fun it => it.minus 1) mb sp i fuel y visit := by
  induction fuel generalizing y visit with
  | zero => rfl
  | succ fuel ih =>
    simp only [walk]
    have h1 : y.reverse.Valid (mirrorStorage s) = y.Valid s := rfl
    have h2 : y.reverse.GetPosition (mirrorStorage s) = y.GetPosition s := by
      simp [JunctionSequentialIterator.GetPosition, mirrorStorage, iterator_reverse_reverse]
    have h3 : (mirrorStorage s).vertexId y.reverse = s.vertexId y := by
      simp [mirrorStorage, iterator_reverse_reverse]
    rw [h1, h2, h3, iterator_reverse_plus, ih]

theorem scanForward_mirror (s : JunctionStorage) (mb : Int)
    (inst : List JunctionSequentialIterator) (i : Nat) (acc : List (List Nat) × VisitMap) :
    scanForward (mirrorStorage s) mb (inst.map JunctionSequentialIterator.reverse) i acc =
      scanBackward s mb inst i acc := by
  induction inst generalizing i acc with
  | nil => rfl
  | cons x rest ih =>
    obtain ⟨pe, visit⟩ := acc
    simp only [List.map_cons, scanForward, scanBackward]
    have h1 : (x.reverse.plus 1).Valid (mirrorStorage s) = (x.minus 1).Valid s := by
      rw [iterator_reverse_plus]; rfl
    have h2 : (mirrorStorage s).char x.reverse = s.char (x.minus 1) := by
      simp [mirrorStorage, iterator_reverse_reverse]
    have h3 : x.reverse.GetPosition (mirrorStorage s) = x.GetPosition s := by
      simp [JunctionSequentialIterator.GetPosition, mirrorStorage, iterator_reverse_reverse]
    have h4 : walkFuel (mirrorStorage s) x.reverse = walkFuel s x := rfl
    rw [h1, h2, h3, h4, iterator_reverse_plus, walk_mirror, ih]

/-! ### The loop of `OutputLines` -/

theorem OutputLinesLoop_eq (length : Nat) (n i : Nat) (start : List Char)
    (out : List StreamItem) (h : n ≤ start.length) :
    OutputLinesLoop length n i start out = some (out ++ wrapFrom length i (start.take n)) := by
  induction n generalizing i start out with
  | zero => simp [OutputLinesLoop, wrapFrom]
  | succ n ih =>
    cases start with
    | nil => simp at h
    | cons c rest =>
      simp only [List.length_cons, Nat.add_le_add_iff_right] at h
      simp only [OutputLinesLoop, List.take_succ_cons, wrapFrom]
      rw [ih _ _ _ h]
      by_cases hb : i % 80 = 0 ∧ i ≠ length
      · simp [hb]
      · simp [hb]

theorem OutputLinesLoop_none (length : Nat) (n i : Nat) (start : List Char)
    (out : List StreamItem) (h : start.length < n) :
    OutputLinesLoop length n i start out = none := by
  induction n generalizing i start out with
  | zero => simp at h
  | succ n ih =>
    cases start with
    | nil => rfl
    | cons c rest =>
      simp only [List.length_cons, Nat.add_lt_add_iff_right] at h
      simp only [OutputLinesLoop]
      exact ih _ _ _ h

theorem charsOf_append (a b : List StreamItem) : charsOf (a ++ b) = charsOf a ++ charsOf b := by
  induction a with
  | nil => rfl
  | cons x a ih =>
    cases x with
    | char c => simp [charsOf, ih]
    | endl => simp [charsOf, ih]

theorem charsOf_wrapFrom (length i : Nat) (l : List Char) :
    charsOf (wrapFrom length i l) = l := by
  induction l generalizing i with
  | nil => rfl
  | cons c rest ih =>
    simp only [wrapFrom, charsOf, charsOf_append, ih]
    by_cases hb : i % 80 = 0 ∧ i ≠ length
    · simp [hb, charsOf]
    · simp [hb, charsOf]

theorem wrapFrom_ne_nil (length i : Nat) (l : List Char) (h : l ≠ []) :
    wrapFrom length i l ≠ [] := by
  cases l with
  | nil => exact absurd rfl h
  | cons c rest => simp [wrapFrom]

/-- The loop of `OutputLines` does not end on a line break. -/
theorem getLast_wrapFrom (length i : Nat) (l : List Char) (hi : i + l.length = length + 1) :
    (wrapFrom length i l).getLast? ≠ some StreamItem.endl := by
  induction l generalizing i with
  | nil => simp [wrapFrom]
  | cons c rest ih =>
    simp only [List.length_cons] at hi
    by_cases hr : rest = []
    · subst hr
      have : i = length := by simpa using hi
      simp [wrapFrom, this]
    · have h1 := ih (i + 1) (by omega)
      have h2 := wrapFrom_ne_nil length (i + 1) rest hr
      have h3 : wrapFrom length i (c :: rest) =
          (StreamItem.char c :: (if i % 80 = 0 ∧ i ≠ length then [StreamItem.endl] else [])) ++
            wrapFrom length (i + 1) rest := by
        simp [wrapFrom]
      rw [h3, List.getLast?_append]
      obtain ⟨x, hx⟩ : ∃ x, (wrapFrom length (i + 1) rest).getLast? = some x := by
        cases hw : (wrapFrom length (i + 1) rest).getLast? with
        | none => exact absurd (List.getLast?_eq_none_iff.1 hw) h2
        | some x => exact ⟨x, rfl⟩
      rw [hx] at h1 ⊢
      simpa using h1

theorem linesOf_char (c : Char) (rest : List StreamItem) (line : List Char)
    (lines : List (List Char)) (h : linesOf rest = line :: lines) :
    linesOf (StreamItem.char c :: rest) = (c :: line) :: lines := by
  simp [linesOf, h]

/-- The lines written by the loop of `OutputLines` from the counter value `i` on. -/
theorem linesFill_wrapFrom (length i : Nat) (l : List Char) (h1 : 1 ≤ i)
    (hi : i + l.length = length + 1) :
    linesFill ((i - 1) % 80) (linesOf (wrapFrom length i l)) := by
  induction l generalizing i with
  | nil => simp [wrapFrom, linesOf, linesFill]; omega
  | cons c rest ih =>
    simp only [List.length_cons] at hi
    have ih1 := ih (i + 1) (by omega) (by omega)
    cases hL : linesOf (wrapFrom length (i + 1) rest) with
    | nil => rw [hL] at ih1; exact absurd ih1 (by simp [linesFill])
    | cons line lines =>
      rw [hL] at ih1
      simp only [Nat.add_sub_cancel, linesFill] at ih1
      obtain ⟨f1, f2, f3⟩ := ih1
      by_cases hb : i % 80 = 0 ∧ i ≠ length
      · have hw : wrapFrom length i (c :: rest) =
            StreamItem.char c :: StreamItem.endl :: wrapFrom length (i + 1) rest := by
          simp [wrapFrom, hb]
        have hl : linesOf (wrapFrom length i (c :: rest)) = [c] :: line :: lines := by
          rw [hw]
          exact linesOf_char c _ [] _ (by simp [linesOf, hL])
        rw [hl]
        simp only [linesFill]
        have hr : (i - 1) % 80 = 79 := by omega
        have h0 : i % 80 = 0 := hb.1
        rw [h0] at f1 f3
        refine ⟨by simp [hr], ?_, fun _ => ⟨by simp [hr], ?_⟩⟩
        · intro x hx
          rcases List.mem_cons.1 hx with rfl | hx
          · omega
          · exact f2 x hx
        · intro x hx
          by_cases hn : lines = []
          · subst hn
            simp at hx
          · rw [List.dropLast_cons_of_ne_nil hn] at hx
            rcases List.mem_cons.1 hx with rfl | hx
            · have := (f3 hn).1
              omega
            · exact (f3 hn).2 x hx
      · have hw : wrapFrom length i (c :: rest) =
            StreamItem.char c :: wrapFrom length (i + 1) rest := by
          simp [wrapFrom, hb]
        have hl : linesOf (wrapFrom length i (c :: rest)) = (c :: line) :: lines := by
          rw [hw]
          exact linesOf_char c _ _ _ hL
        rw [hl]
        simp only [linesFill, List.length_cons]
        by_cases h0 : i % 80 = 0
        · have hlen : i = length := by
            by_contra hne
            exact hb ⟨h0, hne⟩
          have hrest : rest = [] := by
            apply List.eq_nil_of_length_eq_zero
            omega
          subst hrest
          simp only [wrapFrom, linesOf] at hL
          obtain ⟨rfl, rfl⟩ : [] = line ∧ [] = lines := by
            simpa using hL
          refine ⟨?_, by simp, fun h => absurd rfl h⟩
          simp only [List.length_nil]
          omega
        · have hr : i % 80 = (i - 1) % 80 + 1 := by omega
          rw [hr] at f1 f3
          refine ⟨by omega, f2, fun hn => ⟨?_, (f3 hn).2⟩⟩
          have := (f3 hn).1
          omega

theorem OutputLines_eq (start : List Char) (n : Nat) (out : List StreamItem)
    (h : n ≤ start.length) :
    OutputLines start n out = some (out ++ wrapFrom n 1 (start.take n)) :=
  OutputLinesLoop_eq n n 1 start out h

theorem GetLength_eq (b : BlockInstance) (h1 : b.start_ ≤ b.end_) (h2 : b.end_ < 2 ^ 64) :
    b.GetLength = b.end_ - b.start_ := by
  unfold BlockInstance.GetLength toSizeT
  omega

theorem reverse_take_sub (seq : List Char) (s e : Nat) (h1 : s ≤ e) (h2 : e ≤ seq.length) :
    ((seq.take e).reverse).take (e - s) = ((seq.drop s).take (e - s)).reverse := by
  have hl : (seq.take e).length = e := by simp [h2]
  rw [List.take_reverse, hl, show e - (e - s) = s by omega, List.drop_take]

/-! ### The coverage masks of `GenerateOutput` -/

theorem setCovered_eq (covered : List (List Bool)) (chr i : Nat) (hc : chr < covered.length)
    (hi : i < (covered.getD chr []).length) :
    setCovered covered chr i = some (covered.set chr ((covered.getD chr []).set i true)) := by
  unfold setCovered
  rw [List.get?_eq_getElem?, List.getElem?_eq_getElem hc]
  rw [List.getD_eq_getElem _ _ hc] at hi ⊢
  simp [hi]

theorem getD_set_set (covered : List (List Bool)) (chr i c : Nat) (hc : chr < covered.length) :
    (covered.set chr ((covered.getD chr []).set i true)).getD c [] =
      if c = chr then (covered.getD chr []).set i true else covered.getD c [] := by
  rw [List.getD_eq_getElem?_getD, List.getElem?_set]
  by_cases h : chr = c
  · subst h
    simp [hc]
  · have h2 : ¬ c = chr := fun e => h e.symm
    simp [h, h2, List.getD_eq_getElem?_getD]

theorem maskBit_set (covered : List (List Bool)) (chr i c j : Nat) (hc : chr < covered.length)
    (hi : i < (covered.getD chr []).length) :
    maskBit (covered.set chr ((covered.getD chr []).set i true)) c j =
      (maskBit covered c j || (decide (c = chr) && decide (j = i))) := by
  unfold maskBit
  rw [getD_set_set _ _ _ _ hc]
  by_cases h : c = chr
  · subst h
    rw [if_pos rfl, List.getD_eq_getElem?_getD, List.getElem?_set]
    by_cases h2 : i = j
    · subst h2
      have hi1 : i < (covered[c]?.getD []).length := by
        rwa [List.getD_eq_getElem?_getD] at hi
      simp [hi1]
    · have h3 : ¬ j = i := fun e => h2 e.symm
      simp [h2, h3, List.getD_eq_getElem?_getD]
  · simp [h]

theorem foldlM_setCovered (chr : Nat) (is : List Nat) (cov : List (List Bool))
    (hc : chr < cov.length) (hi : ∀ i ∈ is, i < (cov.getD chr []).length) :
    ∃ cov1, is.foldlM (fun cov i => setCovered cov chr i) cov = some cov1 ∧
      cov1.length = cov.length ∧
      (∀ c, (cov1.getD c []).length = (cov.getD c []).length) ∧
      ∀ c j, maskBit cov1 c j = (maskBit cov c j || (decide (c = chr) && decide (j ∈ is))) := by
  induction is generalizing cov with
  | nil => exact ⟨cov, rfl, rfl, fun _ => rfl, fun c j => by simp⟩
  | cons i is ih =>
    have hi0 := hi i (List.mem_cons_self _ _)
    have hlen : ∀ c, ((cov.set chr ((cov.getD chr []).set i true)).getD c []).length =
        (cov.getD c []).length := by
      intro c
      rw [getD_set_set _ _ _ _ hc]
      by_cases h : c = chr
      · subst h
        simp
      · simp [h]
    obtain ⟨cov1, h1, h2, h3, h4⟩ := ih (cov.set chr ((cov.getD chr []).set i true))
      (by rw [List.length_set]; exact hc)
      (fun x hx => by rw [hlen]; exact hi x (List.mem_cons_of_mem _ hx))
    refine ⟨cov1, ?_, ?_, ?_, ?_⟩
    · rw [List.foldlM_cons, setCovered_eq _ _ _ hc hi0]
      exact h1
    · rw [h2, List.length_set]
    · intro c
      rw [h3, hlen]
    · intro c j
      rw [h4, maskBit_set _ _ _ _ _ hc hi0]
      by_cases hc1 : c = chr <;> by_cases hj : j = i <;> simp [hc1, hj]

theorem markBlock_spec (cov : List (List Bool)) (b : BlockInstance)
    (hc : b.chr_ < cov.length) (he : b.end_ ≤ (cov.getD b.chr_ []).length) :
    ∃ cov1, markBlock cov b = some cov1 ∧
      cov1.length = cov.length ∧
      (∀ c, (cov1.getD c []).length = (cov.getD c []).length) ∧
      ∀ c j, maskBit cov1 c j =
        (maskBit cov c j || decide (b.chr_ = c ∧ b.start_ ≤ j ∧ j < b.end_)) := by
  obtain ⟨cov1, h1, h2, h3, h4⟩ := foldlM_setCovered b.chr_
    (List.range' b.start_ (b.end_ - b.start_)) cov hc (by
      intro i hi
      rw [List.mem_range'_1] at hi
      omega)
  refine ⟨cov1, h1, h2, h3, ?_⟩
  intro c j
  rw [h4]
  congr 1
  by_cases hc1 : c = b.chr_
  · subst hc1
    simp only [decide_True, Bool.true_and, List.mem_range'_1, true_and]
    congr 1
    apply propext
    constructor <;> intro h <;> omega
  · have hc2 : ¬ b.chr_ = c := fun e => hc1 e.symm
    simp [hc1, hc2]

theorem foldlM_markBlock (blocks : List BlockInstance) (cov : List (List Bool))
    (h : ∀ b ∈ blocks, b.chr_ < cov.length ∧ b.end_ ≤ (cov.getD b.chr_ []).length) :
    ∃ cov1, blocks.foldlM markBlock cov = some cov1 ∧
      cov1.length = cov.length ∧
      (∀ c, (cov1.getD c []).length = (cov.getD c []).length) ∧
      ∀ c j, maskBit cov1 c j = (maskBit cov c j || coveredBy blocks c j) := by
  induction blocks generalizing cov with
  | nil => exact ⟨cov, rfl, rfl, fun _ => rfl, fun c j => by simp [coveredBy]⟩
  | cons b blocks ih =>
    obtain ⟨hb1, hb2⟩ := h b (List.mem_cons_self _ _)
    obtain ⟨cov1, h1, h2, h3, h4⟩ := markBlock_spec cov b hb1 hb2
    obtain ⟨cov2, g1, g2, g3, g4⟩ := ih cov1 (by
      intro x hx
      obtain ⟨hx1, hx2⟩ := h x (List.mem_cons_of_mem _ hx)
      rw [h2, h3]
      exact ⟨hx1, hx2⟩)
    refine ⟨cov2, ?_, ?_, ?_, ?_⟩
    · rw [List.foldlM_cons, h1]
      exact g1
    · rw [g2, h2]
    · intro c
      rw [g3, h3]
    · intro c j
      rw [g4, h4]
      simp only [coveredBy, List.any_cons, Bool.or_assoc]

theorem map_eq_range_getD {α : Type} (L : List (List Bool)) (f : List Bool → α) :
    L.map f = (List.range L.length).map fun c => f (L.getD c []) := by
  apply List.ext_getElem
  · simp
  · intro i h1 h2
    have h3 : i < L.length := by simpa using h1
    simp [List.getElem?_eq_getElem h3]

theorem sum_map_range (n : Nat) (f : Nat → Nat) :
    ((List.range n).map f).sum = ∑ c in Finset.range n, f c := by
  induction n with
  | zero => rfl
  | succ n ih =>
    rw [List.range_succ, List.map_append, List.sum_append, ih, Finset.sum_range_succ]
    simp

theorem count_true_eq_card (mask : List Bool) :
    mask.count true =
      ((Finset.range mask.length).filter fun j => mask.getD j false = true).card := by
  induction mask using List.reverseRecOn with
  | nil => rfl
  | append_singleton mask b ih =>
    rw [List.count_append, ih, List.length_append, List.length_singleton,
      Finset.range_succ, Finset.filter_insert]
    have hlast : (mask ++ [b]).getD mask.length false = b := by
      simp [List.getD_eq_getElem?_getD]
    have hsame : (Finset.range mask.length).filter
          (fun j => (mask ++ [b]).getD j false = true) =
        (Finset.range mask.length).filter (fun j => mask.getD j false = true) := by
      apply Finset.filter_congr
      intro j hj
      rw [Finset.mem_range] at hj
      simp [List.getD_eq_getElem?_getD, List.getElem?_append_left hj]
    rw [hlast, hsame]
    cases b with
    | true =>
      rw [if_pos rfl, Finset.card_insert_of_not_mem (by simp)]
      rfl
    | false =>
      rw [if_neg (by decide)]
      rfl

theorem coveredBy_iff (blocks : List BlockInstance) (c i : Nat) :
    coveredBy blocks c i = true ↔
      ∃ b ∈ blocks, b.chr_ = c ∧ b.start_ ≤ i ∧ i < b.end_ := by
  simp [coveredBy]

/-- The result of the coverage pass when every block fits the masks. -/
theorem GenerateOutput_eq (s : JunctionStorage) (finder : BlocksFinder)
    (hfit : ∀ b ∈ finder.blocksInstance_,
      b.chr_ < s.chrNumber ∧ b.end_ ≤ s.chrLength b.chr_ + 1) :
    GenerateOutput s finder = some
      { total := ∑ c in Finset.range s.chrNumber, (s.chrLength c + 1)
        totalCovered := ∑ c in Finset.range s.chrNumber,
          ((Finset.range (s.chrLength c + 1)).filter
            fun j => coveredBy finder.blocksInstance_ c j = true).card } := by
  have hget0 : ∀ c, c < s.chrNumber →
      (((List.range s.chrNumber).map fun i => List.replicate (s.chrLength i + 1) false).getD
        c []) = List.replicate (s.chrLength c + 1) false := by
    intro c hc
    rw [List.getD_eq_getElem _ _ (by simpa using hc)]
    simp
  obtain ⟨cov1, h1, h2, h3, h4⟩ := foldlM_markBlock finder.blocksInstance_
    ((List.range s.chrNumber).map fun i => List.replicate (s.chrLength i + 1) false) (by
      intro b hb
      obtain ⟨hb1, hb2⟩ := hfit b hb
      rw [hget0 _ hb1]
      simpa using ⟨hb1, hb2⟩)
  have hlen : cov1.length = s.chrNumber := by simpa using h2
  have hrow : ∀ c, c < s.chrNumber → (cov1.getD c []).length = s.chrLength c + 1 := by
    intro c hc
    rw [h3, hget0 _ hc, List.length_replicate]
  have hbit : ∀ c j, maskBit cov1 c j = coveredBy finder.blocksInstance_ c j := by
    intro c j
    rw [h4]
    have : maskBit ((List.range s.chrNumber).map
        fun i => List.replicate (s.chrLength i + 1) false) c j = false := by
      unfold maskBit
      by_cases hc : c < s.chrNumber
      · rw [hget0 _ hc, List.getD_eq_getElem?_getD]
        by_cases hj : j < s.chrLength c + 1
        · simp [hj]
        · simp [hj]
      · have hnil : (((List.range s.chrNumber).map
            fun i => List.replicate (s.chrLength i + 1) false).getD c []) = [] :=
          List.getD_eq_default _ _ (by simpa using hc)
        rw [hnil]
        rfl
    rw [this, Bool.false_or]
  unfold GenerateOutput
  simp only [h1, Option.map_some']
  congr 2
  · rw [map_eq_range_getD, sum_map_range, hlen]
    apply Finset.sum_congr rfl
    intro c hc
    exact hrow c (Finset.mem_range.1 hc)
  · rw [map_eq_range_getD, sum_map_range, hlen]
    apply Finset.sum_congr rfl
    intro c hc
    rw [count_true_eq_card, hrow c (Finset.mem_range.1 hc)]
    apply congrArg
    apply Finset.filter_congr
    intro j _
    rw [← hbit]
    rfl

/-! ### Vertices with two instances, and the scenarios A and B -/

theorem eq_singleton_of_nodup (l : List Nat) (a : Nat) (hn : l.Nodup)
    (h : ∀ k, k ∈ l ↔ k = a) : l = [a] := by
  cases l with
  | nil => exact absurd ((h a).2 rfl) (List.not_mem_nil a)
  | cons x t =>
    have hx : x = a := (h x).1 (List.mem_cons_self _ _)
    subst hx
    cases t with
    | nil => rfl
    | cons y t =>
      have hy : y = x := (h y).1 (List.mem_cons_of_mem _ (List.mem_cons_self _ _))
      subst hy
      exact absurd (List.mem_cons_self _ _) (List.nodup_cons.1 hn).1

/-- A bubble table over two instances is decided by the one pair `(0, 1)`. -/
theorem rows_of_pair (X : BubbledBranches) (C : Prop) (hlen : X.length = 2)
    (hnodup : (X.getD 0 []).Nodup)
    (h0 : ∀ k, k ∈ X.getD 0 [] ↔ 0 < k ∧ k < 2 ∧ C)
    (h1 : ∀ k, k ∈ X.getD 1 [] → 1 < k ∧ k < 2) :
    (C → X = [[1], []]) ∧ (¬ C → X = [[], []]) := by
  obtain ⟨r0, r1, rfl⟩ : ∃ r0 r1, X = [r0, r1] := by
    match X, hlen with
    | [r0, r1], _ => exact ⟨r0, r1, rfl⟩
  simp only [List.getD_cons_zero, List.getD_cons_succ] at hnodup h0 h1
  have hr1 : r1 = [] := by
    rw [List.eq_nil_iff_forall_not_mem]
    intro k hk
    have := h1 k hk
    omega
  subst hr1
  constructor
  · intro hC
    rw [eq_singleton_of_nodup r0 1 hnodup]
    intro k
    rw [h0]
    constructor
    · rintro ⟨_, _, _⟩
      omega
    · rintro rfl
      exact ⟨by omega, by omega, hC⟩
  · intro hC
    have : r0 = [] := by
      rw [List.eq_nil_iff_forall_not_mem]
      intro k hk
      exact hC ((h0 k).1 hk).2.2
    rw [this]

theorem BubbledBranchesForward_pair (s : JunctionStorage) (mb : Int)
    (a b : JunctionSequentialIterator) :
    ((((a.plus 1).Valid s = true ∧ (b.plus 1).Valid s = true ∧
          MakeUpChar (s.char a) = MakeUpChar (s.char b)) ∨
        ∃ w, reachesForward s mb a w ∧ reachesForward s mb b w) →
      BubbledBranchesForward s mb [a, b] = [[1], []]) ∧
    (¬ (((a.plus 1).Valid s = true ∧ (b.plus 1).Valid s = true ∧
          MakeUpChar (s.char a) = MakeUpChar (s.char b)) ∨
        ∃ w, reachesForward s mb a w ∧ reachesForward s mb b w) →
      BubbledBranchesForward s mb [a, b] = [[], []]) := by
  apply rows_of_pair _ _ (length_BubbledBranchesForward s mb [a, b])
    (nodup_BubbledBranchesForward s mb [a, b] 0)
  · intro k
    rw [mem_BubbledBranchesForward_getD s mb [a, b] 0 k (by simp)]
    constructor
    · rintro ⟨h1, h2, h3⟩
      simp only [List.length_cons, List.length_nil] at h2
      have hk : k = 1 := by omega
      subst hk
      exact ⟨h1, by omega, h3⟩
    · rintro ⟨h1, h2, h3⟩
      have hk : k = 1 := by omega
      subst hk
      exact ⟨h1, by simp, h3⟩
  · intro k hk
    have := bounds_of_mem_Forward s mb [a, b] 1 k hk
    simpa using this

theorem BubbledBranchesBackward_pair (s : JunctionStorage) (mb : Int)
    (a b : JunctionSequentialIterator) :
    ((((a.minus 1).Valid s = true ∧ (b.minus 1).Valid s = true ∧
          MakeUpChar (s.char (a.minus 1)) = MakeUpChar (s.char (b.minus 1))) ∨
        ∃ w, reachesBackward s mb a w ∧ reachesBackward s mb b w) →
      BubbledBranchesBackward s mb [a, b] = [[1], []]) ∧
    (¬ (((a.minus 1).Valid s = true ∧ (b.minus 1).Valid s = true ∧
          MakeUpChar (s.char (a.minus 1)) = MakeUpChar (s.char (b.minus 1))) ∨
        ∃ w, reachesBackward s mb a w ∧ reachesBackward s mb b w) →
      BubbledBranchesBackward s mb [a, b] = [[], []]) := by
  apply rows_of_pair _ _ (length_BubbledBranchesBackward s mb [a, b])
    (nodup_BubbledBranchesBackward s mb [a, b] 0)
  · intro k
    rw [mem_BubbledBranchesBackward_getD s mb [a, b] 0 k (by simp)]
    constructor
    · rintro ⟨h1, h2, h3⟩
      simp only [List.length_cons, List.length_nil] at h2
      have hk : k = 1 := by omega
      subst hk
      exact ⟨h1, by omega, h3⟩
    · rintro ⟨h1, h2, h3⟩
      have hk : k = 1 := by omega
      subst hk
      exact ⟨h1, by simp, h3⟩
  · intro k hk
    have := bounds_of_mem_Backward s mb [a, b] 1 k hk
    simpa using this

theorem not_reachesForward_of_step (s : JunctionStorage) (mb : Int)
    (a : JunctionSequentialIterator) (w : Int)
    (h : ¬ withinBranch s mb (a.GetPosition s) (a.plus 1)) : ¬ reachesForward s mb a w := by
  rintro ⟨m, hm, hall, _⟩
  exact h (hall 1 (le_refl _) hm)

theorem not_reachesBackward_of_step (s : JunctionStorage) (mb : Int)
    (a : JunctionSequentialIterator) (w : Int)
    (h : ¬ withinBranch s mb (a.GetPosition s) (a.minus 1)) : ¬ reachesBackward s mb a w := by
  rintro ⟨m, hm, hall, _⟩
  exact h (hall 1 (le_refl _) hm)

theorem forksOf_pair_new (a b : JunctionSequentialIterator)
    (h : a.positiveStrand = true ∨ b.positiveStrand = true) :
    forksOf [a, b] [[1], []] [[], []] = [Fork.new a b] := by
  have hr : List.range 2 = [0, 1] := rfl
  rcases h with h | h <;>
    simp [forksOf, forkPairs, hr, List.flatMap_cons, h]

theorem forksOf_pair_both (a b : JunctionSequentialIterator) :
    forksOf [a, b] [[1], []] [[1], []] = [] := by
  have hr : List.range 2 = [0, 1] := rfl
  simp [forksOf, forkPairs, hr, List.flatMap_cons]

theorem forksOf_pair_none (a b : JunctionSequentialIterator) (Y : BubbledBranches) :
    forksOf [a, b] [[], []] Y = [] := by
  have hr : List.range 2 = [0, 1] := rfl
  simp [forksOf, forkPairs, hr, List.flatMap_cons]

theorem scenarioA_instances (l r : Nat → Char) (v : Int) (h1 : 1 ≤ v) (h2 : v ≤ 100) :
    (scenarioA l r).instances v =
      [{ chrId := 0, idx := v - 1, positiveStrand := true },
       { chrId := 1, idx := v - 1, positiveStrand := true }] := by
  simp [scenarioA, scenarioAInstances, h1, h2]

theorem scenarioA_forward (l r : Nat → Char) (v : Int) (c d : Nat) (h1 : 1 ≤ v) :
    BubbledBranchesForward (scenarioA l r) 50
      [{ chrId := c, idx := v - 1, positiveStrand := true },
       { chrId := d, idx := v - 1, positiveStrand := true }] =
      if v < 100 then [[1], []] else [[], []] := by
  have hnr : ∀ (x : Nat) w, ¬ reachesForward (scenarioA l r) 50
      { chrId := x, idx := v - 1, positiveStrand := true } w := by
    intro x w
    apply not_reachesForward_of_step
    rintro ⟨_, hd⟩
    simp only [JunctionSequentialIterator.GetPosition, scenarioA,
      JunctionSequentialIterator.plus, if_true] at hd
    omega
  by_cases hv : v < 100
  · rw [if_pos hv]
    apply (BubbledBranchesForward_pair _ _ _ _).1
    left
    simp [JunctionSequentialIterator.plus, JunctionSequentialIterator.Valid, scenarioA]
    omega
  · rw [if_neg hv]
    apply (BubbledBranchesForward_pair _ _ _ _).2
    rintro (⟨hva, _, _⟩ | ⟨w, hw, _⟩)
    · simp [JunctionSequentialIterator.plus, JunctionSequentialIterator.Valid, scenarioA] at hva
      omega
    · exact hnr _ _ hw

theorem scenarioA_backward (l r : Nat → Char) (v : Int) (c d : Nat) (h1 : 1 ≤ v)
    (h2 : v ≤ 100) :
    BubbledBranchesBackward (scenarioA l r) 50
      [{ chrId := c, idx := v - 1, positiveStrand := true },
       { chrId := d, idx := v - 1, positiveStrand := true }] =
      if 2 ≤ v then [[1], []] else [[], []] := by
  have hnr : ∀ (x : Nat) w, ¬ reachesBackward (scenarioA l r) 50
      { chrId := x, idx := v - 1, positiveStrand := true } w := by
    intro x w
    apply not_reachesBackward_of_step
    rintro ⟨hva, hd⟩
    simp only [JunctionSequentialIterator.GetPosition, scenarioA,
      JunctionSequentialIterator.minus, if_true] at hd
    simp [JunctionSequentialIterator.minus, JunctionSequentialIterator.Valid, scenarioA] at hva
    omega
  by_cases hv : 2 ≤ v
  · rw [if_pos hv]
    apply (BubbledBranchesBackward_pair _ _ _ _).1
    left
    simp [JunctionSequentialIterator.minus, JunctionSequentialIterator.Valid, scenarioA]
    omega
  · rw [if_neg hv]
    apply (BubbledBranchesBackward_pair _ _ _ _).2
    rintro (⟨hva, _, _⟩ | ⟨w, hw, _⟩)
    · simp [JunctionSequentialIterator.minus, JunctionSequentialIterator.Valid, scenarioA] at hva
      omega
    · exact hnr _ _ hw

theorem scenarioA_CheckIfSource_first (l r : Nat → Char) (f : BlocksFinder)
    (hmb : f.maxBranchSize_ = 50) :
    CheckIfSource (scenarioA l r) f 1 =
      { f with source_ := f.source_ ++
          [{ branch0 := { chrId := 1, idx := 0, positiveStrand := true }
             branch1 := { chrId := 0, idx := 0, positiveStrand := true } }] } := by
  have hi := scenarioA_instances l r 1 (by decide) (by decide)
  have hF := (scenarioA_forward l r 1 0 1 (by decide)).trans (if_pos (by decide))
  have hB := (scenarioA_backward l r 1 0 1 (by decide) (by decide)).trans
    (if_neg (by decide))
  simp only [CheckIfSource, hi, hmb, hF, hB]
  rw [forksOf_pair_new _ _ (Or.inl rfl), forksOf_pair_none, List.append_nil]
  rfl

theorem scenarioA_CheckIfSource_last (l r : Nat → Char) (f : BlocksFinder)
    (hmb : f.maxBranchSize_ = 50) :
    CheckIfSource (scenarioA l r) f 100 =
      { f with sink_ := f.sink_ ++
          [{ branch0 := { chrId := 1, idx := 99, positiveStrand := true }
             branch1 := { chrId := 0, idx := 99, positiveStrand := true } }] } := by
  have hi := scenarioA_instances l r 100 (by decide) (by decide)
  have hF := (scenarioA_forward l r 100 0 1 (by decide)).trans (if_neg (by decide))
  have hB := (scenarioA_backward l r 100 0 1 (by decide) (by decide)).trans
    (if_pos (by decide))
  simp only [CheckIfSource, hi, hmb, hF, hB]
  rw [forksOf_pair_new _ _ (Or.inl rfl), forksOf_pair_none, List.append_nil]
  rfl

theorem scenarioA_CheckIfSource_middle (l r : Nat → Char) (f : BlocksFinder) (v : Int)
    (h1 : 2 ≤ v) (h2 : v ≤ 99) (hmb : f.maxBranchSize_ = 50) :
    CheckIfSource (scenarioA l r) f v = f := by
  have hi := scenarioA_instances l r v (by omega) (by omega)
  have hF := (scenarioA_forward l r v 0 1 (by omega)).trans (if_pos (by omega))
  have hB := (scenarioA_backward l r v 0 1 (by omega) (by omega)).trans (if_pos (by omega))
  simp only [CheckIfSource, hi, hmb, hF, hB]
  rw [forksOf_pair_both, List.append_nil, List.append_nil]
  cases f
  simp only at hmb
  subst hmb
  rfl

theorem scenarioA_foldl_middle (l r : Nat → Char) (vs : List Int) (f : BlocksFinder)
    (h : ∀ v ∈ vs, 2 ≤ v ∧ v ≤ 99) (hmb : f.maxBranchSize_ = 50) :
    vs.foldl (CheckIfSource (scenarioA l r)) f = f := by
  induction vs with
  | nil => rfl
  | cons v vs ih =>
    obtain ⟨h1, h2⟩ := h v (List.mem_cons_self _ _)
    rw [List.foldl_cons, scenarioA_CheckIfSource_middle l r f v h1 h2 hmb]
    exact ih fun x hx => h x (List.mem_cons_of_mem _ hx)

theorem scenarioA_shuffle (l r : Nat → Char) :
    shuffleOf (scenarioA l r) =
      1 :: (List.map (fun i : Nat => (i : Int) + 2) (List.range 98) ++ [100]) := by
  have h1 : shuffleOf (scenarioA l r) = shuffleOf (scenarioA (fun _ => 'A') (fun _ => 'A')) :=
    rfl
  rw [h1]
  decide

/-! The pairing reads the storage through the positions only. -/

theorem Fork.lt_congr (s t : JunctionStorage) (h : s.position = t.position) :
    Fork.lt s = Fork.lt t := by
  funext a f
  simp only [Fork.lt, JunctionSequentialIterator.GetPosition, h]

theorem ChainLength_congr (s t : JunctionStorage) (h : s.position = t.position) :
    ChainLength s = ChainLength t := by
  funext a f
  simp only [ChainLength, JunctionSequentialIterator.GetPosition, h]

theorem emitBranch_congr (s t : JunctionStorage) (h : s.position = t.position) :
    emitBranch s = emitBranch t := by
  funext k b u v l
  simp only [emitBranch, JunctionSequentialIterator.GetPosition, h]

theorem lowerBoundLoop_congr (s t : JunctionStorage) (h : s.position = t.position)
    (sink : List Fork) (u : Fork) (fuel first count : Nat) :
    lowerBoundLoop s sink u fuel first count = lowerBoundLoop t sink u fuel first count := by
  induction fuel generalizing first count with
  | zero => rfl
  | succ fuel ih => simp only [lowerBoundLoop, Fork.lt_congr s t h, ih]

theorem pairedSink_congr (s t : JunctionStorage) (h : s.position = t.position)
    (sink : List Fork) (u : Fork) : pairedSink s sink u = pairedSink t sink u := by
  simp only [pairedSink, lowerBound, lowerBoundLoop_congr s t h]

theorem pairLoop_congr (s t : JunctionStorage) (h : s.position = t.position)
    (source : List Fork) (finder : BlocksFinder) :
    pairLoop s source finder = pairLoop t source finder := by
  induction source generalizing finder with
  | nil => rfl
  | cons u rest ih =>
    simp only [pairLoop, pairStep, pairBody, pairedSink_congr s t h, ChainLength_congr s t h,
      emitBranch_congr s t h, ih]

/-- `FindBlocksPwise` gives the same result over two storages with the same positions. -/
theorem FindBlocksPwise_congr (s t : JunctionStorage) (h : s.position = t.position)
    (finder : BlocksFinder) : FindBlocksPwise s finder = FindBlocksPwise t finder := by
  simp only [FindBlocksPwise, sortForks, Fork.lt_congr s t h, pairLoop_congr s t h]

theorem scenarioA_enumeration (l r : Nat → Char) :
    enumeration (scenarioA l r) (BlocksFinder.new 21) 500 50 0 = scenarioAEnumerated := by
  have hmid : ∀ v ∈ List.map (fun i : Nat => (i : Int) + 2) (List.range 98),
      2 ≤ v ∧ v ≤ 99 := by
    intro v hv
    rw [List.mem_map] at hv
    obtain ⟨i, hi, rfl⟩ := hv
    rw [List.mem_range] at hi
    omega
  unfold enumeration
  rw [scenarioA_shuffle, List.foldl_cons, List.foldl_append,
    scenarioA_CheckIfSource_first _ _ _ rfl, scenarioA_foldl_middle l r _ _ hmid rfl,
    List.foldl_cons, List.foldl_nil, scenarioA_CheckIfSource_last _ _ _ rfl]
  rfl

theorem scenarioA_pairing (l r : Nat → Char) :
    FindBlocksPwise (scenarioA l r) scenarioAEnumerated = some scenarioAResult := by
  rw [FindBlocksPwise_congr (scenarioA l r) (scenarioA (fun _ => 'A') (fun _ => 'A')) rfl]
  decide

/-! ### The loops of `GroupBy` -/

theorem StrictWeakOrder.not_lt_trans {T : Type} {pred : T → T → Bool} (h : StrictWeakOrder pred)
    (a b c : T) (h1 : pred b a = false) (h2 : pred c b = false) : pred c a = false := by
  obtain ⟨_, htr, hinc⟩ := h
  by_contra hca
  rw [Bool.not_eq_false] at hca
  have hab : pred a b = false := by
    by_contra hab
    rw [Bool.not_eq_false] at hab
    rw [htr c a b hca hab] at h2
    exact Bool.noConfusion h2
  have hbc : pred b c = false := by
    by_contra hbc
    rw [Bool.not_eq_false] at hbc
    rw [htr b c a hbc hca] at h1
    exact Bool.noConfusion h1
  have := (hinc a b c hab h1 hbc h2).2
  rw [this] at hca
  exact Bool.noConfusion hca

theorem StrictWeakOrder.not_lt_total {T : Type} {pred : T → T → Bool} (h : StrictWeakOrder pred)
    (a b : T) : pred b a = false ∨ pred a b = false := by
  obtain ⟨hirr, htr, _⟩ := h
  by_contra hc
  rw [not_or, Bool.not_eq_false, Bool.not_eq_false] at hc
  have := htr a b a hc.2 hc.1
  rw [hirr a] at this
  exact Bool.noConfusion this

theorem StrictWeakOrder.lt_of_lt_of_le {T : Type} {pred : T → T → Bool}
    (h : StrictWeakOrder pred) (a b c : T) (h1 : pred a b = true) (h2 : pred c b = false) :
    pred a c = true := by
  by_contra hac
  rw [Bool.not_eq_true] at hac
  have := h.not_lt_trans b c a h2 hac
  rw [this] at h1
  exact Bool.noConfusion h1

theorem StrictWeakOrder.lt_of_le_of_lt {T : Type} {pred : T → T → Bool}
    (h : StrictWeakOrder pred) (a b c : T) (h1 : pred b a = false) (h2 : pred b c = true) :
    pred a c = true := by
  by_contra hac
  rw [Bool.not_eq_true] at hac
  have := h.not_lt_trans c a b hac h1
  rw [this] at h2
  exact Bool.noConfusion h2

theorem insertionSort_sorted_of_swo {T : Type} {pred : T → T → Bool}
    (h : StrictWeakOrder pred) (store : List T) :
    (store.insertionSort (fun a b => pred b a = false)).Pairwise
      (fun a b => pred b a = false) := by
  haveI : IsTotal T (fun a b => pred b a = false) := ⟨fun a b => h.not_lt_total a b⟩
  haveI : IsTrans T (fun a b => pred b a = false) :=
    ⟨fun a b c h1 h2 => h.not_lt_trans a b c h1 h2⟩
  exact List.sorted_insertionSort _ _

/-- The inner loop of `GroupBy`: the result is the first index from `now` on, up to the
size of the vector, at which `pred(store[prev], store[now])` holds. -/
theorem GroupBy.scan_spec {T : Type} (pred : T → T → Bool) (store : List T) (prev : Nat)
    (hprev : prev < store.length) (fuel now : Nat) (hf : store.length - now ≤ fuel)
    (hnow : now ≤ store.length) :
    now ≤ GroupBy.scan pred store prev fuel now ∧
      GroupBy.scan pred store prev fuel now ≤ store.length ∧
      (∀ k, now ≤ k → k < GroupBy.scan pred store prev fuel now →
        ∀ a b, store[prev]? = some a → store[k]? = some b → pred a b = false) ∧
      (GroupBy.scan pred store prev fuel now < store.length →
        ∀ a b, store[prev]? = some a →
          store[GroupBy.scan pred store prev fuel now]? = some b → pred a b = true) := by
  induction fuel generalizing now with
  | zero =>
    have : now = store.length := by omega
    subst this
    simp only [GroupBy.scan]
    exact ⟨le_refl _, le_refl _, fun k h1 h2 => by omega, fun h => by omega⟩
  | succ fuel ih =>
    have hp : store[prev]? = some store[prev] := List.getElem?_eq_getElem hprev
    by_cases hn : now < store.length
    · have hq : store[now]? = some store[now] := List.getElem?_eq_getElem hn
      by_cases hpr : pred store[prev] store[now] = false
      · have hstep : GroupBy.scan pred store prev (fuel + 1) now =
            GroupBy.scan pred store prev fuel (now + 1) := by
          simp only [GroupBy.scan, hp, hq, hpr, if_true]
        rw [hstep]
        obtain ⟨i1, i2, i3, i4⟩ := ih (now + 1) (by omega) (by omega)
        refine ⟨by omega, i2, ?_, i4⟩
        intro k hk1 hk2 a b ha hb
        rcases Nat.eq_or_lt_of_le hk1 with rfl | hlt
        · rw [hp] at ha
          rw [hq] at hb
          cases ha
          cases hb
          exact hpr
        · exact i3 k (by omega) hk2 a b ha hb
      · have hstep : GroupBy.scan pred store prev (fuel + 1) now = now := by
          simp only [GroupBy.scan, hp, hq, hpr, if_false]
          rfl
        rw [hstep]
        refine ⟨le_refl _, hnow, fun k h1 h2 => by omega, ?_⟩
        intro _ a b ha hb
        rw [hp] at ha
        rw [hq] at hb
        cases ha
        cases hb
        simpa using hpr
    · have hq : store[now]? = none := List.getElem?_eq_none (by omega)
      have hstep : GroupBy.scan pred store prev (fuel + 1) now = now := by
        simp only [GroupBy.scan, hp, hq]
      rw [hstep]
      exact ⟨le_refl _, hnow, fun k h1 h2 => by omega, fun h => absurd h hn⟩

/-- What `GroupBy` knows about an emitted range `r`: it ends within the vector, its elements
are not greater than its first element, and the element after it is. -/
theorem GroupBy.loop_spec {T : Type} (pred : T → T → Bool) (hirr : ∀ a, pred a a = false)
    (store : List T) (fuel now : Nat) (out : List (Nat × Nat))
    (hf : store.length - now ≤ fuel) (hnow : now ≤ store.length) :
    ∃ res, GroupBy.loop pred store fuel now out = some (out ++ res) ∧
      rangesFrom now res store.length ∧
      ∀ r ∈ res, r.2 ≤ store.length ∧
        (∀ k, r.1 ≤ k → k < r.2 →
          ∀ a b, store[r.1]? = some a → store[k]? = some b → pred a b = false) ∧
        (r.2 < store.length →
          ∀ a b, store[r.1]? = some a → store[r.2]? = some b → pred a b = true) := by
  induction fuel generalizing now out with
  | zero =>
    have : now = store.length := by omega
    subst this
    refine ⟨[], ?_, rfl, fun r hr => absurd hr (List.not_mem_nil r)⟩
    simp [GroupBy.loop]
  | succ fuel ih =>
    by_cases hn : now < store.length
    · obtain ⟨s1, s2, s3, s4⟩ := GroupBy.scan_spec pred store now hn (store.length - now) now
        (le_refl _) hnow
      have hprog : now < GroupBy.scan pred store now (store.length - now) now := by
        rcases Nat.eq_or_lt_of_le s1 with heq | hlt
        · have hlt2 : GroupBy.scan pred store now (store.length - now) now < store.length := by
            rw [← heq]; exact hn
          have := s4 hlt2 store[now] store[now] (List.getElem?_eq_getElem hn)
            (by rw [← heq]; exact List.getElem?_eq_getElem hn)
          rw [hirr] at this
          exact Bool.noConfusion this
        · exact hlt
      obtain ⟨res, r1, r2, r3⟩ := ih (GroupBy.scan pred store now (store.length - now) now)
        (out ++ [(now, GroupBy.scan pred store now (store.length - now) now)])
        (by omega) s2
      refine ⟨(now, GroupBy.scan pred store now (store.length - now) now) :: res, ?_, ?_, ?_⟩
      · simp only [GroupBy.loop, if_pos hn]
        rw [r1, List.append_assoc]
        rfl
      · exact ⟨rfl, hprog, r2⟩
      · intro r hr
        rcases List.mem_cons.1 hr with rfl | hr
        · exact ⟨s2, s3, s4⟩
        · exact r3 r hr
    · have : now = store.length := by omega
      subst this
      refine ⟨[], ?_, rfl, fun r hr => absurd hr (List.not_mem_nil r)⟩
      simp [GroupBy.loop]

theorem exists_range_of_lt (rs : List (Nat × Nat)) (lo hi i : Nat) (h : rangesFrom lo rs hi)
    (h1 : lo ≤ i) (h2 : i < hi) : ∃ r ∈ rs, r.1 ≤ i ∧ i < r.2 := by
  induction rs generalizing lo with
  | nil =>
    simp only [rangesFrom] at h
    omega
  | cons r rest ih =>
    obtain ⟨e1, e2, e3⟩ := h
    by_cases hi2 : i < r.2
    · exact ⟨r, List.mem_cons_self _ _, by omega, hi2⟩
    · obtain ⟨q, hq, hq2⟩ := ih r.2 e3 (by omega)
      exact ⟨q, List.mem_cons_of_mem _ hq, hq2⟩

/-- In a sorted vector the ranges found by `GroupBy` are the classes of equivalent
elements. -/
theorem same_range_iff {T : Type} (pred : T → T → Bool) (h : StrictWeakOrder pred)
    (store : List T) (hs : store.Pairwise (fun a b => pred b a = false))
    (res : List (Nat × Nat)) (hr : rangesFrom 0 res store.length)
    (hres : ∀ r ∈ res, r.2 ≤ store.length ∧
      (∀ k, r.1 ≤ k → k < r.2 →
        ∀ a b, store[r.1]? = some a → store[k]? = some b → pred a b = false) ∧
      (r.2 < store.length →
        ∀ a b, store[r.1]? = some a → store[r.2]? = some b → pred a b = true))
    (i j : Nat) (a b : T) (ha : store[i]? = some a) (hb : store[j]? = some b) :
    (∃ r ∈ res, r.1 ≤ i ∧ i < r.2 ∧ r.1 ≤ j ∧ j < r.2) ↔
      (pred a b = false ∧ pred b a = false) := by
  obtain ⟨hi, rfl⟩ := List.getElem?_eq_some.1 ha
  obtain ⟨hj, rfl⟩ := List.getElem?_eq_some.1 hb
  have hle : ∀ k m (hk : k < store.length) (hm : m < store.length), k ≤ m →
      pred store[m] store[k] = false := by
    intro k m hk hm hkm
    rcases Nat.eq_or_lt_of_le hkm with rfl | hlt
    · exact h.1 _
    · exact List.pairwise_iff_getElem.1 hs k m hk hm hlt
  have hequiv : ∀ r ∈ res, ∀ k (hk : k < store.length), r.1 ≤ k → k < r.2 →
      ∀ (hf : r.1 < store.length),
        pred store[r.1] store[k] = false ∧ pred store[k] store[r.1] = false := by
    intro r hrm k hk h1 h2 hf
    exact ⟨(hres r hrm).2.1 k h1 h2 _ _ (List.getElem?_eq_getElem hf)
      (List.getElem?_eq_getElem hk), hle _ _ hf hk h1⟩
  constructor
  · rintro ⟨r, hrm, i1, i2, j1, j2⟩
    have hf : r.1 < store.length := by omega
    obtain ⟨e1, e2⟩ := hequiv r hrm i hi i1 i2 hf
    obtain ⟨e3, e4⟩ := hequiv r hrm j hj j1 j2 hf
    exact h.2.2 _ _ _ e2 e1 e3 e4
  · rintro ⟨hab, hba⟩
    have key : ∀ i j (hi : i < store.length) (hj : j < store.length), i ≤ j →
        pred store[i] store[j] = false →
        ∃ r ∈ res, r.1 ≤ i ∧ i < r.2 ∧ r.1 ≤ j ∧ j < r.2 := by
      intro i j hi hj hij hnlt
      obtain ⟨r, hrm, r1, r2⟩ := exists_range_of_lt res 0 store.length i hr (Nat.zero_le _) hi
      refine ⟨r, hrm, r1, r2, by omega, ?_⟩
      by_contra hjr
      have hl : r.2 < store.length := by omega
      have hf : r.1 < store.length := by omega
      have h1 := (hres r hrm).2.2 hl _ _ (List.getElem?_eq_getElem hf)
        (List.getElem?_eq_getElem hl)
      have h2 := h.lt_of_lt_of_le _ _ _ h1 (hle r.2 j hl hj (by omega))
      have h3 := h.lt_of_le_of_lt store[i] store[r.1] store[j]
        (hequiv r hrm i hi r1 r2 hf).1 h2
      rw [h3] at hnlt
      exact Bool.noConfusion hnlt
    rcases Nat.le_total i j with hij | hji
    · exact key i j hi hj hij hab
    · obtain ⟨r, hrm, q1, q2, q3, q4⟩ := key j i hj hi hji hba
      exact ⟨r, hrm, q3, q4, q1, q2⟩

theorem GroupBy_eq {T : Type} (pred : T → T → Bool) (h : StrictWeakOrder pred)
    (store : List T) :
    ∃ ranges, GroupBy store pred =
        some (store.insertionSort (fun a b => pred b a = false), ranges) ∧
      rangesFrom 0 ranges store.length ∧
      ∀ i j a b, (store.insertionSort (fun a b => pred b a = false))[i]? = some a →
        (store.insertionSort (fun a b => pred b a = false))[j]? = some b →
        ((∃ r ∈ ranges, r.1 ≤ i ∧ i < r.2 ∧ r.1 ≤ j ∧ j < r.2) ↔
          (pred a b = false ∧ pred b a = false)) := by
  obtain ⟨res, r1, r2, r3⟩ := GroupBy.loop_spec pred h.1
    (store.insertionSort (fun a b => pred b a = false))
    (store.insertionSort (fun a b => pred b a = false)).length 0 [] (by omega) (Nat.zero_le _)
  refine ⟨res, ?_, ?_, ?_⟩
  · simp only [GroupBy, r1, List.nil_append, Option.map_some']
  · rw [List.length_insertionSort] at r2
    exact r2
  · intro i j a b ha hb
    exact same_range_iff pred h _ (insertionSort_sorted_of_swo h store) res r2 r3 i j a b ha hb

/-- The comparison of a key is a strict weak ordering whose equivalent elements are those
with the same key. -/
theorem strictWeakOrder_of_key {T : Type} (key : T → Nat) :
    StrictWeakOrder (fun a b => decide (key a < key b)) := by
  refine ⟨fun a => by simp, fun a b c h1 h2 => ?_, fun a b c h1 h2 h3 h4 => ?_⟩
  · simp only [decide_eq_true_eq] at h1 h2 ⊢
    omega
  · simp only [decide_eq_false_iff_not] at h1 h2 h3 h4 ⊢
    omega

theorem compareById_swo : StrictWeakOrder compareById :=
  strictWeakOrder_of_key BlockInstance.GetBlockId

/-! ### The distance keeper -/

theorem lookup_filter_ne (l : List (Int × Int)) (k a : Int) :
    (l.filter fun p => p.1 ≠ k).lookup a = if a = k then none else l.lookup a := by
  induction l with
  | nil => simp
  | cons x l ih =>
    obtain ⟨x1, x2⟩ := x
    by_cases hx : x1 = k
    · subst hx
      rw [List.filter_cons_of_neg (by simp), ih]
      by_cases ha : a = x1
      · simp [ha]
      · have : (a == x1) = false := by simpa using ha
        simp [ha, List.lookup_cons, this]
    · rw [List.filter_cons_of_pos (by simpa using hx)]
      simp only [List.lookup_cons, ih]
      by_cases ha : a = k
      · subst ha
        have : (a == x1) = false := by simpa using fun h => hx h.symm
        simp [this]
      · simp [ha]

theorem DistanceKeeper.IsSet_Set (k : DistanceKeeper) (v d u : Int) :
    (k.Set v d).IsSet u = (decide (toInt32 u = toInt32 v) || k.IsSet u) := by
  simp only [DistanceKeeper.IsSet, DistanceKeeper.Set, List.lookup_cons, lookup_filter_ne]
  by_cases h : toInt32 u = toInt32 v
  · simp [h]
  · have : (toInt32 u == toInt32 v) = false := by simpa using h
    simp [h, this]

theorem DistanceKeeper.IsSet_Unset (k : DistanceKeeper) (v u : Int) :
    (k.Unset v).IsSet u = (!decide (toInt32 u = toInt32 v) && k.IsSet u) := by
  simp only [DistanceKeeper.IsSet, DistanceKeeper.Unset, lookup_filter_ne]
  by_cases h : toInt32 u = toInt32 v
  · simp [h]
  · simp [h]

theorem ne_of_lookup_none (l : List (Int × Int)) (k : Int) (h : l.lookup k = none) :
    ∀ p ∈ l, p.1 ≠ k := by
  induction l with
  | nil => simp
  | cons x l ih =>
    obtain ⟨x1, x2⟩ := x
    rw [List.lookup_cons] at h
    by_cases hx : (k == x1) = true
    · rw [hx] at h
      exact Option.noConfusion h
    · rw [Bool.not_eq_true] at hx
      rw [hx] at h
      intro p hp
      rcases List.mem_cons.1 hp with rfl | hp
      · intro e
        simp only at e
        rw [e] at hx
        simp at hx
      · exact ih h p hp

/-- Setting a key that is not set and erasing it again gives the map back. -/
theorem DistanceKeeper.Unset_Set (k : DistanceKeeper) (v d : Int) (h : k.IsSet v = false) :
    (k.Set v d).Unset v = k := by
  obtain ⟨l⟩ := k
  have h1 : l.lookup (toInt32 v) = none := by
    cases hl : l.lookup (toInt32 v) with
    | none => rfl
    | some x =>
      simp only [DistanceKeeper.IsSet, hl, Option.isSome_some] at h
      exact Bool.noConfusion h
  have hne := ne_of_lookup_none l _ h1
  simp only [DistanceKeeper.Unset, DistanceKeeper.Set, DistanceKeeper.mk.injEq]
  rw [List.filter_cons_of_neg (by simp), List.filter_filter]
  rw [List.filter_eq_self]
  intro p hp
  simpa using hne p hp

/-! ### The distance invariant of a path -/

theorem edgeLengths_append (b : List Point) (pt : Point) :
    edgeLengths (b ++ [pt]) = edgeLengths b + pt.edge.length := by
  simp [edgeLengths]

theorem rightChain_append (d : Int) (b : List Point) (pt : Point) :
    rightChain d (b ++ [pt]) ↔ rightChain d b ∧ pt.startDistance = d + edgeLengths b := by
  induction b generalizing d with
  | nil => simp [rightChain, edgeLengths]
  | cons x b ih =>
    have : edgeLengths (x :: b) = x.edge.length + edgeLengths b := by simp [edgeLengths]
    rw [List.cons_append, this]
    simp only [rightChain]
    rw [ih]
    simp only [Point.EndDistance]
    constructor
    · rintro ⟨h1, h2, h3⟩
      exact ⟨⟨h1, h2⟩, by omega⟩
    · rintro ⟨⟨h1, h2⟩, h3⟩
      exact ⟨h1, h2, by omega⟩

theorem leftChain_append (d : Int) (b : List Point) (pt : Point) :
    leftChain d (b ++ [pt]) ↔ leftChain d b ∧ pt.EndDistance = d - edgeLengths b := by
  induction b generalizing d with
  | nil => simp [leftChain, edgeLengths]
  | cons x b ih =>
    have : edgeLengths (x :: b) = x.edge.length + edgeLengths b := by simp [edgeLengths]
    rw [List.cons_append, this]
    simp only [leftChain]
    rw [ih]
    simp only [Point.EndDistance]
    constructor
    · rintro ⟨h1, h2, h3⟩
      exact ⟨⟨h1, h2⟩, by omega⟩
    · rintro ⟨⟨h1, h2⟩, h3⟩
      exact ⟨h1, h2, by omega⟩

theorem rightFlankOf_eq (b : List Point) (h : rightChain 0 b) :
    Path.rightFlankOf b = edgeLengths b := by
  rcases List.eq_nil_or_concat b with rfl | ⟨b1, pt, rfl⟩
  · rfl
  · rw [List.concat_eq_append] at h ⊢
    have h2 := ((rightChain_append 0 b1 pt).1 h).2
    simp only [Path.rightFlankOf, List.getLast?_append, List.getLast?_singleton,
      Option.or, edgeLengths_append, Point.EndDistance]
    omega

theorem leftFlankOf_eq (b : List Point) (h : leftChain 0 b) :
    -Path.leftFlankOf b = edgeLengths b := by
  rcases List.eq_nil_or_concat b with rfl | ⟨b1, pt, rfl⟩
  · rfl
  · rw [List.concat_eq_append] at h ⊢
    have h2 := ((leftChain_append 0 b1 pt).1 h).2
    simp only [Path.leftFlankOf, List.getLast?_append, List.getLast?_singleton,
      Option.or, edgeLengths_append]
    simp only [Point.EndDistance] at h2
    omega

theorem pathVertices_right (o : Int) (L R : List Point) (pt : Point) :
    (pathVertices o L (R ++ [pt])).Perm (pt.edge.endVertex :: pathVertices o L R) := by
  simp only [pathVertices, List.map_append, List.map_cons, List.map_nil, List.append_assoc,
    List.singleton_append]
  refine List.Perm.trans (List.Perm.cons _ List.perm_middle) (List.Perm.swap _ _ _)

theorem pathVertices_left (o : Int) (L R : List Point) (pt : Point) :
    (pathVertices o (L ++ [pt]) R).Perm (pt.edge.startVertex :: pathVertices o L R) := by
  simp only [pathVertices, List.map_append, List.map_cons, List.map_nil]
  rw [← List.append_assoc]
  refine List.Perm.trans (List.Perm.cons _ ?_) (List.Perm.swap _ _ _)
  exact List.perm_append_singleton _ _

/-- The part of the invariant about the vertices, when a vertex that is not set is set. -/
theorem inPath_push (keeper : DistanceKeeper) (V V1 : List Int) (x d : Int)
    (hperm : V1.Perm (x :: V))
    (hin : ∀ v, keeper.IsSet v = true ↔ toInt32 v ∈ V.map toInt32)
    (hnd : (V.map toInt32).Nodup) (hx : keeper.IsSet x = false) :
    (∀ v, (keeper.Set x d).IsSet v = true ↔ toInt32 v ∈ V1.map toInt32) ∧
      (V1.map toInt32).Nodup := by
  have hp := hperm.map toInt32
  have hxn : toInt32 x ∉ V.map toInt32 := by
    intro hmem
    rw [(hin x).2 hmem] at hx
    exact Bool.noConfusion hx
  constructor
  · intro v
    rw [DistanceKeeper.IsSet_Set, hp.mem_iff, List.map_cons, List.mem_cons, Bool.or_eq_true,
      decide_eq_true_eq, hin]
  · rw [hp.nodup_iff, List.map_cons, List.nodup_cons]
    exact ⟨hxn, hnd⟩

/-- The part of the invariant about the vertices, when the vertex pushed last is unset. -/
theorem inPath_pop (keeper : DistanceKeeper) (V V1 : List Int) (x : Int)
    (hperm : V1.Perm (x :: V))
    (hin : ∀ v, keeper.IsSet v = true ↔ toInt32 v ∈ V1.map toInt32)
    (hnd : (V1.map toInt32).Nodup) :
    (∀ v, (keeper.Unset x).IsSet v = true ↔ toInt32 v ∈ V.map toInt32) ∧
      (V.map toInt32).Nodup := by
  have hp := hperm.map toInt32
  rw [hp.nodup_iff, List.map_cons, List.nodup_cons] at hnd
  refine ⟨?_, hnd.2⟩
  intro v
  rw [DistanceKeeper.IsSet_Unset, Bool.and_eq_true, Bool.not_eq_true', decide_eq_false_iff_not,
    hin, hp.mem_iff, List.map_cons, List.mem_cons]
  constructor
  · rintro ⟨h1, h2 | h2⟩
    · exact absurd h2 h1
    · exact h2
  · intro h
    refine ⟨?_, Or.inr h⟩
    intro e
    rw [e] at h
    exact hnd.1 h

theorem PathInvariant.init (vid : Int) :
    PathInvariant vid [] [] 0 0 (DistanceKeeper.new.Set vid 0) := by
  refine ⟨rfl, rfl, trivial, trivial, ?_, ?_⟩
  · intro v
    rw [DistanceKeeper.IsSet_Set]
    simp [pathVertices, DistanceKeeper.IsSet, DistanceKeeper.new]
  · simp [pathVertices]

theorem PathInvariant.pushBack {o : Int} {L R : List Point} {lf rf : Int}
    {keeper : DistanceKeeper} (h : PathInvariant o L R lf rf keeper) (e : Edge) (d : Int)
    (hx : keeper.IsSet e.endVertex = false) :
    PathInvariant o L (R ++ [{ edge := e, startDistance := rf }]) lf
      (Point.EndDistance { edge := e, startDistance := rf }) (keeper.Set e.endVertex d) := by
  obtain ⟨h1, h2, h3, h4, h5, h6⟩ := h
  obtain ⟨g1, g2⟩ := inPath_push keeper _ _ e.endVertex d
    (pathVertices_right o L R { edge := e, startDistance := rf }) h5 h6 hx
  refine ⟨?_, h2, ?_, h4, g1, g2⟩
  · rw [edgeLengths_append, ← h1]
    rfl
  · rw [rightChain_append]
    exact ⟨h3, by simp only; omega⟩

theorem PathInvariant.pushFront {o : Int} {L R : List Point} {lf rf : Int}
    {keeper : DistanceKeeper} (h : PathInvariant o L R lf rf keeper) (e : Edge) (d : Int)
    (hx : keeper.IsSet e.startVertex = false) :
    PathInvariant o (L ++ [{ edge := e, startDistance := lf - e.length }]) R
      (lf - e.length) rf (keeper.Set e.startVertex d) := by
  obtain ⟨h1, h2, h3, h4, h5, h6⟩ := h
  obtain ⟨g1, g2⟩ := inPath_push keeper _ _ e.startVertex d
    (pathVertices_left o L R { edge := e, startDistance := lf - e.length }) h5 h6 hx
  refine ⟨h1, ?_, h3, ?_, g1, g2⟩
  · rw [edgeLengths_append, ← h2]
    simp only
    omega
  · rw [leftChain_append]
    refine ⟨h4, ?_⟩
    simp only [Point.EndDistance]
    omega

theorem PathInvariant.popBack {o : Int} {L R : List Point} {lf rf : Int} {pt : Point}
    {keeper : DistanceKeeper} (h : PathInvariant o L (R ++ [pt]) lf rf keeper) :
    PathInvariant o L R lf (Path.rightFlankOf R) (keeper.Unset pt.edge.endVertex) := by
  obtain ⟨h1, h2, h3, h4, h5, h6⟩ := h
  obtain ⟨g1, g2⟩ := inPath_pop keeper _ _ pt.edge.endVertex (pathVertices_right o L R pt) h5 h6
  have hc := ((rightChain_append 0 R pt).1 h3).1
  exact ⟨rightFlankOf_eq R hc, h2, hc, h4, g1, g2⟩

theorem PathInvariant.popFront {o : Int} {L R : List Point} {lf rf : Int} {pt : Point}
    {keeper : DistanceKeeper} (h : PathInvariant o (L ++ [pt]) R lf rf keeper) :
    PathInvariant o L R (Path.leftFlankOf L) rf (keeper.Unset pt.edge.startVertex) := by
  obtain ⟨h1, h2, h3, h4, h5, h6⟩ := h
  obtain ⟨g1, g2⟩ := inPath_pop keeper _ _ pt.edge.startVertex (pathVertices_left o L R pt) h5 h6
  have hc := ((leftChain_append 0 L pt).1 h4).1
  exact ⟨h1, leftFlankOf_eq L hc, h3, hc, g1, g2⟩

theorem getLast?_eq_some_append (l : List Point) (pt : Point) (h : l.getLast? = some pt) :
    l = l.dropLast ++ [pt] := by
  rcases List.eq_nil_or_concat l with rfl | ⟨b1, x, rfl⟩
  · simp at h
  · rw [List.concat_eq_append] at h ⊢
    simp only [List.getLast?_append, List.getLast?_singleton, Option.or, Option.some.injEq]
      at h
    subst h
    simp

/-! ### The paths of src/src/path.h -/

/-- `PointPushBack` on a path whose right flank is the end of its right body: a failed
push leaves everything but the instances as it was. -/
theorem Path.PointPushBack_eq (s : JunctionStorage) (used : JunctionSequentialIterator → Bool)
    (p : Path) (e : Edge) (h : p.rightBodyFlank_ = Path.rightFlankOf p.rightBody_) :
    Path.PointPushBack s used p e =
      if p.distanceKeeper_.IsSet e.endVertex then some (false, p)
      else if (Path.PointPushBackWorker s used p e.endVertex (p.rightBodyFlank_ + e.length) e
          (s.instances e.endVertex).length 0 p.instance_).2 then
        (Path.popBackInstances s p.distanceKeeper_ e.endVertex
          (Path.PointPushBackWorker s used p e.endVertex (p.rightBodyFlank_ + e.length) e
            (s.instances e.endVertex).length 0 p.instance_).1).map
          fun set => (false, { p with instance_ := set })
      else some (true,
        { p with
          instance_ := (Path.PointPushBackWorker s used p e.endVertex
            (p.rightBodyFlank_ + e.length) e (s.instances e.endVertex).length 0 p.instance_).1
          rightBody_ := p.rightBody_ ++ [{ edge := e, startDistance := p.rightBodyFlank_ }]
          distanceKeeper_ := p.distanceKeeper_.Set e.endVertex (p.rightBodyFlank_ + e.length)
          rightBodyFlank_ :=
            Point.EndDistance { edge := e, startDistance := p.rightBodyFlank_ } }) := by
  unfold Path.PointPushBack
  by_cases hset : p.distanceKeeper_.IsSet e.endVertex = true
  · simp only [hset, if_true]
  · rw [Bool.not_eq_true] at hset
    simp only [hset, Bool.false_eq_true, if_false]
    by_cases hfail : (Path.PointPushBackWorker s used p e.endVertex
        (p.rightBodyFlank_ + e.length) e (s.instances e.endVertex).length 0 p.instance_).2 = true
    · simp only [hfail, if_true, Path.PointPopBack, List.getLast?_append,
        List.getLast?_singleton, Option.or, List.dropLast_concat, Option.map_map,
        DistanceKeeper.Unset_Set _ _ _ hset, ← h]
      rfl
    · simp only [hfail, if_false]
      rfl

/-- `PointPushFront` on a path whose left flank is the start of its left body. -/
theorem Path.PointPushFront_eq (s : JunctionStorage) (used : JunctionSequentialIterator → Bool)
    (p : Path) (e : Edge) (h : p.leftBodyFlank_ = Path.leftFlankOf p.leftBody_) :
    Path.PointPushFront s used p e =
      if p.distanceKeeper_.IsSet e.startVertex then some (false, p)
      else if (Path.PointPushFrontWorker s used p e.startVertex (p.leftBodyFlank_ - e.length) e
          (s.instances e.startVertex).length 0 p.instance_).2 then
        (Path.popFrontInstances s p.distanceKeeper_ e.startVertex
          (Path.PointPushFrontWorker s used p e.startVertex (p.leftBodyFlank_ - e.length) e
            (s.instances e.startVertex).length 0 p.instance_).1).map
          fun set => (false, { p with instance_ := set })
      else some (true,
        { p with
          instance_ := (Path.PointPushFrontWorker s used p e.startVertex
            (p.leftBodyFlank_ - e.length) e (s.instances e.startVertex).length 0
            p.instance_).1
          leftBody_ := p.leftBody_ ++
            [{ edge := e, startDistance := p.leftBodyFlank_ - e.length }]
          distanceKeeper_ := p.distanceKeeper_.Set e.startVertex (p.leftBodyFlank_ - e.length)
          leftBodyFlank_ := p.leftBodyFlank_ - e.length }) := by
  unfold Path.PointPushFront
  by_cases hset : p.distanceKeeper_.IsSet e.startVertex = true
  · simp only [hset, if_true]
  · rw [Bool.not_eq_true] at hset
    simp only [hset, Bool.false_eq_true, if_false]
    by_cases hfail : (Path.PointPushFrontWorker s used p e.startVertex
        (p.leftBodyFlank_ - e.length) e (s.instances e.startVertex).length 0
        p.instance_).2 = true
    · simp only [hfail, if_true, Path.PointPopFront, List.getLast?_append,
        List.getLast?_singleton, Option.or, List.dropLast_concat, Option.map_map,
        DistanceKeeper.Unset_Set _ _ _ hset, ← h]
      rfl
    · simp only [hfail, if_false]
      rfl

theorem Path.Invariant.flank {p : Path} (h : p.Invariant) :
    p.rightBodyFlank_ = Path.rightFlankOf p.rightBody_ ∧
      p.leftBodyFlank_ = Path.leftFlankOf p.leftBody_ := by
  have h1 := rightFlankOf_eq p.rightBody_ h.rightPoints
  have h2 := leftFlankOf_eq p.leftBody_ h.leftPoints
  have h3 := h.right
  have h4 := h.left
  constructor <;> omega

theorem Path.PointPopBack_invariant (s : JunctionStorage) (p q : Path)
    (hq : Path.PointPopBack s p = some q) (h : p.Invariant) : q.Invariant := by
  unfold Path.PointPopBack at hq
  cases hl : p.rightBody_.getLast? with
  | none =>
    rw [hl] at hq
    exact Option.noConfusion hq
  | some last =>
    rw [hl] at hq
    simp only [Option.map_eq_some'] at hq
    obtain ⟨set, _, rfl⟩ := hq
    have hb := getLast?_eq_some_append _ _ hl
    unfold Path.Invariant at h ⊢
    rw [hb] at h
    exact h.popBack

theorem Path.PointPopFront_invariant (s : JunctionStorage) (p q : Path)
    (hq : Path.PointPopFront s p = some q) (h : p.Invariant) : q.Invariant := by
  unfold Path.PointPopFront at hq
  cases hl : p.leftBody_.getLast? with
  | none =>
    rw [hl] at hq
    exact Option.noConfusion hq
  | some last =>
    rw [hl] at hq
    simp only [Option.map_eq_some'] at hq
    obtain ⟨set, _, rfl⟩ := hq
    have hb := getLast?_eq_some_append _ _ hl
    unfold Path.Invariant at h ⊢
    rw [hb] at h
    exact h.popFront

theorem Path.PointPushBack_invariant (s : JunctionStorage)
    (used : JunctionSequentialIterator → Bool) (p : Path) (e : Edge) (b : Bool) (q : Path)
    (hq : Path.PointPushBack s used p e = some (b, q)) (h : p.Invariant) : q.Invariant := by
  rw [Path.PointPushBack_eq s used p e h.flank.1] at hq
  by_cases hset : p.distanceKeeper_.IsSet e.endVertex = true
  · rw [if_pos hset] at hq
    cases hq
    exact h
  · rw [if_neg hset] at hq
    rw [Bool.not_eq_true] at hset
    split at hq
    · simp only [Option.map_eq_some', Prod.mk.injEq] at hq
      obtain ⟨set, _, _, rfl⟩ := hq
      exact h
    · cases hq
      exact PathInvariant.pushBack h e _ hset

theorem Path.PointPushFront_invariant (s : JunctionStorage)
    (used : JunctionSequentialIterator → Bool) (p : Path) (e : Edge) (b : Bool) (q : Path)
    (hq : Path.PointPushFront s used p e = some (b, q)) (h : p.Invariant) : q.Invariant := by
  rw [Path.PointPushFront_eq s used p e h.flank.2] at hq
  by_cases hset : p.distanceKeeper_.IsSet e.startVertex = true
  · rw [if_pos hset] at hq
    cases hq
    exact h
  · rw [if_neg hset] at hq
    rw [Bool.not_eq_true] at hset
    split at hq
    · simp only [Option.map_eq_some', Prod.mk.injEq] at hq
      obtain ⟨set, _, _, rfl⟩ := hq
      exact h
    · cases hq
      exact PathInvariant.pushFront h e _ hset

/-- Every path that the calls of the interface build satisfies the distance invariant. -/
theorem Path.Reachable.invariant {s : JunctionStorage}
    {used : JunctionSequentialIterator → Bool} {p : Path} (h : Path.Reachable s used p) :
    p.Invariant := by
  induction h with
  | init mb ms mf vid => exact PathInvariant.init vid
  | pushBack p e b q _ hq ih => exact Path.PointPushBack_invariant s used p e b q hq ih
  | pushFront p e b q _ hq ih => exact Path.PointPushFront_invariant s used p e b q hq ih
  | popBack p q _ hq ih => exact Path.PointPopBack_invariant s p q hq ih
  | popFront p q _ hq ih => exact Path.PointPopFront_invariant s p q hq ih

/-- `PointPopBack` after a push that returned `true`. -/
theorem Path.PointPopBack_after_push (s : JunctionStorage)
    (used : JunctionSequentialIterator → Bool) (p : Path) (e : Edge) (q : Path)
    (h : p.rightBodyFlank_ = Path.rightFlankOf p.rightBody_)
    (hq : Path.PointPushBack s used p e = some (true, q)) :
    Path.PointPopBack s q =
      (Path.popBackInstances s p.distanceKeeper_ e.endVertex q.instance_).map
        fun set => { p with instance_ := set } := by
  rw [Path.PointPushBack_eq s used p e h] at hq
  by_cases hset : p.distanceKeeper_.IsSet e.endVertex = true
  · rw [if_pos hset] at hq
    cases hq
  · rw [if_neg hset] at hq
    rw [Bool.not_eq_true] at hset
    split at hq
    · simp only [Option.map_eq_some', Prod.mk.injEq] at hq
      obtain ⟨set, _, hf, _⟩ := hq
      exact Bool.noConfusion hf
    · cases hq
      simp only [Path.PointPopBack, List.getLast?_append, List.getLast?_singleton, Option.or,
        List.dropLast_concat, DistanceKeeper.Unset_Set _ _ _ hset, ← h]

/-- The path `stalePath` is built by calls of the interface. -/
theorem stalePath_reachable : Path.Reachable staleStorage unused stalePath :=
  have h0 : Path.Reachable staleStorage unused staleOrigin :=
    Path.Reachable.init 1000 100 1000 1
  have h1 := Path.Reachable.pushBack staleOrigin ⟨1, 2, 'A', 100⟩ true
    (stalePaths.getD 0 default) h0 (by decide)
  have h2 := Path.Reachable.pushBack (stalePaths.getD 0 default) ⟨2, 3, 'A', 100⟩ true
    (stalePaths.getD 1 default) h1 (by decide)
  have h3 := Path.Reachable.pushFront (stalePaths.getD 1 default) ⟨4, 1, 'A', 100⟩ true
    (stalePaths.getD 2 default) h2 (by decide)
  have h4 := Path.Reachable.popBack (stalePaths.getD 2 default) (stalePaths.getD 3 default)
    h3 (by decide)
  have h5 := Path.Reachable.popBack (stalePaths.getD 3 default) (stalePaths.getD 4 default)
    h4 (by decide)
  Path.Reachable.popFront (stalePaths.getD 4 default) stalePath h5 (by decide)

/-- What `PointPopBack` restores after a push that returned `true`. -/
theorem Path.PointPopBack_restores (s : JunctionStorage)
    (used : JunctionSequentialIterator → Bool) (p : Path) (e : Edge) (q r : Path)
    (h : p.rightBodyFlank_ = Path.rightFlankOf p.rightBody_)
    (hq : Path.PointPushBack s used p e = some (true, q))
    (hr : Path.PointPopBack s q = some r) :
    r = { p with instance_ := r.instance_ } := by
  rw [Path.PointPopBack_after_push s used p e q h hq] at hr
  simp only [Option.map_eq_some'] at hr
  obtain ⟨set, _, rfl⟩ := hr
  rfl

/-! ### The paths of SibeliaZ-LCB/path.h -/

theorem LCBPath.Init_invariant {ι : Type} (w : LCBWorkers ι) (empty : ι)
    (mb ms mu mf vid : Int) (q : LCBPath ι)
    (hq : LCBPath.Init w (LCBPath.new empty mb ms mu mf) vid = some q) : q.Invariant := by
  unfold LCBPath.Init at hq
  simp only [Option.map_eq_some'] at hq
  obtain ⟨i, _, rfl⟩ := hq
  exact PathInvariant.init vid

/-- `PointPushBack` of SibeliaZ-LCB/path.h in closed form. -/
theorem LCBPath.PointPushBack_cases {ι : Type} (w : LCBWorkers ι) (p : LCBPath ι) (e : Edge)
    (b : Bool) (q : LCBPath ι) (hq : LCBPath.PointPushBack w p e = some (b, q)) :
    (p.distanceKeeper_.IsSet e.endVertex = true ∧ b = false ∧ q = p) ∨
      (p.distanceKeeper_.IsSet e.endVertex = false ∧ b = true ∧
        q.origin_ = p.origin_ ∧ q.leftBody_ = p.leftBody_ ∧
        q.rightBody_ = p.rightBody_ ++ [{ edge := e, startDistance := p.rightBodyFlank_ }] ∧
        q.leftBodyFlank_ = p.leftBodyFlank_ ∧
        q.rightBodyFlank_ = p.rightBodyFlank_ + e.length ∧
        q.distanceKeeper_ =
          p.distanceKeeper_.Set e.endVertex (toInt32 (p.rightBodyFlank_ + e.length))) := by
  unfold LCBPath.PointPushBack at hq
  by_cases hset : p.distanceKeeper_.IsSet e.endVertex = true
  · simp only [hset, if_true, Option.some.injEq, Prod.mk.injEq] at hq
    exact Or.inl ⟨hset, hq.1.symm, hq.2.symm⟩
  · rw [if_neg hset] at hq
    rw [Bool.not_eq_true] at hset
    simp only [Option.map_eq_some', Prod.mk.injEq] at hq
    obtain ⟨i, _, hb, rfl⟩ := hq
    exact Or.inr ⟨hset, hb.symm, rfl, rfl, rfl, rfl, rfl, rfl⟩

/-- `PointPushFront` of SibeliaZ-LCB/path.h in closed form. -/
theorem LCBPath.PointPushFront_cases {ι : Type} (w : LCBWorkers ι) (p : LCBPath ι) (e : Edge)
    (b : Bool) (q : LCBPath ι) (hq : LCBPath.PointPushFront w p e = some (b, q)) :
    (p.distanceKeeper_.IsSet e.startVertex = true ∧ b = false ∧ q = p) ∨
      (p.distanceKeeper_.IsSet e.startVertex = false ∧ b = true ∧
        q.origin_ = p.origin_ ∧
        q.leftBody_ =
          p.leftBody_ ++ [{ edge := e, startDistance := p.leftBodyFlank_ - e.length }] ∧
        q.rightBody_ = p.rightBody_ ∧
        q.leftBodyFlank_ = p.leftBodyFlank_ - e.length ∧
        q.rightBodyFlank_ = p.rightBodyFlank_ ∧
        q.distanceKeeper_ =
          p.distanceKeeper_.Set e.startVertex (toInt32 (p.leftBodyFlank_ - e.length))) := by
  unfold LCBPath.PointPushFront at hq
  by_cases hset : p.distanceKeeper_.IsSet e.startVertex = true
  · simp only [hset, if_true, Option.some.injEq, Prod.mk.injEq] at hq
    exact Or.inl ⟨hset, hq.1.symm, hq.2.symm⟩
  · rw [if_neg hset] at hq
    rw [Bool.not_eq_true] at hset
    simp only [Option.map_eq_some', Prod.mk.injEq] at hq
    obtain ⟨i, _, hb, rfl⟩ := hq
    exact Or.inr ⟨hset, hb.symm, rfl, rfl, rfl, rfl, rfl, rfl⟩

theorem LCBPath.PointPushBack_keeps {ι : Type} (w : LCBWorkers ι) (p : LCBPath ι)
    (e : Edge) (b : Bool) (q : LCBPath ι)
    (hq : LCBPath.PointPushBack w p e = some (b, q)) (h : p.Invariant) : q.Invariant := by
  rcases LCBPath.PointPushBack_cases w p e b q hq with ⟨_, _, rfl⟩ | ⟨hset, _, h1, h2, h3, h4, h5, h6⟩
  · exact h
  · unfold LCBPath.Invariant
    rw [h1, h2, h3, h4, h5, h6]
    exact PathInvariant.pushBack h e _ hset

theorem LCBPath.PointPushFront_keeps {ι : Type} (w : LCBWorkers ι) (p : LCBPath ι)
    (e : Edge) (b : Bool) (q : LCBPath ι)
    (hq : LCBPath.PointPushFront w p e = some (b, q)) (h : p.Invariant) : q.Invariant := by
  rcases LCBPath.PointPushFront_cases w p e b q hq with
    ⟨_, _, rfl⟩ | ⟨hset, _, h1, h2, h3, h4, h5, h6⟩
  · exact h
  · unfold LCBPath.Invariant
    rw [h1, h2, h3, h4, h5, h6]
    exact PathInvariant.pushFront h e _ hset

/-- Every path that the calls of the interface build satisfies the distance invariant. -/
theorem LCBPath.Reachable.keeps_invariant {ι : Type} {w : LCBWorkers ι} {p : LCBPath ι}
    (h : LCBPath.Reachable w p) : p.Invariant := by
  induction h with
  | init empty mb ms mu mf vid q hq => exact LCBPath.Init_invariant w empty mb ms mu mf vid q hq
  | pushBack p e b q _ hq ih => exact LCBPath.PointPushBack_keeps w p e b q hq ih
  | pushFront p e b q _ hq ih => exact LCBPath.PointPushFront_keeps w p e b q hq ih

/-- What the invariant says of the vertices when all of them are 32-bit values. -/
theorem PathInvariant.exact {o : Int} {L R : List Point} {lf rf : Int}
    {keeper : DistanceKeeper} (h : PathInvariant o L R lf rf keeper)
    (hr : ∀ x ∈ pathVertices o L R, -2 ^ 31 ≤ x ∧ x < 2 ^ 31) :
    (∀ v, -2 ^ 31 ≤ v → v < 2 ^ 31 → (keeper.IsSet v = true ↔ v ∈ pathVertices o L R)) ∧
      (pathVertices o L R).Nodup := by
  have hmap : (pathVertices o L R).map toInt32 = pathVertices o L R := by
    conv_rhs => rw [← List.map_id (pathVertices o L R)]
    exact List.map_congr_left fun x hx => toInt32_of_range x (hr x hx).1 (hr x hx).2
  constructor
  · intro v h1 h2
    have := h.inPath v
    rw [hmap, toInt32_of_range v h1 h2] at this
    exact this
  · have := h.once
    rwa [hmap] at this

/-! ### The distance invariant by indices -/

/-- The recursive chain of a right body, by indices. -/
theorem rightChain_getElem (R : List Point) (d : Int) (h : rightChain d R) :
    (∀ a, R[0]? = some a → a.startDistance = d) ∧
      ∀ i a b, R[i]? = some a → R[i + 1]? = some b → b.startDistance = a.EndDistance := by
  induction R generalizing d with
  | nil =>
    constructor
    · intro a ha; simp at ha
    · intro i a b ha; simp at ha
  | cons pt rest ih =>
    obtain ⟨h1, h2⟩ := h
    obtain ⟨g1, g2⟩ := ih _ h2
    constructor
    · intro a ha
      simp only [List.getElem?_cons_zero, Option.some.injEq] at ha
      rw [← ha]; exact h1
    · intro i a b ha hb
      rw [List.getElem?_cons_succ] at hb
      cases i with
      | zero =>
        simp only [List.getElem?_cons_zero, Option.some.injEq] at ha
        rw [← ha]; exact g1 b hb
      | succ j =>
        rw [List.getElem?_cons_succ] at ha
        exact g2 j a b ha hb

/-- The recursive chain of a left body, by indices. -/
theorem leftChain_getElem (L : List Point) (d : Int) (h : leftChain d L) :
    (∀ a, L[0]? = some a → a.EndDistance = d) ∧
      ∀ i a b, L[i]? = some a → L[i + 1]? = some b → a.startDistance = b.EndDistance := by
  induction L generalizing d with
  | nil =>
    constructor
    · intro a ha; simp at ha
    · intro i a b ha; simp at ha
  | cons pt rest ih =>
    obtain ⟨h1, h2⟩ := h
    obtain ⟨g1, g2⟩ := ih _ h2
    constructor
    · intro a ha
      simp only [List.getElem?_cons_zero, Option.some.injEq] at ha
      rw [← ha]; exact h1
    · intro i a b ha hb
      rw [List.getElem?_cons_succ] at hb
      cases i with
      | zero =>
        simp only [List.getElem?_cons_zero, Option.some.injEq] at ha
        rw [← ha]; exact (g1 b hb).symm
      | succ j =>
        rw [List.getElem?_cons_succ] at ha
        exact g2 j a b ha hb

/-- The invariant gives the statement over the accessors. -/
theorem PathInvariant.distances {o : Int} {L R : List Point} {lf rf : Int}
    {keeper : DistanceKeeper} (h : PathInvariant o L R lf rf keeper) :
    PathSums L R (-lf) rf (-lf + rf) ∧ InPathModular o L R (fun v => keeper.IsSet v) ∧
      InPathExact o L R (fun v => keeper.IsSet v) := by
  refine ⟨⟨h.right, h.left, ?_, rightChain_getElem R 0 h.rightPoints,
    leftChain_getElem L 0 h.leftPoints⟩, ⟨h.inPath, h.once⟩, fun hr => h.exact hr⟩
  rw [h.right, h.left]

/-! ### The order of the edges of a path -/

/-- The end vertex of a right body that starts at `v`. -/
theorem rightVertexChain_append (v : Int) (R : List Point) (pt : Point) :
    rightVertexChain v (R ++ [pt]) ↔
      rightVertexChain v R ∧
        pt.edge.startVertex = (match R.getLast? with
          | some x => x.edge.endVertex
          | none => v) := by
  induction R generalizing v with
  | nil => simp [rightVertexChain]
  | cons a rest ih =>
    rw [List.cons_append]
    simp only [rightVertexChain]
    rw [ih]
    have : (a :: rest).getLast? = some ((rest.getLast?).getD a) := by
      cases rest with
      | nil => rfl
      | cons b r => simp [List.getLast?_cons_cons, List.getLast?_eq_getLast]
    rw [this]
    cases hr : rest.getLast? with
    | none => simp [and_assoc]
    | some x => simp [and_assoc]

theorem leftVertexChain_append (v : Int) (L : List Point) (pt : Point) :
    leftVertexChain v (L ++ [pt]) ↔
      leftVertexChain v L ∧
        pt.edge.endVertex = (match L.getLast? with
          | some x => x.edge.startVertex
          | none => v) := by
  induction L generalizing v with
  | nil => simp [leftVertexChain]
  | cons a rest ih =>
    rw [List.cons_append]
    simp only [leftVertexChain]
    rw [ih]
    have : (a :: rest).getLast? = some ((rest.getLast?).getD a) := by
      cases rest with
      | nil => rfl
      | cons b r => simp [List.getLast?_cons_cons, List.getLast?_eq_getLast]
    rw [this]
    cases hr : rest.getLast? with
    | none => simp [and_assoc]
    | some x => simp [and_assoc]

theorem rightVertexChain_chained (v : Int) (R : List Point) (h : rightVertexChain v R) :
    Chained (R.map fun pt => pt.edge) ∧ ∀ a, R.head? = some a → a.edge.startVertex = v := by
  induction R generalizing v with
  | nil => exact ⟨List.chain'_nil, fun a ha => by simp at ha⟩
  | cons pt rest ih =>
    obtain ⟨h1, h2⟩ := h
    obtain ⟨g1, g2⟩ := ih _ h2
    refine ⟨?_, fun a ha => ?_⟩
    · cases rest with
      | nil => exact List.chain'_singleton _
      | cons b r =>
        unfold Chained at g1 ⊢
        simp only [List.map_cons] at g1 ⊢
        rw [List.chain'_cons]
        exact ⟨(g2 b rfl).symm, g1⟩
    · simp only [List.head?_cons, Option.some.injEq] at ha
      rw [← ha]; exact h1

theorem leftVertexChain_chained (v : Int) (L : List Point) (h : leftVertexChain v L) :
    List.Chain' (fun a b : Edge => b.endVertex = a.startVertex) (L.map fun pt => pt.edge) ∧
      ∀ a, L.head? = some a → a.edge.endVertex = v := by
  induction L generalizing v with
  | nil => exact ⟨List.chain'_nil, fun a ha => by simp at ha⟩
  | cons pt rest ih =>
    obtain ⟨h1, h2⟩ := h
    obtain ⟨g1, g2⟩ := ih _ h2
    refine ⟨?_, fun a ha => ?_⟩
    · cases rest with
      | nil => exact List.chain'_singleton _
      | cons b r =>
        simp only [List.map_cons] at g1 ⊢
        rw [List.chain'_cons]
        exact ⟨g2 b rfl, g1⟩
    · simp only [List.head?_cons, Option.some.injEq] at ha
      rw [← ha]; exact h1

/-- The edges of a path whose bodies chain at the origin, read from the leftmost to the
rightmost, are chained. -/
theorem pathEdges_chained (o : Int) (L R : List Point) (hL : leftVertexChain o L)
    (hR : rightVertexChain o R) : Chained (pathEdges L R) := by
  obtain ⟨l1, l2⟩ := leftVertexChain_chained o L hL
  obtain ⟨r1, r2⟩ := rightVertexChain_chained o R hR
  unfold Chained pathEdges
  rw [List.chain'_append]
  refine ⟨?_, r1, ?_⟩
  · rw [List.map_reverse, List.chain'_reverse]
    exact l1
  · intro x hx y hy
    rw [List.map_reverse, List.getLast?_reverse, List.head?_map] at hx
    rw [List.head?_map] at hy
    simp only [Option.mem_def, Option.map_eq_some'] at hx hy
    obtain ⟨a, ha, rfl⟩ := hx
    obtain ⟨b, hb, rfl⟩ := hy
    rw [l2 a ha, r2 b hb]

/-- A right body of two or more edges, read from its last point to its first, is not
chained when no vertex occurs twice. -/
theorem not_chained_reverse (o : Int) (R : List Point) (hR : rightVertexChain o R)
    (hnd : ((o :: R.map fun pt => pt.edge.endVertex).map toInt32).Nodup)
    (hlen : 2 ≤ R.length) : ¬ Chained (R.reverse.map fun pt => pt.edge) := by
  rcases List.eq_nil_or_concat R with rfl | ⟨R1, b, rfl⟩
  · simp at hlen
  rcases List.eq_nil_or_concat R1 with rfl | ⟨R2, a, rfl⟩
  · simp at hlen
  rw [List.concat_eq_append, List.concat_eq_append] at hR hnd ⊢
  intro hc
  unfold Chained at hc
  simp only [List.reverse_append, List.reverse_cons, List.reverse_nil, List.nil_append,
    List.singleton_append, List.map_cons, List.cons_append] at hc
  rw [List.chain'_cons] at hc
  have hba : b.edge.endVertex = a.edge.startVertex := hc.1
  have h1 := (rightVertexChain_append o (R2 ++ [a]) b).1 hR
  have h2 := (rightVertexChain_append o R2 a).1 h1.1
  have hmem : a.edge.startVertex ∈ o :: R2.map fun pt => pt.edge.endVertex := by
    rw [h2.2]
    cases hl : R2.getLast? with
    | none => simp
    | some x =>
      simp only [List.mem_cons, List.mem_map]
      exact Or.inr ⟨x, List.mem_of_getLast?_eq_some hl, rfl⟩
  have hnd2 := List.Nodup.of_map _ hnd
  simp only [List.map_append, List.map_cons, List.map_nil, ← List.cons_append,
    List.append_assoc] at hnd2
  rw [List.nodup_append] at hnd2
  exact hnd2.2.2 hmem (by rw [← hba]; simp)

/-- The bodies after a call of `PointPushBack` of src/src/path.h that returns. -/
theorem Path.PointPushBack_bodies (s : JunctionStorage)
    (used : JunctionSequentialIterator → Bool) (p : Path) (e : Edge) (b : Bool) (q : Path)
    (h : p.rightBodyFlank_ = Path.rightFlankOf p.rightBody_)
    (hq : Path.PointPushBack s used p e = some (b, q)) :
    q.origin_ = p.origin_ ∧ q.leftBody_ = p.leftBody_ ∧
      (q.rightBody_ = p.rightBody_ ∨
        q.rightBody_ = p.rightBody_ ++ [{ edge := e, startDistance := p.rightBodyFlank_ }]) := by
  rw [Path.PointPushBack_eq s used p e h] at hq
  by_cases hset : p.distanceKeeper_.IsSet e.endVertex = true
  · rw [if_pos hset] at hq
    cases hq
    exact ⟨rfl, rfl, Or.inl rfl⟩
  · rw [if_neg hset] at hq
    split at hq
    · simp only [Option.map_eq_some', Prod.mk.injEq] at hq
      obtain ⟨set, _, _, rfl⟩ := hq
      exact ⟨rfl, rfl, Or.inl rfl⟩
    · cases hq
      exact ⟨rfl, rfl, Or.inr rfl⟩

/-- The bodies after a call of `PointPushFront` of src/src/path.h that returns. -/
theorem Path.PointPushFront_bodies (s : JunctionStorage)
    (used : JunctionSequentialIterator → Bool) (p : Path) (e : Edge) (b : Bool) (q : Path)
    (h : p.leftBodyFlank_ = Path.leftFlankOf p.leftBody_)
    (hq : Path.PointPushFront s used p e = some (b, q)) :
    q.origin_ = p.origin_ ∧ q.rightBody_ = p.rightBody_ ∧
      (q.leftBody_ = p.leftBody_ ∨
        q.leftBody_ =
          p.leftBody_ ++ [{ edge := e, startDistance := p.leftBodyFlank_ - e.length }]) := by
  rw [Path.PointPushFront_eq s used p e h] at hq
  by_cases hset : p.distanceKeeper_.IsSet e.startVertex = true
  · rw [if_pos hset] at hq
    cases hq
    exact ⟨rfl, rfl, Or.inl rfl⟩
  · rw [if_neg hset] at hq
    split at hq
    · simp only [Option.map_eq_some', Prod.mk.injEq] at hq
      obtain ⟨set, _, _, rfl⟩ := hq
      exact ⟨rfl, rfl, Or.inl rfl⟩
    · cases hq
      exact ⟨rfl, rfl, Or.inr rfl⟩

/-- A path of src/src/path.h built by extending pushes is built by calls of the interface,
and its bodies chain at the origin. -/
theorem Path.Extended.chains {s : JunctionStorage} {used : JunctionSequentialIterator → Bool}
    {p : Path} (h : Path.Extended s used p) :
    Path.Reachable s used p ∧ rightVertexChain p.origin_ p.rightBody_ ∧
      leftVertexChain p.origin_ p.leftBody_ := by
  induction h with
  | init mb ms mf vid => exact ⟨Path.Reachable.init mb ms mf vid, trivial, trivial⟩
  | pushBack p e b q _ he hq ih =>
    obtain ⟨hr, h1, h2⟩ := ih
    obtain ⟨g1, g2, g3⟩ := Path.PointPushBack_bodies s used p e b q hr.invariant.flank.1 hq
    refine ⟨Path.Reachable.pushBack p e b q hr hq, ?_, ?_⟩
    · rw [g1]
      rcases g3 with g3 | g3
      · rw [g3]; exact h1
      · rw [g3]
        exact (rightVertexChain_append _ _ _).2 ⟨h1, he⟩
    · rw [g1, g2]; exact h2
  | pushFront p e b q _ he hq ih =>
    obtain ⟨hr, h1, h2⟩ := ih
    obtain ⟨g1, g2, g3⟩ := Path.PointPushFront_bodies s used p e b q hr.invariant.flank.2 hq
    refine ⟨Path.Reachable.pushFront p e b q hr hq, ?_, ?_⟩
    · rw [g1, g2]; exact h1
    · rw [g1]
      rcases g3 with g3 | g3
      · rw [g3]; exact h2
      · rw [g3]
        exact (leftVertexChain_append _ _ _).2 ⟨h2, he⟩

/-- A path of SibeliaZ-LCB/path.h built by extending pushes is built by calls of the
interface, and its bodies chain at the origin. -/
theorem LCBPath.Extended.chains_at_origin {ι : Type} {w : LCBWorkers ι} {p : LCBPath ι}
    (h : LCBPath.Extended w p) :
    LCBPath.Reachable w p ∧ rightVertexChain p.origin_ p.rightBody_ ∧
      leftVertexChain p.origin_ p.leftBody_ := by
  induction h with
  | init empty mb ms mu mf vid q hq =>
    refine ⟨LCBPath.Reachable.init empty mb ms mu mf vid q hq, ?_, ?_⟩
    · unfold LCBPath.Init at hq
      simp only [Option.map_eq_some'] at hq
      obtain ⟨i, _, rfl⟩ := hq
      trivial
    · unfold LCBPath.Init at hq
      simp only [Option.map_eq_some'] at hq
      obtain ⟨i, _, rfl⟩ := hq
      trivial
  | pushBack p e b q _ he hq ih =>
    obtain ⟨hr, h1, h2⟩ := ih
    refine ⟨LCBPath.Reachable.pushBack p e b q hr hq, ?_⟩
    rcases LCBPath.PointPushBack_cases w p e b q hq with
      ⟨_, _, rfl⟩ | ⟨_, _, g1, g2, g3, _, _, _⟩
    · exact ⟨h1, h2⟩
    · rw [g1, g2, g3]
      exact ⟨(rightVertexChain_append _ _ _).2 ⟨h1, he⟩, h2⟩
  | pushFront p e b q _ he hq ih =>
    obtain ⟨hr, h1, h2⟩ := ih
    refine ⟨LCBPath.Reachable.pushFront p e b q hr hq, ?_⟩
    rcases LCBPath.PointPushFront_cases w p e b q hq with
      ⟨_, _, rfl⟩ | ⟨_, _, g1, g2, g3, _, _, _⟩
    · exact ⟨h1, h2⟩
    · rw [g1, g2, g3]
      exact ⟨h1, (leftVertexChain_append _ _ _).2 ⟨h2, he⟩⟩

/-- The vertices of the right body are among the vertices of the path. -/
theorem nodup_right_of_pathVertices (o : Int) (L R : List Point)
    (h : ((pathVertices o L R).map toInt32).Nodup) :
    ((o :: R.map fun pt => pt.edge.endVertex).map toInt32).Nodup := by
  unfold pathVertices at h
  rw [← List.cons_append, List.map_append] at h
  exact (List.nodup_append.1 h).1

/-- What the two loops of `DumpPath(std::vector<Edge> &)` give on bodies that chain at the
origin: the edges of the path with the right body from its last point to its first. This is
the path order when the right body has at most one point, and is not chained when it has
two or more. -/
theorem dumped_edges (o : Int) (L R : List Point) (keeper : DistanceKeeper) (lf rf : Int)
    (hR : rightVertexChain o R) (hinv : PathInvariant o L R lf rf keeper) :
    ((L.reverse.map fun pt => pt.edge) ++ (R.reverse.map fun pt => pt.edge)).length =
        L.length + R.length ∧
      (R.length ≤ 1 →
        (L.reverse.map fun pt => pt.edge) ++ (R.reverse.map fun pt => pt.edge) =
          pathEdges L R) ∧
      (2 ≤ R.length →
        ¬ Chained ((L.reverse.map fun pt => pt.edge) ++ (R.reverse.map fun pt => pt.edge))) := by
  refine ⟨by simp, ?_, ?_⟩
  · intro hlen
    have : R.reverse = R := by
      match R, hlen with
      | [], _ => rfl
      | [_], _ => rfl
    rw [this]; rfl
  · intro hlen hc
    unfold Chained at hc
    rw [List.chain'_append] at hc
    exact not_chained_reverse o R hR (nodup_right_of_pathVertices o L R hinv.once) hlen hc.2.1

/-! ## Claims on the fork builder and the bubble enumerator -/

/-- C1: for every vertex with instance list `I`, forward bubbles `F` and backward bubbles
`B`, `CheckIfSource` appends to the source list the forks `Fork(I[j], I[k])` of a list of
index pairs that holds no pair twice and holds `(j, k)` exactly when `k` is in `F[j]`, `k` is
not in `B[j]` and one of `I[j]`, `I[k]` is on the positive strand; both indices of such a
pair are indices of `I`. -/
theorem CheckIfSource_source_forks (s : JunctionStorage) (finder : BlocksFinder)
    (vertex : Int) :
    ∃ pairs : List (Nat × Nat),
      (CheckIfSource s finder vertex).source_ =
        finder.source_ ++ pairs.map (fun p =>
          Fork.new ((s.instances vertex).getD p.1 default)
            ((s.instances vertex).getD p.2 default)) ∧
      pairs.Nodup ∧
      (∀ j k, (j, k) ∈ pairs ↔
        (k ∈ (BubbledBranchesForward s finder.maxBranchSize_ (s.instances vertex)).getD j [] ∧
          ¬ k ∈ (BubbledBranchesBackward s finder.maxBranchSize_ (s.instances vertex)).getD j []
          ∧ (((s.instances vertex).getD j default).positiveStrand = true ∨
            ((s.instances vertex).getD k default).positiveStrand = true))) ∧
      ∀ j k, (j, k) ∈ pairs → j < k ∧ k < (s.instances vertex).length := by
  have hspec := forkPairs_spec (s.instances vertex)
    (BubbledBranchesForward s finder.maxBranchSize_ (s.instances vertex))
    (BubbledBranchesBackward s finder.maxBranchSize_ (s.instances vertex))
    (nodup_BubbledBranchesForward s _ _)
  refine ⟨_, rfl, hspec.1, hspec.2, ?_⟩
  intro j k h
  exact bounds_of_mem_Forward s _ _ j k ((hspec.2 j k).1 h).1

/-- C2: for every vertex with instance list `I`, forward bubbles `F` and backward bubbles
`B`, `CheckIfSource` appends to the sink list the forks `Fork(I[j], I[k])` of a list of index
pairs that holds no pair twice and holds `(j, k)` exactly when `k` is in `B[j]`, `k` is not
in `F[j]` and one of `I[j]`, `I[k]` is on the positive strand; both indices of such a pair
are indices of `I`. -/
theorem CheckIfSource_sink_forks (s : JunctionStorage) (finder : BlocksFinder)
    (vertex : Int) :
    ∃ pairs : List (Nat × Nat),
      (CheckIfSource s finder vertex).sink_ =
        finder.sink_ ++ pairs.map (fun p =>
          Fork.new ((s.instances vertex).getD p.1 default)
            ((s.instances vertex).getD p.2 default)) ∧
      pairs.Nodup ∧
      (∀ j k, (j, k) ∈ pairs ↔
        (k ∈ (BubbledBranchesBackward s finder.maxBranchSize_ (s.instances vertex)).getD j [] ∧
          ¬ k ∈ (BubbledBranchesForward s finder.maxBranchSize_ (s.instances vertex)).getD j []
          ∧ (((s.instances vertex).getD j default).positiveStrand = true ∨
            ((s.instances vertex).getD k default).positiveStrand = true))) ∧
      ∀ j k, (j, k) ∈ pairs → j < k ∧ k < (s.instances vertex).length := by
  have hspec := forkPairs_spec (s.instances vertex)
    (BubbledBranchesBackward s finder.maxBranchSize_ (s.instances vertex))
    (BubbledBranchesForward s finder.maxBranchSize_ (s.instances vertex))
    (nodup_BubbledBranchesBackward s _ _)
  refine ⟨_, rfl, hspec.1, hspec.2, ?_⟩
  intro j k h
  exact bounds_of_mem_Backward s _ _ j k ((hspec.2 j k).1 h).1

/-- C3: for an instance list `I` of length `n` and indices `j, k < n`, `BubbledBranchesForward`
puts `k` in `bubbles[j]` if and only if `j < k` and either both instances have a valid forward
neighbour and their outgoing labels fall in the same character bucket, or some vertex is
reached by the bounded forward walks of both. -/
theorem BubbledBranchesForward_mem_iff (s : JunctionStorage) (maxBranchSize : Int)
    (inst : List JunctionSequentialIterator) (j k : Nat)
    (hj : j < inst.length) (hk : k < inst.length) :
    k ∈ (BubbledBranchesForward s maxBranchSize inst).getD j [] ↔
      j < k ∧
        (((inst[j].plus 1).Valid s = true ∧ (inst[k].plus 1).Valid s = true ∧
            MakeUpChar (s.char inst[j]) = MakeUpChar (s.char inst[k])) ∨
          ∃ w, reachesForward s maxBranchSize inst[j] w ∧
            reachesForward s maxBranchSize inst[k] w) := by
  rw [mem_BubbledBranchesForward_getD s maxBranchSize inst j k hj,
    List.getD_eq_getElem _ _ hj, List.getD_eq_getElem _ _ hk]
  constructor
  · rintro ⟨h1, _, h3⟩
    exact ⟨h1, h3⟩
  · rintro ⟨h1, h3⟩
    exact ⟨h1, hk, h3⟩

/-- C3 at the two instances of vertex 2 of `exampleStorage`: they leave through edges of
the same bucket, so index 1 is recorded in row 0. -/
theorem BubbledBranchesForward_mem_iff_witness :
    1 ∈ (BubbledBranchesForward exampleStorage 50 (exampleStorage.instances 2)).getD 0 [] :=
  (BubbledBranchesForward_mem_iff exampleStorage 50 (exampleStorage.instances 2) 0 1
    (by decide) (by decide)).2 ⟨by decide, Or.inl ⟨by decide, by decide, by decide⟩⟩

/-! ## Claims on pairing and emission -/

/-- C4: in `FindBlocksPwise`, when some sink is not less than the source `u`, the sink `v`
paired with `u` is a minimum covering sink: `v` is in the sink list, `v` is not less than
`u`, every sink not less than `u` is not less than `v`, and `v` stands in the sorted sink
vector at an index before which every element is less than `u`; the loop body is run with
this `v`. -/
theorem pairedSink_minimum_covering (s : JunctionStorage) (finder : BlocksFinder) (u : Fork)
    (h : ∃ w ∈ finder.sink_, Fork.lt s w u = false) :
    ∃ v, pairedSink s (sortForks s finder.sink_) u = some v ∧
      v ∈ finder.sink_ ∧ Fork.lt s v u = false ∧
      (∀ w ∈ finder.sink_, Fork.lt s w u = false → Fork.lt s w v = false) ∧
      (∃ i, (sortForks s finder.sink_).get? i = some v ∧
        ∀ j, j < i → Fork.lt s ((sortForks s finder.sink_).getD j default) u = true) ∧
      pairStep s { finder with sink_ := sortForks s finder.sink_ } u =
        some (pairBody s { finder with sink_ := sortForks s finder.sink_ } u v) := by
  obtain ⟨w, hw, hwu⟩ := h
  obtain ⟨v, hv, hmem, hvu, hmin, _, hbefore⟩ :=
    pairedSink_sorted_some s (sortForks s finder.sink_) u (sortForks_sorted s finder.sink_)
      ⟨w, (mem_sortForks s finder.sink_ w).2 hw, hwu⟩
  refine ⟨v, hv, (mem_sortForks s finder.sink_ v).1 hmem, hvu, ?_, ?_, ?_⟩
  · intro w' hw' hwu'
    exact hmin w' ((mem_sortForks s finder.sink_ w').2 hw') hwu'
  · exact ⟨lowerBound s (sortForks s finder.sink_) u, hv, hbefore⟩
  · simp only [pairStep, hv]

/-- C4 at the source and the sink of `exampleStorage`. -/
theorem pairedSink_minimum_covering_witness :
    (∃ w ∈ exampleFinder.sink_, Fork.lt exampleStorage w exampleSource = false) ∧
      ∃ v, pairedSink exampleStorage (sortForks exampleStorage exampleFinder.sink_)
          exampleSource = some v ∧ v ∈ exampleFinder.sink_ :=
  ⟨⟨exampleSink, by decide, by decide⟩,
    (pairedSink_minimum_covering exampleStorage exampleFinder exampleSource
      ⟨exampleSink, by decide, by decide⟩).imp fun _ hv => ⟨hv.1, hv.2.1⟩⟩

/-- C5: when the loop of `FindBlocksPwise` emits for the source `u` and its paired sink `v`
with block id `b` (the counter after the increment), it pushes two instances, branch 0
first: for branch `l`, `BlockInstance(+b, chr(v.branch[l]), pos(u.branch[l]),
pos(v.branch[l]) + k)` if `v.branch[l]` is on the positive strand and
`BlockInstance(-b, chr(v.branch[l]), pos(v.branch[l]) - k, pos(u.branch[l]))` otherwise. -/
theorem pairStep_emits_instances (s : JunctionStorage) (finder : BlocksFinder) (u v : Fork)
    (hv : pairedSink s finder.sink_ u = some v)
    (hc : ChainLength s u v ≥ finder.minBlockSize_) :
    ∃ finder' e0 e1, pairStep s finder u = some finder' ∧
      finder'.blocksFound_ = finder.blocksFound_ + 1 ∧
      finder'.blocksInstance_ = finder.blocksInstance_ ++ [e0, e1] ∧
      e0 = (if v.branch0.positiveStrand = true then
          BlockInstance.new finder'.blocksFound_ v.branch0.chrId (s.position u.branch0)
            (s.position v.branch0 + finder.k_)
        else
          BlockInstance.new (-finder'.blocksFound_) v.branch0.chrId
            (s.position v.branch0 - finder.k_) (s.position u.branch0)) ∧
      e1 = (if v.branch1.positiveStrand = true then
          BlockInstance.new finder'.blocksFound_ v.branch1.chrId (s.position u.branch1)
            (s.position v.branch1 + finder.k_)
        else
          BlockInstance.new (-finder'.blocksFound_) v.branch1.chrId
            (s.position v.branch1 - finder.k_) (s.position u.branch1)) := by
  refine ⟨pairBody s finder u v, emitBranch s finder.k_ (finder.blocksFound_ + 1) u v 0,
    emitBranch s finder.k_ (finder.blocksFound_ + 1) u v 1, by simp only [pairStep, hv],
    ?_, ?_, ?_, ?_⟩
  · rw [pairBody_of_ge s finder u v hc]
  · rw [pairBody_of_ge s finder u v hc]
  · rw [pairBody_of_ge s finder u v hc]
    rfl
  · rw [pairBody_of_ge s finder u v hc]
    rfl

/-- C5 at the source and the sink of `exampleStorage`: both branches are on the positive
strand and the instances are `(+1, chr, 0, 400 + 21)`. -/
theorem pairStep_emits_instances_witness :
    ∃ finder', pairStep exampleStorage exampleFinder exampleSource = some finder' ∧
      finder'.blocksInstance_ =
        [{ id_ := 1, start_ := 0, end_ := 421, chr_ := 1 },
          { id_ := 1, start_ := 0, end_ := 421, chr_ := 0 }] := by
  obtain ⟨finder', e0, e1, h1, h2, h3, h4, h5⟩ :=
    pairStep_emits_instances exampleStorage exampleFinder exampleSource exampleSink
      (by decide) (by decide)
  refine ⟨finder', h1, ?_⟩
  rw [h3, h4, h5, h2]
  decide

/-- C6: for a source `u` whose paired sink `v` has the same chromosome on both branches,
the loop of `FindBlocksPwise` pushes block instances for `(u, v)` if and only if
`min(|pos(u.branch[0]) - pos(v.branch[0])|, |pos(u.branch[1]) - pos(v.branch[1])|)` is at
least `minBlockSize`; otherwise it leaves the finder as it is. -/
theorem pairStep_emits_iff (s : JunctionStorage) (finder : BlocksFinder) (u v : Fork)
    (hv : pairedSink s finder.sink_ u = some v)
    (_hchr : u.branch0.chrId = v.branch0.chrId ∧ u.branch1.chrId = v.branch1.chrId) :
    ((∃ finder', pairStep s finder u = some finder' ∧
        finder'.blocksInstance_ ≠ finder.blocksInstance_) ↔
      min (((s.position u.branch0 : Int) - s.position v.branch0).natAbs : Int)
        (((s.position u.branch1 : Int) - s.position v.branch1).natAbs : Int) ≥
          finder.minBlockSize_) ∧
    (¬ min (((s.position u.branch0 : Int) - s.position v.branch0).natAbs : Int)
        (((s.position u.branch1 : Int) - s.position v.branch1).natAbs : Int) ≥
          finder.minBlockSize_ → pairStep s finder u = some finder) := by
  have hstep : pairStep s finder u = some (pairBody s finder u v) := by
    simp only [pairStep, hv]
  have hchain : ChainLength s u v =
      min (((s.position u.branch0 : Int) - s.position v.branch0).natAbs : Int)
        (((s.position u.branch1 : Int) - s.position v.branch1).natAbs : Int) := rfl
  rw [← hchain, hstep]
  constructor
  · constructor
    · rintro ⟨finder', h1, h2⟩
      by_contra hc
      rw [pairBody_of_lt s finder u v hc] at h1
      exact h2 (by rw [← Option.some.inj h1])
    · intro hc
      refine ⟨_, rfl, ?_⟩
      rw [pairBody_of_ge s finder u v hc]
      intro h
      have := congrArg List.length h
      simp at this
  · intro hc
    rw [pairBody_of_lt s finder u v hc]

/-- C6 at the source and the sink of `exampleStorage`, whose chain length is 400. -/
theorem pairStep_emits_iff_witness :
    ∃ finder', pairStep exampleStorage exampleFinder exampleSource = some finder' ∧
      finder'.blocksInstance_ ≠ exampleFinder.blocksInstance_ :=
  (pairStep_emits_iff exampleStorage exampleFinder exampleSource exampleSink (by decide)
    (by decide)).1.2 (by decide)

/-- C7 on the code: over `mismatchStorage` the only source lies on chromosomes 1 and 0, the
sink paired with it lies on chromosomes 3 and 2, and `FindBlocks` still advances the block
counter and pushes two block instances for the pair. -/
theorem FindBlocks_emits_on_chromosome_mismatch :
    (FindBlocks mismatchStorage (BlocksFinder.new 21) 50 50 0).map
        (fun finder => (finder.source_, finder.sink_, finder.blocksFound_,
          finder.blocksInstance_)) =
      some
        ([{ branch0 := { chrId := 1, idx := 0, positiveStrand := true }
            branch1 := { chrId := 0, idx := 0, positiveStrand := true } }],
          [{ branch0 := { chrId := 3, idx := 1, positiveStrand := true }
             branch1 := { chrId := 2, idx := 1, positiveStrand := true } }],
          1,
          [{ id_ := 1, start_ := 300, end_ := 121, chr_ := 3 },
            { id_ := 1, start_ := 300, end_ := 121, chr_ := 2 }]) := by
  decide

/-- C8 on the code: over `noSinkStorage` the enumeration finds one source and no sink, and
`FindBlocksPwise` dereferences the end of the empty sink vector: `FindBlocks` has no
result. -/
theorem FindBlocks_undefined_without_sink :
    ((shuffleOf noSinkStorage).foldl (CheckIfSource noSinkStorage)
        { BlocksFinder.new 21 with minBlockSize_ := 50, maxBranchSize_ := 50 }).source_ =
      [{ branch0 := { chrId := 1, idx := 0, positiveStrand := true }
         branch1 := { chrId := 0, idx := 0, positiveStrand := true } }] ∧
    ((shuffleOf noSinkStorage).foldl (CheckIfSource noSinkStorage)
        { BlocksFinder.new 21 with minBlockSize_ := 50, maxBranchSize_ := 50 }).sink_ = [] ∧
    FindBlocks noSinkStorage (BlocksFinder.new 21) 50 50 0 = none := by
  decide

/-! ## Claims on the emitted block instances -/

/-- C9: after `FindBlocks` on a finder whose output list is empty, as it is in a newly
constructed finder, with `n` the final value of the block counter and `n < 2^31`, so that
no block id is changed when the constructor of `BlockInstance` narrows it to `int`: the
output list holds `2 n` block instances, its absolute ids read in order are
`1, 1, 2, 2, ..., n, n`, and the instances at the positions `2 i` and `2 i + 1` are the
branch-0 and the branch-1 instance of one source and its paired sink, made with the counter
at `i + 1`. -/
theorem FindBlocks_block_ids (s : JunctionStorage) (finder : BlocksFinder)
    (minBlockSize maxBranchSize maxFlankingSize : Int) (finder' : BlocksFinder)
    (hempty : finder.blocksInstance_ = [])
    (h : FindBlocks s finder minBlockSize maxBranchSize maxFlankingSize = some finder')
    (hn : finder'.blocksFound_ < 2 ^ 31) :
    ∃ n : Nat, finder'.blocksFound_ = n ∧ finder'.blocksInstance_.length = 2 * n ∧
      finder'.blocksInstance_.map (fun x => x.id_.natAbs) =
        (List.range n).flatMap (fun i => [i + 1, i + 1]) ∧
      ∀ i, i < n → ∃ u v, u ∈ finder'.source_ ∧ v ∈ finder'.sink_ ∧
        pairedSink s finder'.sink_ u = some v ∧
        finder'.blocksInstance_.get? (2 * i) =
          some (emitBranch s finder.k_ (i + 1) u v 0) ∧
        finder'.blocksInstance_.get? (2 * i + 1) =
          some (emitBranch s finder.k_ (i + 1) u v 1) := by
  unfold FindBlocks at h
  simp only at h
  obtain ⟨hk, h0, hi, _⟩ := foldl_CheckIfSource_fields s (shuffleOf s)
    { finder with
      blocksFound_ := 0
      minBlockSize_ := minBlockSize
      maxBranchSize_ := maxBranchSize
      maxFlankingSize_ := maxFlankingSize }
  have := FindBlocksPwise_ids s _ finder' h0 (hi.trans hempty) h hn
  rw [hk] at this
  exact this

/-- C9 at `exampleStorage`: `FindBlocks` on a new finder ends with the counter at 1 and the
two instances of block 1. -/
theorem FindBlocks_block_ids_witness :
    FindBlocks exampleStorage (BlocksFinder.new 21) 50 50 0 = some exampleResult ∧
      ∃ n : Nat, exampleResult.blocksFound_ = n ∧
        exampleResult.blocksInstance_.length = 2 * n ∧
        exampleResult.blocksInstance_.map (fun x => x.id_.natAbs) =
          (List.range n).flatMap (fun i => [i + 1, i + 1]) :=
  ⟨by decide,
    (FindBlocks_block_ids exampleStorage (BlocksFinder.new 21) 50 50 0 exampleResult rfl
      (by decide) (by decide)).imp
      fun _ hn => ⟨hn.1, hn.2.1, hn.2.2.1⟩⟩

/-- C12 on the code: the sinks that the enumeration stores over `tieStorage` include two
forks that agree on both strands, both chromosomes and the position of `branch[0]` and have
`branch[1]` at the positions 100 and 300; `Fork::operator<` puts neither before the other,
while the lexicographic order of the specification puts the first before the second. -/
theorem Fork_lt_ignores_branch1_position :
    (enumeration tieStorage (BlocksFinder.new 21) 50 50 0).sink_ =
        [tieSink1, tieSink2, tieSink3] ∧
      tieSink1.branch1.GetPosition tieStorage = 100 ∧
      tieSink2.branch1.GetPosition tieStorage = 300 ∧
      Fork.lt tieStorage tieSink1 tieSink2 = false ∧
      Fork.lt tieStorage tieSink2 tieSink1 = false ∧
      Fork.ltLexicographic tieStorage tieSink1 tieSink2 = true := by
  decide

/-- C13: the fork built by `Fork(a, b)` has `branch[1]` not less than `branch[0]` under the
instance comparison and its two branches are `a` and `b`; every fork in the source and sink
lists after the enumeration phase of `FindBlocks` on a newly constructed finder has
`branch[1]` not less than `branch[0]`. The first part holds for every asymmetric instance
comparison in the place of the comparison by index. -/
theorem Fork_new_canonical (a b : JunctionSequentialIterator) (s : JunctionStorage) (k : Nat)
    (minBlockSize maxBranchSize maxFlankingSize : Int) :
    (Fork.new a b).branch1.lt (Fork.new a b).branch0 = false ∧
      (((Fork.new a b).branch0 = a ∧ (Fork.new a b).branch1 = b) ∨
        ((Fork.new a b).branch0 = b ∧ (Fork.new a b).branch1 = a)) ∧
      (∀ f, f ∈ (enumeration s (BlocksFinder.new k) minBlockSize maxBranchSize
            maxFlankingSize).source_ ∨
          f ∈ (enumeration s (BlocksFinder.new k) minBlockSize maxBranchSize
            maxFlankingSize).sink_ →
        f.branch1.lt f.branch0 = false) ∧
      ∀ less : JunctionSequentialIterator → JunctionSequentialIterator → Bool,
        (∀ x y, less x y = true → less y x = false) →
        less (Fork.newWith less a b).branch1 (Fork.newWith less a b).branch0 = false := by
  have hnew : ∀ x y : JunctionSequentialIterator,
      (Fork.new x y).branch1.lt (Fork.new x y).branch0 = false := by
    intro x y
    unfold Fork.new
    split
    · rename_i h
      simp only [JunctionSequentialIterator.lt, decide_eq_true_eq, decide_eq_false_iff_not,
        not_lt] at h ⊢
      omega
    · rename_i h
      simpa using h
  refine ⟨hnew a b, ?_, ?_, ?_⟩
  · unfold Fork.new
    split
    · exact Or.inl ⟨rfl, rfl⟩
    · exact Or.inr ⟨rfl, rfl⟩
  · apply stored_forall
    · intro f hf
      simp [BlocksFinder.new] at hf
    · intro x y _
      exact hnew x y
  · intro less hasym
    unfold Fork.newWith
    split
    · rename_i h
      exact hasym a b h
    · rename_i h
      simpa using h

/-- C16 fails as stated: over `invertedStorage` the enumeration stores the fork of vertex 1,
with branches on the strands `+` and `-`, as a source, and the fork of vertex -1, made of
the same two occurrences on the opposite strands, as a sink. -/
theorem twins_stored_counterexample :
    ∃ f g, f ∈ (enumeration invertedStorage (BlocksFinder.new 21) 50 50 0).source_ ∧
      g ∈ (enumeration invertedStorage (BlocksFinder.new 21) 50 50 0).sink_ ∧
      Fork.twins f g :=
  ⟨{ branch0 := { chrId := 0, idx := 0, positiveStrand := true }
     branch1 := { chrId := 1, idx := 1, positiveStrand := false } },
    { branch0 := { chrId := 0, idx := 0, positiveStrand := false }
      branch1 := { chrId := 1, idx := 1, positiveStrand := true } },
    by decide, by decide, Or.inl ⟨rfl, rfl⟩⟩

/-- C16, amended: after the enumeration phase of `FindBlocks` on a newly constructed finder,
every fork in the source and sink lists has a branch on the positive strand; so a stored
fork with both branches on the positive strand has no stored reverse-complement twin. -/
theorem stored_forks_positive_branch (s : JunctionStorage) (k : Nat)
    (minBlockSize maxBranchSize maxFlankingSize : Int) :
    (∀ f, f ∈ (enumeration s (BlocksFinder.new k) minBlockSize maxBranchSize
            maxFlankingSize).source_ ∨
          f ∈ (enumeration s (BlocksFinder.new k) minBlockSize maxBranchSize
            maxFlankingSize).sink_ →
        f.branch0.positiveStrand = true ∨ f.branch1.positiveStrand = true) ∧
      ∀ f g, f.branch0.positiveStrand = true ∧ f.branch1.positiveStrand = true →
        Fork.twins f g →
        ¬ (g ∈ (enumeration s (BlocksFinder.new k) minBlockSize maxBranchSize
              maxFlankingSize).source_ ∨
            g ∈ (enumeration s (BlocksFinder.new k) minBlockSize maxBranchSize
              maxFlankingSize).sink_) := by
  have hpos : ∀ f, f ∈ (enumeration s (BlocksFinder.new k) minBlockSize maxBranchSize
            maxFlankingSize).source_ ∨
          f ∈ (enumeration s (BlocksFinder.new k) minBlockSize maxBranchSize
            maxFlankingSize).sink_ →
        f.branch0.positiveStrand = true ∨ f.branch1.positiveStrand = true := by
    apply stored_forall
    · intro f hf
      simp [BlocksFinder.new] at hf
    · intro x y hxy
      unfold Fork.new
      split
      · exact hxy
      · exact hxy.symm
  refine ⟨hpos, ?_⟩
  intro f g hf htw hg
  have := hpos g hg
  unfold Fork.twins JunctionSequentialIterator.reverse at htw
  rcases htw with ⟨h0, h1⟩ | ⟨h0, h1⟩ <;> rw [h0, h1] at this <;>
    simp [hf.1, hf.2] at this

/-! ## Claims on the runs of the pairing loop -/

/-- C15 fails as stated: over `crossedStorage` the sink paired with the source has the
strands and the chromosomes of the source on both branches and lies downstream of it on
branch 0 (position 200 after 0), but upstream of it on branch 1 (position 100 before
120); the sink is not less than the source in the lexicographic order of the specification
either. -/
theorem pairedSink_downstream_counterexample :
    (enumeration crossedStorage (BlocksFinder.new 21) 20 50 0).source_ = [crossedSource] ∧
      (enumeration crossedStorage (BlocksFinder.new 21) 20 50 0).sink_ = [crossedSink] ∧
      pairedSink crossedStorage (sortForks crossedStorage [crossedSink]) crossedSource =
        some crossedSink ∧
      crossedSource.branch0.positiveStrand = crossedSink.branch0.positiveStrand ∧
      crossedSource.branch1.positiveStrand = crossedSink.branch1.positiveStrand ∧
      crossedSource.branch0.chrId = crossedSink.branch0.chrId ∧
      crossedSource.branch1.chrId = crossedSink.branch1.chrId ∧
      crossedSink.branch1.positiveStrand = true ∧
      crossedStorage.position crossedSink.branch1 <
        crossedStorage.position crossedSource.branch1 ∧
      Fork.ltLexicographic crossedStorage crossedSink crossedSource = false := by
  decide

/-- C15, amended: when the sink `v` that `std::lower_bound` pairs with the source `u` over
the sorted sink list has the strands and the chromosomes of `u` on both branches, `v` lies
downstream of `u` on branch 0: `pos(v.branch[0]) >= pos(u.branch[0])` on the positive strand
and `pos(v.branch[0]) <= pos(u.branch[0])` on the negative strand. -/
theorem pairedSink_downstream_branch0 (s : JunctionStorage) (finder : BlocksFinder)
    (u v : Fork) (hv : pairedSink s (sortForks s finder.sink_) u = some v)
    (hstrand : u.branch0.positiveStrand = v.branch0.positiveStrand ∧
      u.branch1.positiveStrand = v.branch1.positiveStrand)
    (hchr : u.branch0.chrId = v.branch0.chrId ∧ u.branch1.chrId = v.branch1.chrId) :
    (v.branch0.positiveStrand = true → s.position u.branch0 ≤ s.position v.branch0) ∧
      (v.branch0.positiveStrand = false → s.position v.branch0 ≤ s.position u.branch0) := by
  have hnot := not_lt_of_pairedSink s _ u v (sortForks_sorted s finder.sink_) hv
  rw [← Bool.not_eq_true, Fork.lt_iff] at hnot
  obtain ⟨h0, h1⟩ := hstrand
  obtain ⟨c0, c1⟩ := hchr
  constructor
  · intro hp
    by_contra hlt
    apply hnot
    refine Or.inr ⟨h0.symm, Or.inr ⟨h1.symm, Or.inr ⟨c0.symm, Or.inr ⟨c1.symm,
      Or.inl ⟨hp, by omega⟩⟩⟩⟩⟩
  · intro hp
    by_contra hlt
    apply hnot
    refine Or.inr ⟨h0.symm, Or.inr ⟨h1.symm, Or.inr ⟨c0.symm, Or.inr ⟨c1.symm,
      Or.inr ⟨hp, by omega⟩⟩⟩⟩⟩

/-- C15, amended, at the source and the sink of `exampleStorage`: the sink at position 400
is downstream of the source at position 0 on branch 0. -/
theorem pairedSink_downstream_branch0_witness :
    exampleStorage.position exampleSource.branch0 ≤
      exampleStorage.position exampleSink.branch0 :=
  (pairedSink_downstream_branch0 exampleStorage exampleFinder exampleSource exampleSink
    (by decide) (by decide) (by decide)).1 (by decide)

/-- C17: for a fixed sink list and fixed parameters, in a run that keeps the block counter
below `2^31` (the counter at the start is not negative, and with one block for each source
it is still below `2^31`, so that no block id is changed when the constructor of
`BlockInstance` narrows it to `int`), a run of `FindBlocksPwise` over a permutation of the
source list returns as well,
ends with the same block counter, and emits a permutation of the `(chr, start, end, sign)`
tuples; in both runs the instances number `2 i` and `2 i + 1` share the absolute id, and the
pairs of tuples so grouped are a permutation of each other. -/
theorem FindBlocksPwise_source_perm (s : JunctionStorage) (finder r : BlocksFinder)
    (source' : List Fork) (hperm : source'.Perm finder.source_)
    (hcount : 0 ≤ finder.blocksFound_)
    (hbound : finder.blocksFound_ + finder.source_.length < 2 ^ 31)
    (hrun : FindBlocksPwise s finder = some r) :
    ∃ r' e e' n, FindBlocksPwise s { finder with source_ := source' } = some r' ∧
      r.blocksInstance_ = finder.blocksInstance_ ++ e ∧
      r'.blocksInstance_ = finder.blocksInstance_ ++ e' ∧
      (e'.map BlockInstance.tuple).Perm (e.map BlockInstance.tuple) ∧
      (pairUp e').Perm (pairUp e) ∧
      e.map (fun x => x.id_.natAbs) =
        (List.range n).flatMap (fun i =>
          [finder.blocksFound_.toNat + i + 1, finder.blocksFound_.toNat + i + 1]) ∧
      e'.map (fun x => x.id_.natAbs) =
        (List.range n).flatMap (fun i =>
          [finder.blocksFound_.toNat + i + 1, finder.blocksFound_.toNat + i + 1]) ∧
      r.blocksFound_ = finder.blocksFound_ + n ∧ r'.blocksFound_ = finder.blocksFound_ + n := by
  obtain ⟨hall, rfl⟩ := FindBlocksPwise_eq_some s finder r hrun
  have hall' : ∀ u ∈ source', ∃ v, pairedSink s (sortForks s finder.sink_) u = some v :=
    fun u hu => hall u (hperm.mem_iff.1 hu)
  have hpairs := emittingPairs_perm s (sortForks s finder.sink_) finder.minBlockSize_
    finder.source_ source' hperm
  have hb : ((finder.blocksFound_.toNat : Nat) : Int) = finder.blocksFound_ :=
    Int.toNat_of_nonneg hcount
  have hle := length_emittingPairs_le s (sortForks s finder.sink_) finder.minBlockSize_
    finder.source_
  have hle' := length_emittingPairs_le s (sortForks s finder.sink_) finder.minBlockSize_
    source'
  have hlen := hperm.length_eq
  have hlt : finder.blocksFound_ + (emittingPairs s (sortForks s finder.sink_)
      finder.minBlockSize_ finder.source_).length < 2 ^ 31 := by omega
  have hlt' : finder.blocksFound_ + (emittingPairs s (sortForks s finder.sink_)
      finder.minBlockSize_ source').length < 2 ^ 31 := by omega
  have hnat : finder.blocksFound_.toNat + (emittingPairs s (sortForks s finder.sink_)
      finder.minBlockSize_ finder.source_).length < 2 ^ 31 := by omega
  have hnat' : finder.blocksFound_.toNat + (emittingPairs s (sortForks s finder.sink_)
      finder.minBlockSize_ source').length < 2 ^ 31 := by omega
  refine ⟨_, _, _, (emittingPairs s (sortForks s finder.sink_) finder.minBlockSize_
      finder.source_).length,
    FindBlocksPwise_eq_of_paired s { finder with source_ := source' } hall', rfl, rfl, ?_, ?_,
    ?_, ?_, rfl, ?_⟩
  · rw [map_tuple_emitAll s _ _ hcount _ hlt', map_tuple_emitAll s _ _ hcount _ hlt]
    exact hpairs.flatMap_right _
  · rw [pairUp_emitAll s _ _ hcount _ hlt', pairUp_emitAll s _ _ hcount _ hlt]
    exact hpairs.map _
  · rw [← hb, map_natAbs_emitAll s _ _ _ hnat, Int.toNat_ofNat]
  · rw [← hb, map_natAbs_emitAll s _ _ _ hnat', Int.toNat_ofNat, hpairs.length_eq]
  · simp only
    rw [hpairs.length_eq]

/-- C17 at `exampleStorage` with two sources: the run over the two sources in the opposite
order returns as well, with the block ids exchanged. -/
theorem FindBlocksPwise_source_perm_witness :
    FindBlocksPwise exampleStorage examplePairFinder = some examplePairResult ∧
      ∃ r', FindBlocksPwise exampleStorage
        { examplePairFinder with source_ := [exampleSource2, exampleSource] } = some r' :=
  ⟨by decide,
    (FindBlocksPwise_source_perm exampleStorage examplePairFinder examplePairResult
      [exampleSource2, exampleSource] (List.Perm.swap _ _ _) (by decide) (by decide)
      (by decide)).imp
        fun _ h => h.choose_spec.choose_spec.choose_spec.1⟩

/-- C18 on the code: over `tieStorage` the sinks `tieSink1` and `tieSink2` are equivalent
under `Fork::operator<`; with the sink list in the order of the enumeration the source is
paired with `tieSink1` and the branch-1 instance is `(1, chr 1, 50, 121)`, with the two
sinks exchanged it is paired with `tieSink2` and the branch-1 instance is
`(1, chr 1, 50, 321)`: the tuples emitted are not a permutation of each other. -/
theorem FindBlocksPwise_sink_order_dependence :
    (enumeration tieStorage (BlocksFinder.new 21) 50 50 0).source_ = [tieSource] ∧
      (enumeration tieStorage (BlocksFinder.new 21) 50 50 0).sink_ =
        [tieSink1, tieSink2, tieSink3] ∧
      (FindBlocksPwise tieStorage
          (enumeration tieStorage (BlocksFinder.new 21) 50 50 0)).map
        (fun r => r.blocksInstance_) =
        some [{ id_ := 1, start_ := 0, end_ := 221, chr_ := 0 },
          { id_ := 1, start_ := 50, end_ := 121, chr_ := 1 }] ∧
      (FindBlocksPwise tieStorage
          { enumeration tieStorage (BlocksFinder.new 21) 50 50 0 with
            sink_ := [tieSink2, tieSink1, tieSink3] }).map
        (fun r => r.blocksInstance_) =
        some [{ id_ := 1, start_ := 0, end_ := 221, chr_ := 0 },
          { id_ := 1, start_ := 50, end_ := 321, chr_ := 1 }] ∧
      ¬ ([({ id_ := 1, start_ := 0, end_ := 221, chr_ := 0 } : BlockInstance),
            { id_ := 1, start_ := 50, end_ := 121, chr_ := 1 }].map BlockInstance.tuple).Perm
          ([({ id_ := 1, start_ := 0, end_ := 221, chr_ := 0 } : BlockInstance),
            { id_ := 1, start_ := 50, end_ := 321, chr_ := 1 }].map BlockInstance.tuple) := by
  decide

/-- C19: when every source has a sink not less than it and `minBlockSize` is greater than
every absolute position difference between a branch of a source and a branch of a sink,
`FindBlocksPwise` returns, emits no block instance and leaves the block counter as it is
(at 0 when it starts at 0). -/
theorem FindBlocksPwise_large_minBlockSize (s : JunctionStorage) (finder : BlocksFinder)
    (hcover : ∀ u ∈ finder.source_, ∃ w ∈ finder.sink_, Fork.lt s w u = false)
    (hbig : ∀ u ∈ finder.source_, ∀ v ∈ finder.sink_,
      ∀ a ∈ [u.branch0, u.branch1], ∀ b ∈ [v.branch0, v.branch1],
        (((s.position a : Int) - s.position b).natAbs : Int) < finder.minBlockSize_) :
    ∃ r, FindBlocksPwise s finder = some r ∧ r.blocksInstance_ = finder.blocksInstance_ ∧
      r.blocksFound_ = finder.blocksFound_ ∧ (finder.blocksFound_ = 0 → r.blocksFound_ = 0) := by
  have hall : ∀ u ∈ finder.source_,
      ∃ v, pairedSink s (sortForks s finder.sink_) u = some v :=
    fun u hu => pairedSink_some_of_cover s finder.sink_ u (hcover u hu)
  have hnil : emittingPairs s (sortForks s finder.sink_) finder.minBlockSize_
      finder.source_ = [] := by
    apply emittingPairs_eq_nil
    intro u hu v hv
    have hvm : v ∈ finder.sink_ :=
      (mem_sortForks s finder.sink_ v).1 (mem_of_pairedSink s _ _ _ hv)
    have h1 := hbig u hu v hvm u.branch0 (by simp) v.branch0 (by simp)
    have h2 := ChainLength_le s u v 0
    simp only [Fork.branch, if_true] at h2
    omega
  refine ⟨_, FindBlocksPwise_eq_of_paired s finder hall, ?_, ?_, ?_⟩
  · simp [hnil, emitAll]
  · simp [hnil]
  · intro h0
    simp [hnil, h0]

/-- C19 at `exampleStorage` with `minBlockSize = 500`: the positions differ by at most 400
and nothing is emitted. -/
theorem FindBlocksPwise_large_minBlockSize_witness :
    ∃ r, FindBlocksPwise exampleStorage { exampleFinder with minBlockSize_ := 500 } = some r ∧
      r.blocksInstance_ = [] :=
  (FindBlocksPwise_large_minBlockSize exampleStorage { exampleFinder with minBlockSize_ := 500 }
    (by decide) (by decide)).imp fun _ h => ⟨h.1, h.2.1⟩

/-! ## Claims on the boundary cases of the enumerator -/

/-- C20 fails as stated, in two ways. Over `exampleStorage` consecutive junctions have
different positions and equal labels lead to equal next vertices, and with
`maxBranchSize = 0` the two instances of vertex 5 become a fork, the sink, although neither
has a forward neighbour. Over `bucketStorage` the same two conditions hold, the two
instances of vertex 1 leave through the labels `N` and `R` of one character bucket, and
`BubbledBranchesForward` records index 1 in row 0 although the next vertices are 2 and 3. -/
theorem zero_branch_counterexample :
    (distinctPositions exampleStorage ∧ labelDeterministic exampleStorage ∧
      (enumeration exampleStorage (BlocksFinder.new 21) 50 0 0).sink_ =
        [Fork.new ((exampleStorage.instances 5).getD 0 default)
          ((exampleStorage.instances 5).getD 1 default)] ∧
      ¬ sameNextVertex exampleStorage ((exampleStorage.instances 5).getD 0 default)
        ((exampleStorage.instances 5).getD 1 default)) ∧
    (distinctPositions bucketStorage ∧ labelDeterministic bucketStorage ∧
      1 ∈ (BubbledBranchesForward bucketStorage 0 (bucketStorage.instances 1)).getD 0 [] ∧
      ¬ sameNextVertex bucketStorage ((bucketStorage.instances 1).getD 0 default)
        ((bucketStorage.instances 1).getD 1 default)) :=
  ⟨⟨exampleStorage_distinctPositions, exampleStorage_labelDeterministic, by decide,
      by unfold sameNextVertex; decide⟩,
    ⟨bucketStorage_distinctPositions, bucketStorage_labelDeterministic, by decide,
      by unfold sameNextVertex; decide⟩⟩

/-- C20, amended: with `maxBranchSize = 0`, over a storage where consecutive junctions of a
chromosome have different positions and where two instances of one vertex whose outgoing
labels fall in the same character bucket have the same next vertex, for the instance list
`I` of a vertex `BubbledBranchesForward` puts `k` in `bubbles[j]` only if `I[j]` and `I[k]`
both have a valid forward neighbour and those neighbours are instances of the same vertex;
so only such pairs become source forks. -/
theorem BubbledBranchesForward_zero_branch (s : JunctionStorage) (vertex : Int)
    (inst : List JunctionSequentialIterator) (j k : Nat)
    (hinst : ∀ x ∈ inst, x.Valid s = true ∧ s.vertexId x = vertex)
    (hpos : distinctPositions s) (hbucket : bucketDeterministic s) :
    (k ∈ (BubbledBranchesForward s 0 inst).getD j [] →
        sameNextVertex s (inst.getD j default) (inst.getD k default)) ∧
      ((j, k) ∈ forkPairs inst (BubbledBranchesForward s 0 inst)
          (BubbledBranchesBackward s 0 inst) →
        sameNextVertex s (inst.getD j default) (inst.getD k default)) := by
  have hrow : k ∈ (BubbledBranchesForward s 0 inst).getD j [] →
      sameNextVertex s (inst.getD j default) (inst.getD k default) := by
    intro h
    obtain ⟨hjk, hk⟩ := bounds_of_mem_Forward s 0 inst j k h
    have hj : j < inst.length := by omega
    have hmj : inst.getD j default ∈ inst := by
      rw [List.getD_eq_getElem _ _ hj]; exact List.getElem_mem _
    have hmk : inst.getD k default ∈ inst := by
      rw [List.getD_eq_getElem _ _ hk]; exact List.getElem_mem _
    obtain ⟨_, _, hpar | ⟨w, hw, _⟩⟩ := (mem_BubbledBranchesForward_getD s 0 inst j k hj).1 h
    · exact ⟨hpar.1, hpar.2.1,
        hbucket _ _ (hinst _ hmj).1 (hinst _ hmk).1
          ((hinst _ hmj).2.trans (hinst _ hmk).2.symm) hpar.1 hpar.2.1 hpar.2.2⟩
    · exact absurd hw (not_reachesForward_zero s hpos _ (hinst _ hmj).1 w)
  refine ⟨hrow, ?_⟩
  intro h
  exact hrow (((forkPairs_spec inst _ _ (nodup_BubbledBranchesForward s 0 inst)).2 j k).1 h).1

/-- C20, amended, at the two instances of vertex 1 of `exampleStorage`: they are recorded as
a forward bubble and their forward neighbours are the two instances of vertex 2. -/
theorem BubbledBranchesForward_zero_branch_witness :
    sameNextVertex exampleStorage ((exampleStorage.instances 1).getD 0 default)
      ((exampleStorage.instances 1).getD 1 default) :=
  (BubbledBranchesForward_zero_branch exampleStorage 1 (exampleStorage.instances 1) 0 1
    (by decide) exampleStorage_distinctPositions exampleStorage_bucketDeterministic).1
    (by decide)

/-! ## The fork order and the bubble enumerators -/

/-- C26: `Fork::operator<` is a strict weak ordering. For all forks `a`, `b`, `c` of any
storage: `a < a` is false; `a < b` excludes `b < a`; `a < b` and `b < c` give `a < c`; and
when `a`, `b` are incomparable and `b`, `c` are incomparable, so are `a` and `c`. -/
theorem Fork_lt_strict_weak_order (s : JunctionStorage) (a b c : Fork) :
    Fork.lt s a a = false ∧
      (Fork.lt s a b = true → Fork.lt s b a = false) ∧
      (Fork.lt s a b = true → Fork.lt s b c = true → Fork.lt s a c = true) ∧
      (Fork.lt s a b = false ∧ Fork.lt s b a = false →
        Fork.lt s b c = false ∧ Fork.lt s c b = false →
        Fork.lt s a c = false ∧ Fork.lt s c a = false) := by
  have asym : ∀ x y, Fork.lt s x y = true → Fork.lt s y x = false := by
    intro x y h
    rcases Fork.le_total s x y with h1 | h1
    · exact h1
    · rw [h] at h1
      exact absurd h1 (by decide)
  refine ⟨Fork.lt_irrefl s a, asym a b, ?_, ?_⟩
  · intro hab hbc
    by_contra hac
    rw [Bool.not_eq_true] at hac
    have hba : Fork.lt s a b = false := Fork.le_trans s b c a (asym b c hbc) hac
    rw [hab] at hba
    exact absurd hba (by decide)
  · rintro ⟨hab, hba⟩ ⟨hbc, hcb⟩
    exact ⟨Fork.le_trans s c b a hbc hab, Fork.le_trans s a b c hba hcb⟩

/-- C27: the results of `BubbledBranchesForward` and of `BubbledBranchesBackward` have one
entry for each of the `n` instances; entry `j` holds only indices `k` with `j < k < n`, and
holds no index twice. The last conjunct evaluates the forward enumerator where both walks
meet vertex 2 twice and the pair is also found through a parallel edge: the index 1 is
recorded once. -/
theorem BubbledBranches_rows (s : JunctionStorage) (maxBranchSize : Int)
    (inst : List JunctionSequentialIterator) (j : Nat) :
    (BubbledBranchesForward s maxBranchSize inst).length = inst.length ∧
      (BubbledBranchesBackward s maxBranchSize inst).length = inst.length ∧
      (∀ k ∈ (BubbledBranchesForward s maxBranchSize inst).getD j [], j < k ∧ k < inst.length) ∧
      (∀ k ∈ (BubbledBranchesBackward s maxBranchSize inst).getD j [], j < k ∧ k < inst.length) ∧
      ((BubbledBranchesForward s maxBranchSize inst).getD j []).Nodup ∧
      ((BubbledBranchesBackward s maxBranchSize inst).getD j []).Nodup ∧
      BubbledBranchesForward repeatStorage 50 (repeatStorage.instances 1) = [[1], []] :=
  ⟨length_BubbledBranchesForward s maxBranchSize inst,
    length_BubbledBranchesBackward s maxBranchSize inst,
    fun k h => bounds_of_mem_Forward s maxBranchSize inst j k h,
    fun k h => bounds_of_mem_Backward s maxBranchSize inst j k h,
    nodup_BubbledBranchesForward s maxBranchSize inst j,
    nodup_BubbledBranchesBackward s maxBranchSize inst j,
    by decide⟩

/-- C28: `BubbledBranchesBackward` is `BubbledBranchesForward` over the mirrored storage: for
every storage, bound and instance list the backward result equals the forward result over
`mirrorStorage s`, in which the steps `+1` and `-1` are exchanged and every instance is
labelled with the character of the outgoing edge of its predecessor. -/
theorem BubbledBranchesBackward_eq_mirror (s : JunctionStorage) (maxBranchSize : Int)
    (inst : List JunctionSequentialIterator) :
    BubbledBranchesBackward s maxBranchSize inst =
      BubbledBranchesForward (mirrorStorage s) maxBranchSize
        (inst.map JunctionSequentialIterator.reverse) := by
  simp only [BubbledBranchesBackward, BubbledBranchesForward, scanForward_mirror,
    List.length_map]

/-- C29: when the instance `inst[j]` has no valid forward neighbour,
`BubbledBranchesForward` returns a result whose row `j` is empty and in which `j` is in no
row. In general an index pair is recorded only when both instances have a valid forward
neighbour: the instance a walk starts from is not itself a visit, so two instances of one
vertex are not paired for that alone. -/
theorem BubbledBranchesForward_no_neighbour (s : JunctionStorage) (maxBranchSize : Int)
    (inst : List JunctionSequentialIterator) (j : Nat) (hj : j < inst.length)
    (hno : ((inst.get ⟨j, hj⟩).plus 1).Valid s = false) :
    (BubbledBranchesForward s maxBranchSize inst).getD j [] = [] ∧
      (∀ i, ¬ j ∈ (BubbledBranchesForward s maxBranchSize inst).getD i []) ∧
      ∀ i k, k ∈ (BubbledBranchesForward s maxBranchSize inst).getD i [] →
        ((inst.getD i default).plus 1).Valid s = true ∧
          ((inst.getD k default).plus 1).Valid s = true := by
  have hget : inst.getD j default = inst.get ⟨j, hj⟩ := List.getD_eq_getElem _ _ hj
  rw [← hget] at hno
  have hreach : ∀ a w, reachesForward s maxBranchSize a w → (a.plus 1).Valid s = true := by
    rintro a w ⟨m, hm, hall, _⟩
    exact (hall 1 (le_refl 1) hm).1
  have hboth : ∀ i k, k ∈ (BubbledBranchesForward s maxBranchSize inst).getD i [] →
      ((inst.getD i default).plus 1).Valid s = true ∧
        ((inst.getD k default).plus 1).Valid s = true := by
    intro i k h
    have hi : i < inst.length := by
      have := bounds_of_mem_Forward s maxBranchSize inst i k h
      omega
    rcases ((mem_BubbledBranchesForward_getD s maxBranchSize inst i k hi).1 h).2.2 with
      ⟨h1, h2, _⟩ | ⟨w, h1, h2⟩
    · exact ⟨h1, h2⟩
    · exact ⟨hreach _ _ h1, hreach _ _ h2⟩
  refine ⟨?_, ?_, hboth⟩
  · rw [List.eq_nil_iff_forall_not_mem]
    intro k hk
    have := (hboth j k hk).1
    rw [hno] at this
    exact absurd this (by decide)
  · intro i hi
    have := (hboth i j hi).2
    rw [hno] at this
    exact absurd this (by decide)

/-- Witness for C29: vertex 5 of `exampleStorage` is the last junction of both
chromosomes. -/
theorem BubbledBranchesForward_no_neighbour_witness :
    (BubbledBranchesForward exampleStorage 50 (exampleStorage.instances 5)).getD 0 [] = [] ∧
      (∀ i, ¬ 0 ∈ (BubbledBranchesForward exampleStorage 50
        (exampleStorage.instances 5)).getD i []) ∧
      ∀ i k, k ∈ (BubbledBranchesForward exampleStorage 50
          (exampleStorage.instances 5)).getD i [] →
        (((exampleStorage.instances 5).getD i default).plus 1).Valid exampleStorage = true ∧
          (((exampleStorage.instances 5).getD k default).plus 1).Valid exampleStorage = true :=
  BubbledBranchesForward_no_neighbour exampleStorage 50 (exampleStorage.instances 5) 0
    (by decide) (by decide)

/-- C30: the enumeration of `FindBlocks` over `shuffle`, the vertex ids with an instance on
the positive strand, leaves the finder in the state that running `CheckIfSource` on every
vertex id of `[-V + 1, V - 1]` leaves it in, so the lists `source_` and `sink_` are the
same; and no vertex id is twice in `shuffle`, which holds exactly the ids of the range that
have an instance on the positive strand. -/
theorem shuffle_loses_nothing (s : JunctionStorage) (finder : BlocksFinder) :
    (shuffleOf s).foldl (CheckIfSource s) finder =
        (allVertexIds s).foldl (CheckIfSource s) finder ∧
      (shuffleOf s).Nodup ∧
      (∀ v, v ∈ allVertexIds s ↔
        -(s.verticesNumber : Int) + 1 ≤ v ∧ v ≤ (s.verticesNumber : Int) - 1) ∧
      ∀ v, v ∈ shuffleOf s ↔
        v ∈ allVertexIds s ∧ ∃ it ∈ s.instances v, it.positiveStrand = true := by
  refine ⟨?_, ?_, mem_allVertexIds s, ?_⟩
  · rw [shuffleOf_eq_filter, foldl_filter_CheckIfSource]
  · rw [shuffleOf_eq_filter]
    exact (allVertexIds_nodup s).filter _
  · intro v
    rw [shuffleOf_eq_filter, List.mem_filter, List.any_eq_true]

/-! ## The written sequences and the coverage -/

/-- C25: for every character sequence `s`, every `n ≤ |s|` and every earlier output `out`,
`OutputLines(s, n)` appends an output `w` to `out` such that: deleting the line breaks of
`w` gives the first `n` characters of `s`; every line of `w` has at most 80 characters;
every line of `w` but the last has exactly 80; and `w` does not end with a line break. -/
theorem OutputLines_wraps (s : List Char) (n : Nat) (out : List StreamItem)
    (h : n ≤ s.length) :
    ∃ w, OutputLines s n out = some (out ++ w) ∧
      charsOf w = s.take n ∧
      (∀ line ∈ linesOf w, line.length ≤ 80) ∧
      (∀ line ∈ (linesOf w).dropLast, line.length = 80) ∧
      w.getLast? ≠ some StreamItem.endl := by
  have hlen : (s.take n).length = n := by simp [h]
  refine ⟨wrapFrom n 1 (s.take n), OutputLines_eq s n out h, charsOf_wrapFrom _ _ _, ?_, ?_,
    getLast_wrapFrom n 1 _ (by omega)⟩
  · have hf := linesFill_wrapFrom n 1 (s.take n) (le_refl 1) (by omega)
    cases hL : linesOf (wrapFrom n 1 (s.take n)) with
    | nil => rw [hL] at hf; exact absurd hf (by simp [linesFill])
    | cons line lines =>
      rw [hL] at hf
      simp only [linesFill] at hf
      intro x hx
      rcases List.mem_cons.1 hx with rfl | hx
      · have := hf.1
        omega
      · exact hf.2.1 x hx
  · have hf := linesFill_wrapFrom n 1 (s.take n) (le_refl 1) (by omega)
    cases hL : linesOf (wrapFrom n 1 (s.take n)) with
    | nil => rw [hL] at hf; exact absurd hf (by simp [linesFill])
    | cons line lines =>
      rw [hL] at hf
      simp only [linesFill] at hf
      intro x hx
      by_cases hn : lines = []
      · subst hn
        simp at hx
      · rw [List.dropLast_cons_of_ne_nil hn] at hx
        rcases List.mem_cons.1 hx with rfl | hx
        · have := (hf.2.2 hn).1
          omega
        · exact (hf.2.2 hn).2 x hx

/-- Witness for C25: 161 characters are written as lines of 80, 80 and 1 characters. -/
theorem OutputLines_wraps_witness :
    (linesOf (wrapFrom 161 1 (List.replicate 161 'A'))).map List.length = [80, 80, 1] ∧
      ∃ w, OutputLines (List.replicate 161 'A') 161 [] = some ([] ++ w) ∧
        charsOf w = (List.replicate 161 'A').take 161 ∧
        (∀ line ∈ linesOf w, line.length ≤ 80) ∧
        (∀ line ∈ (linesOf w).dropLast, line.length = 80) ∧
        w.getLast? ≠ some StreamItem.endl :=
  ⟨by decide, OutputLines_wraps (List.replicate 161 'A') 161 [] (by simp)⟩

/-- C24: for a block instance with `start < end ≤ |seq|`, `ListBlocksSequences` writes a
sequence `w` whose characters, the line breaks deleted, are: for a positive signed id the
substring `[start, end)` of `seq`, character `i` being `seq[start + i]`; for a negative
signed id the reverse complement of that substring, character `i` being
`ReverseChar(seq[end - 1 - i])`, for `0 ≤ i < end - start`. -/
theorem recordSequence_chars (reverseChar : Char → Char) (seq : List Char)
    (b : BlockInstance) (out : List StreamItem)
    (h1 : b.start_ < b.end_) (h2 : b.end_ ≤ seq.length) (h3 : seq.length < 2 ^ 64) :
    ∃ w, recordSequence reverseChar seq b out = some (out ++ w) ∧
      (charsOf w).length = b.end_ - b.start_ ∧
      (0 < b.id_ →
        charsOf w = (seq.drop b.start_).take (b.end_ - b.start_) ∧
          ∀ i, i < b.end_ - b.start_ → (charsOf w)[i]? = seq[b.start_ + i]?) ∧
      (b.id_ < 0 →
        charsOf w = (((seq.drop b.start_).take (b.end_ - b.start_)).reverse).map reverseChar ∧
          ∀ i, i < b.end_ - b.start_ →
            (charsOf w)[i]? = seq[b.end_ - 1 - i]?.map reverseChar) := by
  have hlen : b.GetLength = b.end_ - b.start_ := GetLength_eq b (by omega) (by omega)
  have hsub : ((seq.drop b.start_).take (b.end_ - b.start_)).length = b.end_ - b.start_ := by
    simp only [List.length_take, List.length_drop]
    omega
  by_cases hid : 0 < b.id_
  · have hle : b.end_ - b.start_ ≤ (seq.drop b.start_).length := by
      rw [List.length_drop]; omega
    refine ⟨wrapFrom (b.end_ - b.start_) 1 ((seq.drop b.start_).take (b.end_ - b.start_)),
      ?_, ?_, ?_, ?_⟩
    · simp only [recordSequence, hid, if_true, hlen]
      exact OutputLines_eq _ _ _ hle
    · rw [charsOf_wrapFrom, hsub]
    · intro _
      refine ⟨charsOf_wrapFrom _ _ _, ?_⟩
      intro i hi
      rw [charsOf_wrapFrom, List.getElem?_take_of_lt hi, List.getElem?_drop]
    · intro hneg
      omega
  · have hle : b.end_ - b.start_ ≤ (((seq.take b.end_).reverse).map reverseChar).length := by
      simp only [List.length_map, List.length_reverse, List.length_take]
      omega
    have htake : (((seq.take b.end_).reverse).map reverseChar).take (b.end_ - b.start_) =
        (((seq.drop b.start_).take (b.end_ - b.start_)).reverse).map reverseChar := by
      rw [← List.map_take, reverse_take_sub seq _ _ (by omega) h2]
    refine ⟨wrapFrom (b.end_ - b.start_) 1
      ((((seq.take b.end_).reverse).map reverseChar).take (b.end_ - b.start_)), ?_, ?_, ?_, ?_⟩
    · simp only [recordSequence, hid, if_false, hlen]
      exact OutputLines_eq _ _ _ hle
    · rw [charsOf_wrapFrom, htake, List.length_map, List.length_reverse, hsub]
    · intro hpos
      exact absurd hpos hid
    · intro _
      refine ⟨by rw [charsOf_wrapFrom, htake], ?_⟩
      intro i hi
      rw [charsOf_wrapFrom, htake, List.getElem?_map,
        List.getElem?_reverse (by rw [hsub]; exact hi), hsub,
        List.getElem?_take_of_lt (by omega), List.getElem?_drop]
      congr 2
      omega

/-- Witness for C24: the block instance `(-1, 0, 2, 6)` over `ACGTACGT`. -/
theorem recordSequence_chars_witness :
    recordSequence complementChar ['A', 'C', 'G', 'T', 'A', 'C', 'G', 'T'] ⟨-1, 2, 6, 0⟩ [] =
        some [StreamItem.char 'G', StreamItem.char 'T', StreamItem.char 'A',
          StreamItem.char 'C'] ∧
      ∃ w, recordSequence complementChar ['A', 'C', 'G', 'T', 'A', 'C', 'G', 'T']
          ⟨-1, 2, 6, 0⟩ [] = some ([] ++ w) ∧
        (charsOf w).length = 6 - 2 ∧
        ((0 : Int) < -1 →
          charsOf w = (['A', 'C', 'G', 'T', 'A', 'C', 'G', 'T'].drop 2).take (6 - 2) ∧
            ∀ i, i < 6 - 2 →
              (charsOf w)[i]? = ['A', 'C', 'G', 'T', 'A', 'C', 'G', 'T'][2 + i]?) ∧
        ((-1 : Int) < 0 →
          charsOf w = (((['A', 'C', 'G', 'T', 'A', 'C', 'G', 'T'].drop 2).take
              (6 - 2)).reverse).map complementChar ∧
            ∀ i, i < 6 - 2 →
              (charsOf w)[i]? =
                ['A', 'C', 'G', 'T', 'A', 'C', 'G', 'T'][6 - 1 - i]?.map complementChar) :=
  ⟨by decide, recordSequence_chars complementChar ['A', 'C', 'G', 'T', 'A', 'C', 'G', 'T']
    ⟨-1, 2, 6, 0⟩ [] (by decide) (by decide) (by decide)⟩

/-- C23: when every block of `blocksInstance_` lies on a chromosome of the storage and ends
within the mask of that chromosome, the coverage pass of `GenerateOutput` returns counters
such that: `total` is the sum of `chrLen + 1` over the chromosomes; `totalCovered` is the
number of elements of the set of the pairs `(c, i)` for which some block on `c` has
`start ≤ i < end`; `totalCovered ≤ total`; and when no block ends beyond `chrLen`, at least
one position of every chromosome stays uncovered, so that `totalCovered < total` for a
storage with a chromosome. -/
theorem GenerateOutput_coverage (s : JunctionStorage) (finder : BlocksFinder)
    (hfit : ∀ b ∈ finder.blocksInstance_,
      b.chr_ < s.chrNumber ∧ b.end_ ≤ s.chrLength b.chr_ + 1) :
    ∃ r, GenerateOutput s finder = some r ∧
      r.total = ∑ c in Finset.range s.chrNumber, (s.chrLength c + 1) ∧
      (∃ S : Finset (Nat × Nat),
        (∀ c i, (c, i) ∈ S ↔
          ∃ b ∈ finder.blocksInstance_, b.chr_ = c ∧ b.start_ ≤ i ∧ i < b.end_) ∧
        r.totalCovered = S.card) ∧
      r.totalCovered ≤ r.total ∧
      ((∀ b ∈ finder.blocksInstance_, b.end_ ≤ s.chrLength b.chr_) →
        r.totalCovered + s.chrNumber ≤ r.total ∧
          (0 < s.chrNumber → r.totalCovered < r.total)) := by
  refine ⟨_, GenerateOutput_eq s finder hfit, rfl, ?_, ?_, ?_⟩
  · refine ⟨((Finset.range s.chrNumber).sigma fun c =>
        (Finset.range (s.chrLength c + 1)).filter
          fun j => coveredBy finder.blocksInstance_ c j = true).map
        (Equiv.sigmaEquivProd Nat Nat).toEmbedding, ?_, ?_⟩
    · intro c i
      rw [Finset.mem_map]
      constructor
      · rintro ⟨⟨c1, i1⟩, hx, he⟩
        simp only [Equiv.coe_toEmbedding, Equiv.sigmaEquivProd_apply, Prod.mk.injEq] at he
        obtain ⟨rfl, rfl⟩ := he
        rw [Finset.mem_sigma, Finset.mem_filter] at hx
        exact (coveredBy_iff _ _ _).1 hx.2.2
      · rintro ⟨b, hb, rfl, h1, h2⟩
        obtain ⟨hf1, hf2⟩ := hfit b hb
        refine ⟨⟨b.chr_, i⟩, ?_, rfl⟩
        rw [Finset.mem_sigma, Finset.mem_filter, Finset.mem_range, Finset.mem_range]
        simp only
        exact ⟨hf1, by omega, (coveredBy_iff _ _ _).2 ⟨b, hb, rfl, h1, h2⟩⟩
    · rw [Finset.card_map, Finset.card_sigma]
  · show (∑ c in Finset.range s.chrNumber,
        ((Finset.range (s.chrLength c + 1)).filter
          fun j => coveredBy finder.blocksInstance_ c j = true).card) ≤
      ∑ c in Finset.range s.chrNumber, (s.chrLength c + 1)
    apply Finset.sum_le_sum
    intro c _
    calc ((Finset.range (s.chrLength c + 1)).filter
          fun j => coveredBy finder.blocksInstance_ c j = true).card
        ≤ (Finset.range (s.chrLength c + 1)).card := Finset.card_filter_le _ _
      _ = s.chrLength c + 1 := Finset.card_range _
  · intro hend
    have hsum : (∑ c in Finset.range s.chrNumber,
          ((Finset.range (s.chrLength c + 1)).filter
            fun j => coveredBy finder.blocksInstance_ c j = true).card) + s.chrNumber ≤
        ∑ c in Finset.range s.chrNumber, (s.chrLength c + 1) := by
      have hconst : (∑ _c in Finset.range s.chrNumber, 1) = s.chrNumber := by simp
      have hdist : (∑ c in Finset.range s.chrNumber,
            (((Finset.range (s.chrLength c + 1)).filter
              fun j => coveredBy finder.blocksInstance_ c j = true).card + 1)) =
          (∑ c in Finset.range s.chrNumber,
            ((Finset.range (s.chrLength c + 1)).filter
              fun j => coveredBy finder.blocksInstance_ c j = true).card) +
            ∑ _c in Finset.range s.chrNumber, 1 := Finset.sum_add_distrib
      rw [hconst] at hdist
      rw [← hdist]
      apply Finset.sum_le_sum
      intro c _
      have hsub : ((Finset.range (s.chrLength c + 1)).filter
            fun j => coveredBy finder.blocksInstance_ c j = true) ⊆
          Finset.range (s.chrLength c) := by
        intro j hj
        rw [Finset.mem_filter] at hj
        obtain ⟨b, hb, hc, _, h2⟩ := (coveredBy_iff _ _ _).1 hj.2
        have := hend b hb
        rw [hc] at this
        rw [Finset.mem_range]
        omega
      have := Finset.card_le_card hsub
      rw [Finset.card_range] at this
      omega
    exact ⟨hsum, fun hpos => Nat.lt_of_lt_of_le (Nat.lt_add_of_pos_right hpos) hsum⟩

/-- Witness for C23: positions 0 to 5 of chromosome 0 and 0 to 9 of chromosome 1 are
covered, 16 of 22 mask entries. -/
theorem GenerateOutput_coverage_witness :
    GenerateOutput coverageStorage coverageFinder = some ⟨22, 16⟩ ∧
      ∃ r, GenerateOutput coverageStorage coverageFinder = some r ∧
        r.total = ∑ c in Finset.range coverageStorage.chrNumber,
          (coverageStorage.chrLength c + 1) ∧
        (∃ S : Finset (Nat × Nat),
          (∀ c i, (c, i) ∈ S ↔
            ∃ b ∈ coverageFinder.blocksInstance_, b.chr_ = c ∧ b.start_ ≤ i ∧ i < b.end_) ∧
          r.totalCovered = S.card) ∧
        r.totalCovered ≤ r.total ∧
        ((∀ b ∈ coverageFinder.blocksInstance_, b.end_ ≤ coverageStorage.chrLength b.chr_) →
          r.totalCovered + coverageStorage.chrNumber ≤ r.total ∧
            (0 < coverageStorage.chrNumber → r.totalCovered < r.total)) :=
  ⟨by decide, GenerateOutput_coverage coverageStorage coverageFinder (by decide)⟩

/-! ## The scenarios A and B -/

/-- C21: over the storage of Scenario A, with any edge labels that are the same on the two
chromosomes, `FindBlocks` with `k = 21`, `minBlockSize = 500` and `maxBranchSize = 50`
returns with one block found and exactly two instances: both carry the id `+1`, start at 0
and end at 9921, one lies on chromosome 1 and one on chromosome 0. -/
theorem FindBlocks_scenarioA (label labelRC : Nat → Char) :
    FindBlocks (scenarioA label labelRC) (BlocksFinder.new 21) 500 50 0 =
        some scenarioAResult ∧
      scenarioAResult.blocksFound_ = 1 ∧
      scenarioAResult.blocksInstance_ =
        [{ id_ := 1, start_ := 0, end_ := 9921, chr_ := 1 },
          { id_ := 1, start_ := 0, end_ := 9921, chr_ := 0 }] := by
  refine ⟨?_, rfl, rfl⟩
  rw [FindBlocks_eq, scenarioA_enumeration, scenarioA_pairing]

set_option maxRecDepth 100000 in
/-- C22 fails on the code: over `scenarioBExample`, the storage of Scenario B, the
enumeration stores two sources with the strands `(+, -)` and two sinks with the strands
`(-, +)`; every sink is less than every source, `std::lower_bound` returns the end of the
sink vector for the first source, and `FindBlocks` has no result. With the forks stored by
an instance comparison that looks at the chromosome first, the pairing returns with two
blocks found. -/
theorem FindBlocks_scenarioB_undefined :
    enumeration scenarioBExample (BlocksFinder.new 21) 500 50 0 = scenarioBEnumerated ∧
      (∀ u ∈ scenarioBEnumerated.source_, ∀ v ∈ scenarioBEnumerated.sink_,
        Fork.lt scenarioBExample v u = true) ∧
      FindBlocks scenarioBExample (BlocksFinder.new 21) 500 50 0 = none ∧
      (FindBlocksPwise scenarioBExample scenarioBByChr).map
        (fun r => (r.blocksFound_, r.blocksInstance_.map fun b => (b.id_, b.chr_))) =
        some (2, [(-1, 0), (1, 1), (2, 0), (-2, 1)]) := by
  decide

/-! ## The coverage pass stays in bounds -/

/-- C31: when every block of `blocksInstance_` references a chromosome below the number of
chromosomes and ends at or before the length of that chromosome, the coverage pass of
`GenerateOutput` has a result: every index `i` that it marks satisfies `i < chrLen + 1` on a
chromosome whose mask exists. The last conjunct shows what is excluded: a block that ends
two positions beyond the chromosome marks an entry outside of the mask, and the pass has no
result. -/
theorem GenerateOutput_in_bounds (s : JunctionStorage) (finder : BlocksFinder)
    (h : ∀ b ∈ finder.blocksInstance_, b.chr_ < s.chrNumber ∧ b.end_ ≤ s.chrLength b.chr_) :
    (GenerateOutput s finder).isSome = true ∧
      (∀ b ∈ finder.blocksInstance_, ∀ i, b.start_ ≤ i → i < b.end_ →
        b.chr_ < s.chrNumber ∧ i < s.chrLength b.chr_ + 1) ∧
      GenerateOutput coverageStorage
        { coverageFinder with blocksInstance_ := [⟨1, 0, 12, 0⟩] } = none := by
  refine ⟨?_, ?_, by decide⟩
  · rw [GenerateOutput_eq s finder (fun b hb => ⟨(h b hb).1, by have := (h b hb).2; omega⟩)]
    rfl
  · intro b hb i _ hi
    have := h b hb
    exact ⟨this.1, by omega⟩

/-- Witness for C31: the three blocks of `coverageFinder` end at 4, 6 and 10 on chromosomes
of 10 bases. -/
theorem GenerateOutput_in_bounds_witness :
    (GenerateOutput coverageStorage coverageFinder).isSome = true ∧
      (∀ b ∈ coverageFinder.blocksInstance_, ∀ i, b.start_ ≤ i → i < b.end_ →
        b.chr_ < coverageStorage.chrNumber ∧ i < coverageStorage.chrLength b.chr_ + 1) ∧
      GenerateOutput coverageStorage
        { coverageFinder with blocksInstance_ := [⟨1, 0, 12, 0⟩] } = none :=
  GenerateOutput_in_bounds coverageStorage coverageFinder (by decide)

/-! ## The groups of `GroupBy` -/

/-- C32: for every vector `store` and every strict weak ordering `pred`, `GroupBy` returns;
`store` is left as a permutation of its input that is sorted by `pred`; the emitted ranges
`[first, last)` are non-empty and consecutive and cover exactly `[0, store.size())`; and two
elements lie in one range exactly when neither is less than the other. With `compareById`
two block instances lie in one range exactly when they have the same block id, and every
instance of the input is among the sorted ones. -/
theorem GroupBy_ranges {T : Type} (pred : T → T → Bool) (h : StrictWeakOrder pred)
    (store : List T) :
    (∃ sorted ranges, GroupBy store pred = some (sorted, ranges) ∧
        sorted.Perm store ∧
        sorted.Pairwise (fun a b => pred b a = false) ∧
        rangesFrom 0 ranges sorted.length ∧
        ∀ i j a b, sorted[i]? = some a → sorted[j]? = some b →
          ((∃ r ∈ ranges, r.1 ≤ i ∧ i < r.2 ∧ r.1 ≤ j ∧ j < r.2) ↔
            (pred a b = false ∧ pred b a = false))) ∧
      ∀ blocks : List BlockInstance,
        ∃ sorted ranges, GroupBy blocks compareById = some (sorted, ranges) ∧
          sorted.Perm blocks ∧
          rangesFrom 0 ranges sorted.length ∧
          ∀ i j a b, sorted[i]? = some a → sorted[j]? = some b →
            ((∃ r ∈ ranges, r.1 ≤ i ∧ i < r.2 ∧ r.1 ≤ j ∧ j < r.2) ↔
              a.GetBlockId = b.GetBlockId) := by
  constructor
  · obtain ⟨ranges, r1, r2, r3⟩ := GroupBy_eq pred h store
    refine ⟨_, ranges, r1, List.perm_insertionSort _ _, insertionSort_sorted_of_swo h store,
      ?_, r3⟩
    rw [List.length_insertionSort]
    exact r2
  · intro blocks
    obtain ⟨ranges, r1, r2, r3⟩ := GroupBy_eq compareById compareById_swo blocks
    refine ⟨_, ranges, r1, List.perm_insertionSort _ _, ?_, ?_⟩
    · rw [List.length_insertionSort]
      exact r2
    · intro i j a b ha hb
      rw [r3 i j a b ha hb]
      simp only [compareById, decide_eq_false_iff_not]
      omega

/-- Witness for C32: the numbers 3, 1, 2, 1 under `<` are sorted to 1, 1, 2, 3 and grouped
into the ranges `[0, 2)`, `[2, 3)` and `[3, 4)`. Under a comparison that is not irreflexive
the inner loop does not move and the outer loop does not end: there is no result. -/
theorem GroupBy_ranges_witness :
    GroupBy [3, 1, 2, 1] (fun a b : Nat => decide (a < b)) =
        some ([1, 1, 2, 3], [(0, 2), (2, 3), (3, 4)]) ∧
      GroupBy [1] (fun _ _ : Nat => true) = none ∧
      ((∃ sorted ranges, GroupBy [3, 1, 2, 1] (fun a b : Nat => decide (a < b)) =
            some (sorted, ranges) ∧
          sorted.Perm [3, 1, 2, 1] ∧
          sorted.Pairwise (fun a b => (fun a b : Nat => decide (a < b)) b a = false) ∧
          rangesFrom 0 ranges sorted.length ∧
          ∀ i j a b, sorted[i]? = some a → sorted[j]? = some b →
            ((∃ r ∈ ranges, r.1 ≤ i ∧ i < r.2 ∧ r.1 ≤ j ∧ j < r.2) ↔
              ((fun a b : Nat => decide (a < b)) a b = false ∧
                (fun a b : Nat => decide (a < b)) b a = false))) ∧
        ∀ blocks : List BlockInstance,
          ∃ sorted ranges, GroupBy blocks compareById = some (sorted, ranges) ∧
            sorted.Perm blocks ∧
            rangesFrom 0 ranges sorted.length ∧
            ∀ i j a b, sorted[i]? = some a → sorted[j]? = some b →
              ((∃ r ∈ ranges, r.1 ≤ i ∧ i < r.2 ∧ r.1 ≤ j ∧ j < r.2) ↔
                a.GetBlockId = b.GetBlockId)) :=
  ⟨by decide, by decide, GroupBy_ranges (fun a b : Nat => decide (a < b))
    (strictWeakOrder_of_key fun a => a) [3, 1, 2, 1]⟩

/-! ## `PointPushBack` is atomic on failure -/

/-- C33: `PointPushBack` of src/src/path.h is atomic on failure. On every path that the
calls of the interface build: when the end vertex of `e` is in the path, the call returns
`false` and leaves the path as it is; and whenever the call returns `false`, the end vertex
was in the path or the worker raised `failFlag` (the flanking limit), the right body, the
right flank distance and the distance keeper (the in-path vertices with their distances) are
the ones before the call, and the path differs from the one before the call in `instance_`
at most. -/
theorem PointPushBack_atomic_on_failure (s : JunctionStorage)
    (used : JunctionSequentialIterator → Bool) (p : Path) (e : Edge)
    (h : Path.Reachable s used p) :
    (p.IsInPath e.endVertex = true → Path.PointPushBack s used p e = some (false, p)) ∧
      ∀ q, Path.PointPushBack s used p e = some (false, q) →
        (p.IsInPath e.endVertex = true ∨
          (Path.PointPushBackWorker s used p e.endVertex (p.rightBodyFlank_ + e.length) e
            (s.instances e.endVertex).length 0 p.instance_).2 = true) ∧
        q.rightBody_ = p.rightBody_ ∧ q.RightDistance = p.RightDistance ∧
        q.distanceKeeper_ = p.distanceKeeper_ ∧
        (∀ v, q.IsInPath v = p.IsInPath v) ∧
        (∀ v, q.distanceKeeper_.Get v = p.distanceKeeper_.Get v) ∧
        q = { p with instance_ := q.instance_ } := by
  have heq := Path.PointPushBack_eq s used p e h.invariant.flank.1
  constructor
  · intro hin
    have hset : p.distanceKeeper_.IsSet e.endVertex = true := hin
    rw [heq, if_pos hset]
  · intro q hq
    rw [heq] at hq
    by_cases hset : p.distanceKeeper_.IsSet e.endVertex = true
    · rw [if_pos hset] at hq
      cases hq
      exact ⟨Or.inl hset, rfl, rfl, rfl, fun _ => rfl, fun _ => rfl, rfl⟩
    · rw [if_neg hset] at hq
      split at hq
      · rename_i hfail
        simp only [Option.map_eq_some', Prod.mk.injEq] at hq
        obtain ⟨set, _, _, rfl⟩ := hq
        exact ⟨Or.inr hfail, rfl, rfl, rfl, fun _ => rfl, fun _ => rfl, rfl⟩
      · cases hq

/-- Witness for C33: over `flankStorage`, on the path of `Init(3)` and `PointPushFront(2 -> 3)`, the vertex
`4` is not in the path and `PointPushBack(3 -> 4)` returns `false`: the instance on
chromosome 1 would get a left flank of `100` over the limit `50`. The path is left as it
was. -/
theorem PointPushBack_atomic_on_failure_witness :
    Path.Reachable flankStorage unused flankPath ∧
      flankPath.IsInPath 4 = false ∧
      Path.PointPushBack flankStorage unused flankPath ⟨3, 4, 'A', 100⟩ =
        some (false, flankPath) ∧
      (Path.PointPushBackWorker flankStorage unused flankPath 4 (0 + 100) ⟨3, 4, 'A', 100⟩
        (flankStorage.instances 4).length 0 flankPath.instance_).2 = true :=
  have hr : Path.Reachable flankStorage unused flankPath :=
    Path.Reachable.pushFront flankOrigin ⟨2, 3, 'A', 100⟩ true flankPath
      (Path.Reachable.init 50 100 50 3) (by decide)
  have hq : Path.PointPushBack flankStorage unused flankPath ⟨3, 4, 'A', 100⟩ =
      some (false, flankPath) := by decide
  ⟨hr, by decide, hq,
    ((PointPushBack_atomic_on_failure flankStorage unused flankPath ⟨3, 4, 'A', 100⟩
      hr).2 flankPath hq).1.resolve_left (by decide)⟩

/-! ## `PointPopBack` after `PointPushBack` -/

/-- C34: `PointPopBack` after a `PointPushBack` that returned `true` (src/src/path.h). On
every path `p` that the calls of the interface build, the call of `PointPopBack` on the path
`q` after the push is the loop over the instances, run with the distance keeper of `p`, and
its result is `p` with the instances of that loop: whenever the call returns, the right
body, `RightDistance`, `MiddlePathLength`, `GetEndVertex` and `IsInPath` are the ones before
the push. The call does not always return: on `stalePath`, which the interface builds,
`PointPushBack` of the edge from `1` to `4` returns `true`, and the loop `while (true)` of
the `PointPopBack` that follows walks an instance back over the junctions of `4` and `2`,
neither in the path, and leaves the chromosome. -/
theorem PointPopBack_after_PointPushBack (s : JunctionStorage)
    (used : JunctionSequentialIterator → Bool) (p : Path) (e : Edge) (q : Path)
    (h : Path.Reachable s used p) (hq : Path.PointPushBack s used p e = some (true, q)) :
    Path.PointPopBack s q =
        (Path.popBackInstances s p.distanceKeeper_ e.endVertex q.instance_).map
          (fun set => { p with instance_ := set }) ∧
      (∀ r, Path.PointPopBack s q = some r →
        r.rightBody_ = p.rightBody_ ∧ r.RightDistance = p.RightDistance ∧
        r.MiddlePathLength = p.MiddlePathLength ∧ r.GetEndVertex = p.GetEndVertex ∧
        (∀ v, r.IsInPath v = p.IsInPath v) ∧ r = { p with instance_ := r.instance_ }) ∧
      (Path.Reachable staleStorage unused stalePath ∧
        Path.PointPushBack staleStorage unused stalePath ⟨1, 4, 'A', 100⟩ =
          some (true, stalePushed) ∧
        Path.PointPopBack staleStorage stalePushed = none) := by
  refine ⟨Path.PointPopBack_after_push s used p e q h.invariant.flank.1 hq, ?_,
    stalePath_reachable, by decide, by decide⟩
  intro r hr
  have h1 := Path.PointPopBack_restores s used p e q r h.invariant.flank.1 hq hr
  refine ⟨?_, ?_, ?_, ?_, ?_, h1⟩
  · rw [h1]
  · rw [h1]; rfl
  · rw [h1]; rfl
  · rw [h1]; rfl
  · intro v; rw [h1]; rfl

/-- Witness for C34: over `exampleStorage`, `PointPushBack` of the edge from `1` to `2` on the path of
`Init(1)` returns `true`, and the `PointPopBack` that follows returns the path of
`Init(1)`. -/
theorem PointPopBack_after_PointPushBack_witness :
    Path.Reachable exampleStorage unused exampleOrigin ∧
      Path.PointPushBack exampleStorage unused exampleOrigin ⟨1, 2, 'A', 100⟩ =
        some (true, examplePath) ∧
      Path.PointPopBack exampleStorage examplePath = some exampleOrigin ∧
      Path.PointPopBack exampleStorage examplePath =
        (Path.popBackInstances exampleStorage exampleOrigin.distanceKeeper_ 2
          examplePath.instance_).map (fun set => { exampleOrigin with instance_ := set }) :=
  ⟨Path.Reachable.init 50 100 50 1, by decide, by decide,
    (PointPopBack_after_PointPushBack exampleStorage unused exampleOrigin ⟨1, 2, 'A', 100⟩
      examplePath (Path.Reachable.init 50 100 50 1) (by decide)).1⟩

/-! ## The distance invariant of a path -/

/-- C35, counterexample: `wideStorage` has `2^32 + 2` vertices, and the vertex `2^32 + 1`
has a junction on chromosome 0, next to the one of the vertex `1`. After `Init(1)` alone on
a path of src/src/path.h, `IsInPath(2^32 + 1)` answers `true` although the vertex is neither
the origin nor a pushed vertex, and `PointPushBack` of the edge from `1` to `2^32 + 1`
returns `false`: the keys of the distance keeper are 32-bit values, and `2^32 + 1` has the
32-bit value `1`. -/
theorem IsInPath_narrows_counterexample :
    (wideStorage.verticesNumber = 2 ^ 32 + 2 ∧
      wideStorage.instances 1 = [{ chrId := 0, idx := 0, positiveStrand := true }] ∧
      wideStorage.instances (2 ^ 32 + 1) =
        [{ chrId := 0, idx := 1, positiveStrand := true }]) ∧
    Path.Reachable wideStorage unused wideOrigin ∧
    pathVertices wideOrigin.origin_ wideOrigin.leftBody_ wideOrigin.rightBody_ = [1] ∧
    wideOrigin.IsInPath (2 ^ 32 + 1) = true ∧
    Path.PointPushBack wideStorage unused wideOrigin ⟨1, 2 ^ 32 + 1, 'A', 100⟩ =
      some (false, wideOrigin) :=
  ⟨⟨by decide, by decide, by decide⟩, Path.Reachable.init 50 100 50 1, by decide, by decide,
    by decide⟩

/-- C35: the distance invariant of a path, in both files. On every path that `Init` and
calls of `PointPushBack` and `PointPushFront` build (in src/src/path.h also calls of
`PointPopBack` and `PointPopFront`), `RightDistance()` is the sum of the lengths of the edges
of the right body, `LeftDistance()` the sum for the left body, `MiddlePathLength()` the sum
for both; on each side the first point starts (right) or ends (left) at `0` and each later
point starts (right) or ends (left) where the point pushed before it ends (right) or starts
(left); and when the origin and the vertices of the bodies are 32-bit values, `IsInPath`
answers for a 32-bit value whether it is one of them, and none of them occurs twice. In
src/src/path.h, whose distance keeper is part of the sources, `IsInPath` answers in general
by the 32-bit value of the vertex. -/
theorem Path_distance_invariant {ι : Type} (s : JunctionStorage)
    (used : JunctionSequentialIterator → Bool) (p : Path) (w : LCBWorkers ι) (q : LCBPath ι)
    (hp : Path.Reachable s used p) (hq : LCBPath.Reachable w q) :
    (PathSums p.leftBody_ p.rightBody_ p.LeftDistance p.RightDistance p.MiddlePathLength ∧
      InPathModular p.origin_ p.leftBody_ p.rightBody_ p.IsInPath ∧
      InPathExact p.origin_ p.leftBody_ p.rightBody_ p.IsInPath) ∧
    (PathSums q.leftBody_ q.rightBody_ q.LeftDistance q.RightDistance q.MiddlePathLength ∧
      InPathExact q.origin_ q.leftBody_ q.rightBody_ q.IsInPath) :=
  ⟨PathInvariant.distances hp.invariant,
    (PathInvariant.distances hq.keeps_invariant).1,
    (PathInvariant.distances hq.keeps_invariant).2.2⟩

/-- Witness for C35: the invariant on the path of `Init(1)`, `PointPushBack(1 -> 2)` and
`PointPushBack(2 -> 3)` over `exampleStorage`, and on the path of `Init(1)`,
`PointPushBack(1 -> 2)`, `PointPushBack(2 -> 3)` and `PointPushFront(0 -> 1)` of
SibeliaZ-LCB/path.h: the right distances are `200`, the left distances `0` and `50`. -/
theorem Path_distance_invariant_witness :
    (Path.Reachable exampleStorage unused examplePath2 ∧
      LCBPath.Reachable unitWorkers lcbPath3) ∧
    (examplePath2.RightDistance = 200 ∧ lcbPath3.LeftDistance = 50 ∧
      lcbPath3.MiddlePathLength = 250) ∧
    ((PathSums examplePath2.leftBody_ examplePath2.rightBody_ examplePath2.LeftDistance
        examplePath2.RightDistance examplePath2.MiddlePathLength ∧
      InPathModular examplePath2.origin_ examplePath2.leftBody_ examplePath2.rightBody_
        examplePath2.IsInPath ∧
      InPathExact examplePath2.origin_ examplePath2.leftBody_ examplePath2.rightBody_
        examplePath2.IsInPath) ∧
    (PathSums lcbPath3.leftBody_ lcbPath3.rightBody_ lcbPath3.LeftDistance
        lcbPath3.RightDistance lcbPath3.MiddlePathLength ∧
      InPathExact lcbPath3.origin_ lcbPath3.leftBody_ lcbPath3.rightBody_
        lcbPath3.IsInPath)) :=
  have h1 : Path.Reachable exampleStorage unused examplePath2 :=
    Path.Reachable.pushBack examplePath ⟨2, 3, 'A', 100⟩ true examplePath2
      (Path.Reachable.pushBack exampleOrigin ⟨1, 2, 'A', 100⟩ true examplePath
        (Path.Reachable.init 50 100 50 1) (by decide)) (by decide)
  have h2 : LCBPath.Reachable unitWorkers lcbPath3 :=
    LCBPath.Reachable.pushFront lcbPath2 ⟨0, 1, 'A', 50⟩ true lcbPath3
      (LCBPath.Reachable.pushBack lcbPath1 ⟨2, 3, 'A', 100⟩ true lcbPath2
        (LCBPath.Reachable.pushBack lcbOrigin ⟨1, 2, 'A', 100⟩ true lcbPath1
          (LCBPath.Reachable.init () 50 100 10 50 1 lcbOrigin rfl) rfl) rfl) rfl
  ⟨⟨h1, h2⟩, ⟨by decide, by decide, by decide⟩,
    Path_distance_invariant exampleStorage unused examplePath2 unitWorkers lcbPath3 h1 h2⟩

/-! ## The order of the edges that `DumpPath` returns -/

/-- C36: `DumpPath(std::vector<Edge> &)` does not return the edges in path order. On every
path built by `Init` and pushes that extend it at its end and start vertex, in both files:
the result has as many edges as the two bodies (`LeftSize + RightSize - 2`); the edges read
from the leftmost to the rightmost (`pathEdges`, which is what `DumpPath(std::ostream &)`
writes) are chained; `DumpPath` returns them with the right body from its last point to its
first, which is the path order when the right body has at most one point and is not chained
when it has two or more. -/
theorem DumpPath_reverses_right_body {ι : Type} (s : JunctionStorage)
    (used : JunctionSequentialIterator → Bool) (p : Path) (w : LCBWorkers ι) (q : LCBPath ι)
    (hp : Path.Extended s used p) (hq : LCBPath.Extended w q) :
    (q.DumpPath.length = q.LeftSize + q.RightSize - 2 ∧
      Chained (pathEdges q.leftBody_ q.rightBody_) ∧
      q.DumpPathStream.1 ++ q.DumpPathStream.2 = pathEdges q.leftBody_ q.rightBody_ ∧
      q.DumpPath = q.DumpPathStream.1 ++ q.DumpPathStream.2.reverse ∧
      (q.rightBody_.length ≤ 1 → q.DumpPath = pathEdges q.leftBody_ q.rightBody_) ∧
      (2 ≤ q.rightBody_.length → ¬ Chained q.DumpPath)) ∧
    (p.DumpPath.length = p.leftBody_.length + p.rightBody_.length ∧
      Chained (pathEdges p.leftBody_ p.rightBody_) ∧
      (p.rightBody_.length ≤ 1 → p.DumpPath = pathEdges p.leftBody_ p.rightBody_) ∧
      (2 ≤ p.rightBody_.length → ¬ Chained p.DumpPath)) := by
  obtain ⟨hrp, hRp, hLp⟩ := hp.chains
  obtain ⟨hrq, hRq, hLq⟩ := hq.chains_at_origin
  obtain ⟨p1, p2, p3⟩ := dumped_edges p.origin_ p.leftBody_ p.rightBody_ p.distanceKeeper_
    p.leftBodyFlank_ p.rightBodyFlank_ hRp hrp.invariant
  obtain ⟨q1, q2, q3⟩ := dumped_edges q.origin_ q.leftBody_ q.rightBody_ q.distanceKeeper_
    q.leftBodyFlank_ q.rightBodyFlank_ hRq hrq.keeps_invariant
  refine ⟨⟨?_, pathEdges_chained _ _ _ hLq hRq, rfl, ?_, q2, q3⟩,
    ⟨p1, pathEdges_chained _ _ _ hLp hRp, p2, p3⟩⟩
  · unfold LCBPath.LeftSize LCBPath.RightSize
    rw [show q.DumpPath.length = q.leftBody_.length + q.rightBody_.length from q1]
    omega
  · unfold LCBPath.DumpPath LCBPath.DumpPathStream
    simp only [List.map_reverse]

/-- Witness for C36: the paths of `Init(1)`, `PointPushBack(1 -> 2)` and
`PointPushBack(2 -> 3)`: in both files `DumpPath` returns the edge from `2` to `3` before
the edge from `1` to `2`. -/
theorem DumpPath_reverses_right_body_witness :
    (Path.Extended exampleStorage unused examplePath2 ∧
      LCBPath.Extended unitWorkers lcbPath2) ∧
    (lcbPath2.DumpPath = [⟨2, 3, 'A', 100⟩, ⟨1, 2, 'A', 100⟩] ∧
      lcbPath2.DumpPathStream = ([], [⟨1, 2, 'A', 100⟩, ⟨2, 3, 'A', 100⟩]) ∧
      lcbPath2.LeftSize + lcbPath2.RightSize - 2 = 2 ∧
      examplePath2.DumpPath = [⟨2, 3, 'A', 100⟩, ⟨1, 2, 'A', 100⟩]) ∧
    (¬ Chained lcbPath2.DumpPath ∧ ¬ Chained examplePath2.DumpPath) :=
  have h1 : Path.Extended exampleStorage unused examplePath2 :=
    Path.Extended.pushBack examplePath ⟨2, 3, 'A', 100⟩ true examplePath2
      (Path.Extended.pushBack exampleOrigin ⟨1, 2, 'A', 100⟩ true examplePath
        (Path.Extended.init 50 100 50 1) (by decide) (by decide)) (by decide) (by decide)
  have h2 : LCBPath.Extended unitWorkers lcbPath2 :=
    LCBPath.Extended.pushBack lcbPath1 ⟨2, 3, 'A', 100⟩ true lcbPath2
      (LCBPath.Extended.pushBack lcbOrigin ⟨1, 2, 'A', 100⟩ true lcbPath1
        (LCBPath.Extended.init () 50 100 10 50 1 lcbOrigin rfl) rfl rfl) rfl rfl
  have h := DumpPath_reverses_right_body exampleStorage unused examplePath2 unitWorkers
    lcbPath2 h1 h2
  ⟨⟨h1, h2⟩, ⟨by decide, by decide, by decide, by decide⟩,
    ⟨h.1.2.2.2.2.2 (by decide), h.2.2.2.2 (by decide)⟩⟩

/-! ## `Point::operator!=` -/

/-- C37: `Point::operator!=` never returns, in both files. Its body `return p != *this;`
calls `operator!=` again with the two points exchanged, so the calls nest without end: for
every two points and every bound on the depth of the calls there is no result, while
`operator==` returns and is `true` exactly on equal start distances and equal edges. -/
theorem Point_ne_never_returns (fuel : Nat) (p q : Point) :
    Point.ne fuel p q = none ∧
      (Point.eq p q = true ↔ p.startDistance = q.startDistance ∧ p.edge = q.edge) := by
  constructor
  · induction fuel generalizing p q with
    | zero => rfl
    | succ n ih => exact ih q p
  · simp [Point.eq]

end Sibelia
